import Mathlib

/-!
# music21j duration model

A shallow embedding of `src/music21/duration.js` (the `Duration` and `Tuplet`
classes) together with theorems about it.

Modelling conventions.

* JavaScript numbers are modelled as exact rationals (`ℚ`): `Math.pow(2, k)` is
  `2 ^ k`, `Math.abs` is `|·|`, and `Math.floor(Math.log(x) / Math.log(2))` is
  the exact floor of the base-two logarithm, `Int.log 2 x`.  Rounding of IEEE
  doubles is outside the model, and so are `NaN` and the infinities: a step
  whose JavaScript value is not a finite number ends the run with
  `Abort.nonFinite`.
* Division is the division of `ℚ`, which gives `0` for a zero divisor where
  JavaScript gives an infinity or `NaN`.  Where a theorem gives the value of a
  quotient, the divisor is non-zero by hypothesis or by proof; the theorems
  about arbitrary tuplets only relate the stored quarter length to the
  product of the multipliers, whatever their values.
* `undefined` is `none`.  `_type` is an `Option String` because the numeric
  path stores `ordinalTypeFromNum[typeNumber]`, which is `undefined` outside
  the table.
* Objects are values; a mutating method returns the updated object.  A method
  that may throw returns a `Completion`: the state at the moment the method
  ends, and the thrown message if it ended by `throw`.
* `src/music21/webmidi.js` is embedded in the namespace `webmidi`: an event
  object is the list of its properties, and a run of `midiInArrived` is
  described by the calls it makes to the callbacks.
* Cloning is about which object is which, so there a Tuplet object carries its
  identity, the order number of its allocation (`TupletObject`); `clone()`
  itself belongs to `prebase.ProtoM21Object` and is modelled from the
  specification.
* `new duration.Duration(ql)` builds further Durations while it infers tuplets.
  The constructor is therefore defined by recursion on a nesting budget
  (`fuel`); `Abort.outOfFuel` reports an exhausted budget.
* `common.rationalize` and the global `self` are not defined in the module;
  they are parameters of the functions that read them.
* Dot counts and tuplet note counts are natural numbers.  Presentation fields
  of a Tuplet (`bracket`, `placement`, `tupletActualShow`, `tupletNormalShow`,
  `type`) do not enter any computation and are left out.
-/

namespace duration

/-! ## Tables -/

/-- `duration.quarterTypeIndex = 6`. -/
def quarterTypeIndex : ℤ := 6

/-- `duration.ordinalTypeFromNum`. -/
def ordinalTypeFromNum : List String :=
  ["duplex-maxima", "maxima", "longa", "breve", "whole", "half", "quarter", "eighth",
   "16th", "32nd", "64th", "128th", "256th", "512th", "1024th"]

/-- `duration.typeFromNumDict`, keys as rationals (`'0.5'` is `1/2`, ...). -/
def typeFromNumDict : List (ℚ × String) :=
  [(1, "whole"), (2, "half"), (4, "quarter"), (8, "eighth"), (16, "16th"), (32, "32nd"),
   (64, "64th"), (128, "128th"), (256, "256th"), (512, "512th"), (1024, "1024th"),
   (0, "zero"), (1/2, "breve"), (1/4, "longa"), (1/8, "maxima"), (1/16, "duplex-maxima")]

/-- `duration.vexflowDurationArray`. -/
def vexflowDurationArray : List (Option String) :=
  [none, none, none, none, some "w", some "h", some "q", some "8", some "16", some "32",
   none, none, none, none, none]

/-- JavaScript array read `arr[i]` at an integer index: `undefined` outside `0 .. length - 1`. -/
def arrayGet {α : Type} (arr : List α) (i : ℤ) : Option α :=
  if 0 ≤ i then arr.get? i.toNat else none

/-- jQuery `$.inArray(x, arr)`: the index of the first element strictly equal to `x`, or `-1`.
`undefined` is never equal to a string. -/
def inArray (x : Option String) (arr : List String) : ℤ :=
  match x with
  | none => -1
  | some s =>
    match arr.indexOf? s with
    | some i => (i : ℤ)
    | none => -1

/-- The constant `0.00001` added before taking the logarithm in `updateFeaturesFromQl`. -/
def logEpsilon : ℚ := 1 / 100000

/-- The constant `0.0001` of the comparison in `_findDots`. -/
def dotTolerance : ℚ := 1 / 10000

/-! ## Data model -/

mutual
/-- The fields `_quarterLength`, `_dots`, `_type`, `_tuplets` of a `duration.Duration`. -/
inductive Duration : Type
  | mk (quarterLength : ℚ) (dots : ℕ) (type : Option String) (tuplets : List Tuplet) : Duration
/-- The fields `numberNotesActual`, `numberNotesNormal`, `durationActual`, `durationNormal`,
`frozen` of a `duration.Tuplet`. -/
inductive Tuplet : Type
  | mk (numberNotesActual numberNotesNormal : ℕ) (durationActual durationNormal : Duration)
      (frozen : Bool) : Tuplet
end

/-- Getter `quarterLength`. -/
def Duration.quarterLength : Duration → ℚ
  | .mk q _ _ _ => q

/-- Getter `dots`. -/
def Duration.dots : Duration → ℕ
  | .mk _ n _ _ => n

/-- Getter `type`. -/
def Duration.type : Duration → Option String
  | .mk _ _ t _ => t

/-- Getter `tuplets`. -/
def Duration.tuplets : Duration → List Tuplet
  | .mk _ _ _ ts => ts

/-- Field `numberNotesActual`. -/
def Tuplet.numberNotesActual : Tuplet → ℕ
  | .mk a _ _ _ _ => a

/-- Field `numberNotesNormal`. -/
def Tuplet.numberNotesNormal : Tuplet → ℕ
  | .mk _ n _ _ _ => n

/-- Field `durationActual`. -/
def Tuplet.durationActual : Tuplet → Duration
  | .mk _ _ da _ _ => da

/-- Field `durationNormal`. -/
def Tuplet.durationNormal : Tuplet → Duration
  | .mk _ _ _ dn _ => dn

/-- Field `frozen`. -/
def Tuplet.frozen : Tuplet → Bool
  | .mk _ _ _ _ f => f

/-- Why a run of the model stops without a result. -/
inductive Abort : Type
  | outOfFuel : Abort
  | nonFinite : Abort
  | thrown (message : String) : Abort

/-- The state in which a method ends, and the message it threw, if any. -/
structure Completion (σ : Type) where
  state : σ
  thrown : Option String

/-- The object returned by `common.rationalize`. -/
structure Fraction where
  numerator : ℕ
  denominator : ℕ

/-- The argument of `new duration.Duration(ql)`: a string, a number, or nothing. -/
inductive DurationArg : Type
  | name (s : String) : DurationArg
  | number (q : ℚ) : DurationArg
  | undefined : DurationArg

/-- The argument `durationActual` of `new duration.Tuplet(...)`: a Duration or a number. -/
inductive TupletDurationArg : Type
  | object (d : Duration) : TupletDurationArg
  | number (q : ℚ) : TupletDurationArg

/-! ## Tuplet arithmetic -/

/-- `Tuplet.prototype.totalTupletLength`. -/
def Tuplet.totalTupletLength (t : Tuplet) : ℚ :=
  (t.numberNotesNormal : ℚ) * t.durationNormal.quarterLength

/-- `Tuplet.prototype.tupletMultiplier`. -/
def Tuplet.tupletMultiplier (t : Tuplet) : ℚ :=
  let lengthActual := t.durationActual.quarterLength
  t.totalTupletLength / ((t.numberNotesActual : ℚ) * lengthActual)

/-! ## Duration -/

/-- `Duration.prototype._findDots`. -/
def Duration._findDots (d : Duration) (ql : ℚ) : ℕ :=
  if ql = 0 then 0
  else
    let typeNumber := inArray d.type ordinalTypeFromNum
    let powerOfTwo : ℚ := 2 ^ (quarterTypeIndex - typeNumber)
    match (List.range 5).find? (fun dotsNum =>
        let dotMultiplier : ℚ := (2 ^ dotsNum - 1) / 2 ^ dotsNum
        let durationMultiplier := 1 + dotMultiplier
        decide (|powerOfTwo * durationMultiplier - ql| < dotTolerance)) with
    | some dotsNum => dotsNum
    | none => 0

/-- `Duration.prototype.updateQlFromFeatures`. -/
def Duration.updateQlFromFeatures (d : Duration) : Duration :=
  let typeNumber := inArray d.type ordinalTypeFromNum
  let undottedQuarterLength : ℚ := 2 ^ (quarterTypeIndex - typeNumber)
  let dottedMultiplier : ℚ := 1 + ((2 ^ d.dots - 1) / 2 ^ d.dots)
  let unTupletedQl := undottedQuarterLength * dottedMultiplier
  let tupletCorrectedQl :=
    d.tuplets.foldl (fun acc tuplet => acc * tuplet.tupletMultiplier) unTupletedQl
  .mk tupletCorrectedQl d.dots d.type d.tuplets

/-- `Duration.prototype.appendTuplet`. -/
def Duration.appendTuplet (d : Duration) (newTuplet : Tuplet) (skipUpdateQl : Bool) : Duration :=
  let newTuplet := Tuplet.mk newTuplet.numberNotesActual newTuplet.numberNotesNormal
    newTuplet.durationActual newTuplet.durationNormal true
  let d := Duration.mk d.quarterLength d.dots d.type (d.tuplets ++ [newTuplet])
  if skipUpdateQl ≠ true then d.updateQlFromFeatures else d

/-- Setter of `dots`. -/
def Duration.set_dots (d : Duration) (numDots : ℕ) : Duration :=
  (Duration.mk d.quarterLength numDots d.type d.tuplets).updateQlFromFeatures

/-- Setter of `type`. -/
def Duration.set_type (d : Duration) (typeIn : String) : Completion Duration :=
  let typeNumber := inArray (some typeIn) ordinalTypeFromNum
  if typeNumber = -1 then
    ⟨d, some ("invalid type " ++ typeIn)⟩
  else
    ⟨(Duration.mk d.quarterLength d.dots (some typeIn) d.tuplets).updateQlFromFeatures, none⟩

/-- The JavaScript value `n || dflt` for a count: `dflt` when `n` is missing or `0`. -/
def orDefault (n : Option ℕ) (dflt : ℕ) : ℕ :=
  match n with
  | some (k + 1) => k + 1
  | _ => dflt

/-- The constructor `duration.Tuplet`.  `newDuration` stands for `new duration.Duration(·)`. -/
def Tuplet.new (newDuration : DurationArg → Except Abort Duration)
    (numberNotesActual numberNotesNormal : Option ℕ)
    (durationActual : Option TupletDurationArg) (durationNormal : Option Duration) :
    Except Abort Tuplet := do
  let actual := orDefault numberNotesActual 3
  let normal := orDefault numberNotesNormal 2
  let da ← match durationActual with
    | some (.object d) => pure d
    | some (.number q) =>
      if q = 0 then newDuration (.number (1 / 2)) else newDuration (.number q)
    | none => newDuration (.number (1 / 2))
  let dn := match durationNormal with
    | some d => d
    | none => da
  pure (Tuplet.mk actual normal da dn false)

/-- `Duration.prototype.updateFeaturesFromQl`.  `rationalize` stands for `common.rationalize`
and `newDuration` for `new duration.Duration(·)`. -/
def Duration.updateFeaturesFromQl (rationalize : ℚ → Option Fraction)
    (newDuration : DurationArg → Except Abort Duration) (d : Duration) :
    Except Abort Duration :=
  let ql := d.quarterLength
  if ql + logEpsilon ≤ 0 then .error .nonFinite
  else
    let powerOfTwo : ℤ := Int.log 2 (ql + logEpsilon)
    let typeNumber := quarterTypeIndex - powerOfTwo
    let d := Duration.mk d.quarterLength d.dots (arrayGet ordinalTypeFromNum typeNumber) d.tuplets
    let d := Duration.mk d.quarterLength (d._findDots ql) d.type d.tuplets
    let undottedQuarterLength : ℚ := 2 ^ (quarterTypeIndex - typeNumber)
    let dottedMultiplier : ℚ := 1 + ((2 ^ d.dots - 1) / 2 ^ d.dots)
    let unTupletedQl := undottedQuarterLength * dottedMultiplier
    if unTupletedQl ≠ ql ∧ ql ≠ 0 then
      let typeNumber := typeNumber - 1
      let d := Duration.mk d.quarterLength d.dots (arrayGet ordinalTypeFromNum typeNumber)
        d.tuplets
      let unTupletedQl := unTupletedQl * 2
      let tupletRatio := ql / unTupletedQl
      match rationalize tupletRatio with
      | none => .ok d
      | some ratioRat => do
        let da ← newDuration (.number unTupletedQl)
        let t ← Tuplet.new newDuration (some ratioRat.denominator) (some ratioRat.numerator)
          (some (.object da)) none
        pure (d.appendTuplet t true)
    else .ok d

/-- Setter of `quarterLength`; `none` is the argument `undefined`. -/
def Duration.set_quarterLength (rationalize : ℚ → Option Fraction)
    (newDuration : DurationArg → Except Abort Duration) (d : Duration) (ql : Option ℚ) :
    Except Abort Duration :=
  let ql := match ql with
    | some q => q
    | none => 1
  Duration.updateFeaturesFromQl rationalize newDuration
    (Duration.mk ql d.dots d.type d.tuplets)

/-- The fields a `duration.Duration` has before the constructor dispatches on its argument. -/
def Duration.initial : Duration := .mk 1 0 (some "quarter") []

/-- The body of the constructor `duration.Duration`, with `newDuration` for the nested uses of
the constructor. -/
def Duration.construct (rationalize : ℚ → Option Fraction)
    (newDuration : DurationArg → Except Abort Duration) (ql : DurationArg) :
    Except Abort Duration :=
  match ql with
  | .name s =>
    match (Duration.initial.set_type s).thrown with
    | some message => .error (.thrown message)
    | none => .ok (Duration.initial.set_type s).state
  | .number q => Duration.set_quarterLength rationalize newDuration Duration.initial (some q)
  | .undefined => Duration.set_quarterLength rationalize newDuration Duration.initial none

/-- `new duration.Duration(ql)` with a budget of `fuel` nested constructor calls. -/
def Duration.new (rationalize : ℚ → Option Fraction) : ℕ → DurationArg → Except Abort Duration
  | 0, _ => .error .outOfFuel
  | fuel + 1, ql => Duration.construct rationalize (Duration.new rationalize fuel) ql

/-- `Tuplet.prototype.setRatio`.  The test reads `self.frozen`, where `self` is not bound in the
module and so is the global object; `selfFrozen` is the value of that property (`none` when the
global object has no property `frozen`). -/
def Tuplet.setRatio (selfFrozen : Option Bool) (t : Tuplet) (actual normal : Option ℕ) :
    Completion Tuplet :=
  if selfFrozen = some true then
    ⟨t, some "A frozen tuplet (or one attached to a duration) is immutable"⟩
  else
    ⟨Tuplet.mk (orDefault actual 3) (orDefault normal 2) t.durationActual t.durationNormal
      t.frozen, none⟩

/-- `Tuplet.prototype.setDurationType`, reading `self.frozen` as `setRatio` does.  The result
is the state of the Tuplet and what was thrown; `newDuration` is the constructor. -/
def Tuplet.setDurationType (selfFrozen : Option Bool)
    (newDuration : DurationArg → Except Abort Duration) (t : Tuplet) (type : String) :
    Except Abort (Completion Tuplet) :=
  if selfFrozen = some true then
    .ok ⟨t, some "A frozen tuplet (or one attached to a duration) is immutable"⟩
  else
    match newDuration (.name type) with
    | .error (.thrown message) => .ok ⟨t, some message⟩
    | .error e => .error e
    | .ok da => .ok ⟨Tuplet.mk t.numberNotesActual t.numberNotesNormal da da t.frozen, none⟩

/-! ## The symbolic formula of the specification -/

/-- `dottedMultiplier(dots) = 1 + (2^dots - 1)/2^dots`, as the specification writes it. -/
def specDottedMultiplier (dots : ℕ) : ℚ := 1 + (2 ^ dots - 1) / 2 ^ dots

/-- `nominalQuarterLength(index) = 2^(referenceIndex - index)`, as the specification writes
it. -/
def specNominalQuarterLength (index : ℤ) : ℚ := 2 ^ (6 - index)

/-- The product formula of the specification for the type at table index `index`:
`nominalQuarterLength(index) * dottedMultiplier(dots) * Π tupletMultiplier(t)`. -/
def specQuarterLength (index : ℤ) (dots : ℕ) (tuplets : List Tuplet) : ℚ :=
  specNominalQuarterLength index * specDottedMultiplier dots *
    (tuplets.map Tuplet.tupletMultiplier).prod

/-! ## The quantities of the numeric path -/

/-- The value `p = floor(log2(ql + 0.00001))` that `updateFeaturesFromQl` computes for `ql`. -/
def candidatePower (ql : ℚ) : ℤ := Int.log 2 (ql + logEpsilon)

/-- The dot count `updateFeaturesFromQl` finds for `ql`: `_findDots(ql)` run with the candidate
type `ordinalTypeFromNum[6 - p]`. -/
def candidateDots (ql : ℚ) : ℕ :=
  (Duration.mk ql 0 (arrayGet ordinalTypeFromNum (quarterTypeIndex - candidatePower ql))
    [])._findDots ql

/-- The value `u = 2^p * (1 + (2^d - 1)/2^d)`: the first `unTupletedQl` of
`updateFeaturesFromQl`. -/
def candidateLength (ql : ℚ) : ℚ :=
  2 ^ candidatePower ql * specDottedMultiplier (candidateDots ql)

/-- The test of the loop of `_findDots` for one dot count. -/
def dotsFit (powerOfTwo ql : ℚ) (dotsNum : ℕ) : Prop :=
  |powerOfTwo * specDottedMultiplier dotsNum - ql| < dotTolerance

instance (powerOfTwo ql : ℚ) (dotsNum : ℕ) : Decidable (dotsFit powerOfTwo ql dotsNum) := by
  unfold dotsFit; infer_instance

/-- A `rationalize` that answers `3/4` to every ratio; it is exact on the ratio `3/4`. -/
def rationalizeThreeQuarters (_tupletRatio : ℚ) : Option Fraction := some ⟨3, 4⟩

/-- The invariant of the specification: the stored quarter length is within `1e-4` of the
product formula for the Duration's type (by its table index as `$.inArray` finds it), dots and
tuplets. -/
def invariantHolds (e : Duration) : Prop :=
  |e.quarterLength - specQuarterLength (inArray e.type ordinalTypeFromNum) e.dots e.tuplets| <
    1 / 10000

/-! ## Engraving code -/

/-- The JavaScript value of `vd += s` for a string `s`: concatenation, in which `undefined` is
printed as `"undefined"`. -/
def appendToValue (vd : Option String) (s : String) : Option String :=
  match vd with
  | some v => some (v ++ s)
  | none => some ("undefined" ++ s)

/-- Getter `vexflowDuration`; `none` is the value `undefined`. -/
def Duration.vexflowDuration (d : Duration) : Option String :=
  let typeNumber := inArray d.type ordinalTypeFromNum
  let vd := (arrayGet vexflowDurationArray typeNumber).join
  if d.dots > 0 then (fun v => appendToValue v "d")^[d.dots] vd else vd

/-! ## The life of a Tuplet object -/

/-- One change that the module makes to a Tuplet object: `setRatio`, a `setDurationType` that
returns or throws, and what `appendTuplet` does to the Tuplet it receives. -/
inductive Tuplet.Step (selfFrozen : Option Bool)
    (newDuration : DurationArg → Except Abort Duration) : Tuplet → Tuplet → Prop
  | setRatio (t : Tuplet) (actual normal : Option ℕ) :
      Tuplet.Step selfFrozen newDuration t (Tuplet.setRatio selfFrozen t actual normal).state
  | setDurationType (t : Tuplet) (type : String) (c : Completion Tuplet) :
      Tuplet.setDurationType selfFrozen newDuration t type = .ok c →
      Tuplet.Step selfFrozen newDuration t c.state
  | appendTuplet (d : Duration) (t t' : Tuplet) (skipUpdateQl : Bool) :
      (d.appendTuplet t skipUpdateQl).tuplets = d.tuplets ++ [t'] →
      Tuplet.Step selfFrozen newDuration t t'

/-! ## Cloning -/

/-- A Tuplet object together with its identity, the order number of its allocation. -/
structure TupletObject where
  identity : ℕ
  fields : Tuplet

/-- A Duration object whose tuplets are objects with an identity. -/
structure DurationObject where
  quarterLength : ℚ
  dots : ℕ
  type : Option String
  tuplets : List TupletObject

/-- Modelled from the spec: `clone()` of a Tuplet, which `prebase.ProtoM21Object` defines and
the sources do not include: a newly allocated object (its identity is the allocation counter
`nextIdentity`, which is then advanced) with field values equal to the original's. -/
def TupletObject.clone (nextIdentity : ℕ) (t : TupletObject) : ℕ × TupletObject :=
  (nextIdentity + 1, ⟨nextIdentity, t.fields⟩)

/-- The callback `_cloneCallbacks._tuplets`: clone every element of `obj[tupletKey]` in order
and push it on `newTuplets`; the result is what is stored in `ret[tupletKey]`, with the
allocation counter after the loop. -/
def Duration.cloneCallbacks_tuplets (nextIdentity : ℕ) (objTuplets : List TupletObject) :
    ℕ × List TupletObject :=
  objTuplets.foldl
    (fun (acc : ℕ × List TupletObject) (tuplet : TupletObject) =>
      let newTuplet := TupletObject.clone acc.1 tuplet
      (newTuplet.1, acc.2 ++ [newTuplet.2]))
    (nextIdentity, [])

/-- Modelled from the spec: `clone()` of a Duration, which `prebase.ProtoM21Object` defines and
the sources do not include: a Duration with identical `type`, `dots` and `quarterLength`, whose
`_tuplets` is what the callback `_cloneCallbacks._tuplets` stores. -/
def DurationObject.clone (nextIdentity : ℕ) (d : DurationObject) : ℕ × DurationObject :=
  let cloned := Duration.cloneCallbacks_tuplets nextIdentity d.tuplets
  (cloned.1, ⟨d.quarterLength, d.dots, d.type, cloned.2⟩)

/-! ## The name of a Tuplet -/

/-- Getter `fullName` of a Tuplet.  `ordinalAbbreviation` stands for
`common.ordinalAbbreviation`, which the module imports; `toString` of a count is its decimal
numeral. -/
def Tuplet.fullName (ordinalAbbreviation : ℕ → Bool → String) (t : Tuplet) : String :=
  let numActual := t.numberNotesActual
  let numNormal := t.numberNotesNormal
  if numActual = 3 ∧ numNormal = 2 then "Triplet"
  else if numActual = 5 ∧ (numNormal = 4 ∨ numNormal = 2) then "Quintuplet"
  else if numActual = 6 ∧ numNormal = 4 then "Sextuplet"
  else
    let ordStr := ordinalAbbreviation numNormal true
    "Tuplet of " ++ toString numActual ++ "/" ++ toString numNormal ++ ordStr

end duration

/-! ## MIDI input (`src/music21/webmidi.js`) -/

namespace webmidi

/-- A value stored in a property of an event object: a number or an array of numbers. -/
inductive Value : Type
  | number (n : ℤ) : Value
  | array (items : List ℤ) : Value

/-- An object literal: its own properties, by name. -/
def EventObject : Type := List (String × Value)

/-- Property read `obj.key`: `undefined` when the object has no property of that name. -/
def getProperty (obj : EventObject) (key : String) : Option Value :=
  List.lookup key obj

/-- Index read `value[i]` on the value of a property: the item of an array, `undefined` on a
number or past the end of the array. -/
def getItem (value : Value) (i : ℕ) : Option Value :=
  match value with
  | .array items => (items.get? i).map Value.number
  | .number _ => none

/-- The four arguments of one call of `callBacks.raw`; `none` is `undefined`. -/
structure RawCall where
  t : Option Value
  a : Option Value
  b : Option Value
  c : Option Value

/-- The value of `callBacks.general`: an Array of listeners (of which only the number matters
here), one function, or `undefined`. -/
inductive General (ε ρ : Type) : Type
  | array (listeners : ℕ) : General ε ρ
  | function (f : ε → ρ) : General ε ρ
  | undefined : General ε ρ

/-- The object `webmidi.callBacks`, without `sendOutChord`, which the functions below do not
use. -/
structure CallBacks (ε ρ : Type) where
  raw : RawCall → ε
  general : General ε ρ

/-- What one run of `midiInArrived` did: the calls of `callBacks.raw` in order, the listeners
of `callBacks.general` that were called (by index) with the event they were given, the value
returned, and the error thrown, if any. -/
structure Run (ε ρ : Type) where
  rawCalls : List RawCall
  generalCalls : List (ℕ × ε)
  returned : Option ρ
  thrown : Option String

/-- `webmidi.midiInArrived`. -/
def midiInArrived {ε ρ : Type} (callBacks : CallBacks ε ρ) (midiMessageEvent : EventObject) :
    Run ε ρ :=
  let t := getProperty midiMessageEvent "timeStamp"
  match getProperty midiMessageEvent "data" with
  | none => ⟨[], [], none, some "TypeError"⟩
  | some data =>
    let a := getItem data 0
    let b := getItem data 1
    let c := getItem data 2
    let eventObject := callBacks.raw ⟨t, a, b, c⟩
    match callBacks.general with
    | .array listeners =>
      ⟨[⟨t, a, b, c⟩], (List.range listeners).map (fun index => (index, eventObject)), none, none⟩
    | .function f => ⟨[⟨t, a, b, c⟩], [(0, eventObject)], some (f eventObject), none⟩
    | .undefined => ⟨[⟨t, a, b, c⟩], [], none, none⟩

/-- `webmidi.jazzMidiInArrived`. -/
def jazzMidiInArrived {ε ρ : Type} (callBacks : CallBacks ε ρ) (t a b c : ℤ) : Run ε ρ :=
  let webmidiEvent : EventObject := [("timestamp", .number t), ("data", .array [a, b, c])]
  midiInArrived callBacks webmidiEvent

end webmidi

namespace duration

/-! ## Basic facts -/

@[simp] theorem Duration.quarterLength_mk (q : ℚ) (n : ℕ) (t : Option String)
    (ts : List Tuplet) : (Duration.mk q n t ts).quarterLength = q := rfl

@[simp] theorem Duration.dots_mk (q : ℚ) (n : ℕ) (t : Option String)
    (ts : List Tuplet) : (Duration.mk q n t ts).dots = n := rfl

@[simp] theorem Duration.type_mk (q : ℚ) (n : ℕ) (t : Option String)
    (ts : List Tuplet) : (Duration.mk q n t ts).type = t := rfl

@[simp] theorem Duration.tuplets_mk (q : ℚ) (n : ℕ) (t : Option String)
    (ts : List Tuplet) : (Duration.mk q n t ts).tuplets = ts := rfl

@[simp] theorem Tuplet.numberNotesActual_mk (a n : ℕ) (da dn : Duration) (f : Bool) :
    (Tuplet.mk a n da dn f).numberNotesActual = a := rfl

@[simp] theorem Tuplet.numberNotesNormal_mk (a n : ℕ) (da dn : Duration) (f : Bool) :
    (Tuplet.mk a n da dn f).numberNotesNormal = n := rfl

@[simp] theorem Tuplet.durationActual_mk (a n : ℕ) (da dn : Duration) (f : Bool) :
    (Tuplet.mk a n da dn f).durationActual = da := rfl

@[simp] theorem Tuplet.durationNormal_mk (a n : ℕ) (da dn : Duration) (f : Bool) :
    (Tuplet.mk a n da dn f).durationNormal = dn := rfl

@[simp] theorem Tuplet.frozen_mk (a n : ℕ) (da dn : Duration) (f : Bool) :
    (Tuplet.mk a n da dn f).frozen = f := rfl

/-- Freezing a Tuplet does not change its multiplier. -/
theorem Tuplet.tupletMultiplier_mk_frozen (t : Tuplet) (f : Bool) :
    (Tuplet.mk t.numberNotesActual t.numberNotesNormal t.durationActual t.durationNormal
      f).tupletMultiplier = t.tupletMultiplier := rfl

/-- The `forEach` loop of `updateQlFromFeatures` multiplies by the product of the
multipliers. -/
theorem foldl_tupletMultiplier (ts : List Tuplet) (u : ℚ) :
    ts.foldl (fun acc tuplet => acc * tuplet.tupletMultiplier) u =
      u * (ts.map Tuplet.tupletMultiplier).prod := by
  induction ts generalizing u with
  | nil => simp
  | cons t ts ih => simp [List.foldl_cons, ih, mul_assoc]

/-- A table name is found by `$.inArray` at its own index. -/
theorem inArray_of_get? (i : ℕ) (T : String) (h : ordinalTypeFromNum.get? i = some T) :
    inArray (some T) ordinalTypeFromNum = (i : ℤ) := by
  have hi : i < 15 := by
    by_contra hc
    have : ordinalTypeFromNum.get? i = none := List.get?_eq_none.2 (by
      simpa [ordinalTypeFromNum] using hc)
    rw [this] at h
    exact Option.noConfusion h
  interval_cases i <;> simp [ordinalTypeFromNum] at h <;> subst h <;> decide

/-- A name passes the test of the `type` setter exactly when it is in the table. -/
theorem inArray_eq_neg_one_iff (s : String) :
    inArray (some s) ordinalTypeFromNum = -1 ↔ s ∉ ordinalTypeFromNum := by
  show (match ordinalTypeFromNum.indexOf? s with
    | some i => (i : ℤ)
    | none => -1) = -1 ↔ s ∉ ordinalTypeFromNum
  split
  · rename_i i h
    have hne : ((i : ℕ) : ℤ) ≠ -1 := by omega
    simp only [hne, false_iff, not_not]
    simp only [List.indexOf?] at h
    obtain ⟨hlt, hx, -⟩ := List.findIdx?_eq_some_iff_getElem.1 h
    have : ordinalTypeFromNum[i] = s := by simpa using hx
    exact this ▸ List.getElem_mem hlt
  · rename_i h
    simp only [true_iff]
    intro hmem
    simp only [List.indexOf?, List.findIdx?_eq_none_iff] at h
    simpa using h s hmem

/-- What `updateQlFromFeatures` stores, by table index. -/
theorem Duration.updateQlFromFeatures_eq (d : Duration) :
    d.updateQlFromFeatures =
      Duration.mk (specQuarterLength (inArray d.type ordinalTypeFromNum) d.dots d.tuplets)
        d.dots d.type d.tuplets := by
  simp [Duration.updateQlFromFeatures, foldl_tupletMultiplier, specQuarterLength,
    specNominalQuarterLength, specDottedMultiplier, quarterTypeIndex]

/-- The `type` setter on a table name: nothing is thrown and the quarter length is
recomputed. -/
theorem Duration.set_type_of_get? (d : Duration) (i : ℕ) (T : String)
    (hT : ordinalTypeFromNum.get? i = some T) :
    d.set_type T =
      ⟨.mk (specQuarterLength i d.dots d.tuplets) d.dots (some T) d.tuplets, none⟩ := by
  have hi := inArray_of_get? i T hT
  have hne : ((i : ℕ) : ℤ) ≠ -1 := by omega
  unfold Duration.set_type
  simp only [Duration.updateQlFromFeatures_eq, Duration.type_mk, Duration.dots_mk,
    Duration.tuplets_mk, hi, if_neg hne]

/-! ## Tuplet arithmetic: multiplier and total length -/

/-- C8: a Tuplet with `numberNotesActual = a ≥ 1`, `numberNotesNormal = n ≥ 1` whose
`durationActual` and `durationNormal` have the same non-zero quarter length `q` has
`totalTupletLength() = n * q` and `tupletMultiplier() = n / a`, whatever `q` is. -/
theorem tupletMultiplier_eq_ratio (t : Tuplet) (a n : ℕ) (q : ℚ)
    (ha : t.numberNotesActual = a) (hn : t.numberNotesNormal = n) (ha1 : 1 ≤ a) (_hn1 : 1 ≤ n)
    (hda : t.durationActual.quarterLength = q) (hdn : t.durationNormal.quarterLength = q)
    (hq : q ≠ 0) :
    t.totalTupletLength = (n : ℚ) * q ∧ t.tupletMultiplier = (n : ℚ) / (a : ℚ) := by
  have ha0 : (a : ℚ) ≠ 0 := by
    have : 0 < a := ha1
    exact_mod_cast this.ne'
  refine ⟨by simp [Tuplet.totalTupletLength, hn, hdn], ?_⟩
  simp only [Tuplet.tupletMultiplier, Tuplet.totalTupletLength, ha, hn, hda, hdn]
  field_simp
  ring

/-- The ratios (3,2) and (5,4) over an eighth note give `2/3` and `4/5`. -/
theorem tupletMultiplier_eq_ratio_witness :
    ((Tuplet.mk 3 2 (.mk (1/2) 0 (some "eighth") []) (.mk (1/2) 0 (some "eighth") [])
        false).totalTupletLength = ((2 : ℕ) : ℚ) * (1/2) ∧
      (Tuplet.mk 3 2 (.mk (1/2) 0 (some "eighth") []) (.mk (1/2) 0 (some "eighth") [])
        false).tupletMultiplier = ((2 : ℕ) : ℚ) / ((3 : ℕ) : ℚ)) ∧
    ((Tuplet.mk 5 4 (.mk (1/2) 0 (some "eighth") []) (.mk (1/2) 0 (some "eighth") [])
        false).totalTupletLength = ((4 : ℕ) : ℚ) * (1/2) ∧
      (Tuplet.mk 5 4 (.mk (1/2) 0 (some "eighth") []) (.mk (1/2) 0 (some "eighth") [])
        false).tupletMultiplier = ((4 : ℕ) : ℚ) / ((5 : ℕ) : ℚ)) :=
  ⟨tupletMultiplier_eq_ratio _ 3 2 (1/2) rfl rfl (by decide) (by decide) rfl rfl (by norm_num),
   tupletMultiplier_eq_ratio _ 5 4 (1/2) rfl rfl (by decide) (by decide) rfl rfl (by norm_num)⟩

/-! ## Symbolic to numeric -/

/-- C2: for a Duration whose type is the table name at index `i`, `updateQlFromFeatures`,
and with it `set dots`, `set type` and `appendTuplet` (recomputing), store exactly
`2^(6-i) * (1 + (2^d - 1)/2^d) * Π tupletMultiplier(t)` for the dots `d` and the tuplets the
Duration then has. -/
theorem updateQlFromFeatures_sets_formula (d : Duration) (i : ℕ) (T : String)
    (hT : ordinalTypeFromNum.get? i = some T) :
    (d.type = some T →
      d.updateQlFromFeatures.quarterLength = specQuarterLength i d.dots d.tuplets) ∧
    (∀ n : ℕ, d.type = some T →
      (d.set_dots n).quarterLength = specQuarterLength i n d.tuplets) ∧
    ((d.set_type T).thrown = none ∧
      (d.set_type T).state.quarterLength = specQuarterLength i d.dots d.tuplets) ∧
    (∀ t : Tuplet, d.type = some T →
      (d.appendTuplet t false).quarterLength = specQuarterLength i d.dots (d.tuplets ++ [t])) := by
  have hi := inArray_of_get? i T hT
  have hne : inArray (some T) ordinalTypeFromNum ≠ -1 := by rw [hi]; omega
  refine ⟨?_, ?_, ?_, ?_⟩
  · intro h
    rw [Duration.updateQlFromFeatures_eq, h, hi]; rfl
  · intro n h
    rw [Duration.set_dots, Duration.updateQlFromFeatures_eq]
    simp [h, hi]
  · rw [Duration.set_type_of_get? d i T hT]
    exact ⟨rfl, rfl⟩
  · intro t h
    simp only [Duration.appendTuplet, Duration.updateQlFromFeatures_eq]
    simp [h, hi, specQuarterLength, Tuplet.tupletMultiplier_mk_frozen]

/-- The documented example: a half note (`Duration(2)`) with `dots = 1` has quarter length 3. -/
theorem updateQlFromFeatures_sets_formula_witness :
    ordinalTypeFromNum.get? 5 = some "half" ∧
    ((Duration.mk 2 0 (some "half") []).set_dots 1).quarterLength = 3 :=
  ⟨by decide, by
    rw [(updateQlFromFeatures_sets_formula (Duration.mk 2 0 (some "half") []) 5 "half"
      (by decide)).2.1 1 rfl]
    norm_num [specQuarterLength, specNominalQuarterLength, specDottedMultiplier]⟩

/-- The documented examples of the `type` setter: `'breve'` gives 8, `'half'` on a fresh
Duration gives 2, and `'quarter'` with one dot gives 1.5. -/
theorem set_type_examples :
    ((Duration.mk 2 0 (some "half") []).set_type "breve").state.quarterLength = 8 ∧
    (Duration.initial.set_type "half").state.quarterLength = 2 ∧
    ((Duration.mk 12 1 (some "breve") []).set_type "quarter").state.quarterLength = 3 / 2 := by
  refine ⟨?_, ?_, ?_⟩
  · rw [Duration.set_type_of_get? _ 3 "breve" (by decide)]
    norm_num [specQuarterLength, specNominalQuarterLength, specDottedMultiplier]
  · rw [Duration.set_type_of_get? _ 5 "half" (by decide)]
    norm_num [specQuarterLength, specNominalQuarterLength, specDottedMultiplier,
      Duration.initial]
  · rw [Duration.set_type_of_get? _ 6 "quarter" (by decide)]
    norm_num [specQuarterLength, specNominalQuarterLength, specDottedMultiplier]

/-! ## The `type` setter -/

/-- C5: `set type(name)` throws exactly when `name` is not one of the 15 table entries, and
when it throws the Duration is what it was before the call. -/
theorem set_type_throws_iff (d : Duration) (name : String) :
    ((d.set_type name).thrown ≠ none ↔ name ∉ ordinalTypeFromNum) ∧
    ((d.set_type name).thrown ≠ none →
      (d.set_type name).state = d ∧
      (d.set_type name).state.type = d.type ∧ (d.set_type name).state.dots = d.dots ∧
      (d.set_type name).state.tuplets = d.tuplets ∧
      (d.set_type name).state.quarterLength = d.quarterLength) := by
  by_cases h : inArray (some name) ordinalTypeFromNum = -1
  · have hmem := (inArray_eq_neg_one_iff name).1 h
    simp [Duration.set_type, h, hmem]
  · have hmem : ¬ name ∉ ordinalTypeFromNum := fun hc => h ((inArray_eq_neg_one_iff name).2 hc)
    simp [Duration.set_type, h, hmem]

/-- The setter rejects `'zero'` and accepts `'half'`. -/
theorem type_setter_rejects_zero :
    (Duration.initial.set_type "zero").thrown = some "invalid type zero" ∧
    (Duration.initial.set_type "zero").state = Duration.initial ∧
    (Duration.initial.set_type "half").thrown = none := by
  refine ⟨?_, ?_, ?_⟩
  · have h : inArray (some "zero") ordinalTypeFromNum = -1 := by decide
    simp only [Duration.set_type, if_pos h]; decide
  · have h : inArray (some "zero") ordinalTypeFromNum = -1 := by decide
    simp only [Duration.set_type, if_pos h]
  · rw [Duration.set_type_of_get? _ 5 "half" (by decide)]

/-! ## `appendTuplet` -/

/-- C7: when the stored quarter length of `d` equals the product formula for its type, dots
and tuplets, `d.appendTuplet(t)` freezes `t`, makes it the last tuplet after the unchanged
earlier ones, keeps type and dots, and stores `old quarterLength * t.tupletMultiplier()`. -/
theorem appendTuplet_postcondition (d : Duration) (t : Tuplet)
    (h : d.quarterLength =
      specQuarterLength (inArray d.type ordinalTypeFromNum) d.dots d.tuplets) :
    (d.appendTuplet t false).tuplets =
      d.tuplets ++ [Tuplet.mk t.numberNotesActual t.numberNotesNormal t.durationActual
        t.durationNormal true] ∧
    (d.appendTuplet t false).type = d.type ∧
    (d.appendTuplet t false).dots = d.dots ∧
    (d.appendTuplet t false).quarterLength = d.quarterLength * t.tupletMultiplier := by
  simp only [Duration.appendTuplet, Duration.updateQlFromFeatures_eq]
  refine ⟨by simp, by simp, by simp, ?_⟩
  simp [h, specQuarterLength, Tuplet.tupletMultiplier_mk_frozen, mul_assoc]

/-- The test of the module: `Duration(0.5)` with `Tuplet(5, 4)` appended has quarter length
`0.4`, and the appended Tuplet is frozen. -/
theorem appendTuplet_postcondition_witness :
    (Duration.mk (1/2) 0 (some "eighth") []).quarterLength =
      specQuarterLength (inArray (some "eighth") ordinalTypeFromNum) 0 [] ∧
    ((Duration.mk (1/2) 0 (some "eighth") []).appendTuplet
      (Tuplet.mk 5 4 (.mk (1/2) 0 (some "eighth") []) (.mk (1/2) 0 (some "eighth") []) false)
      false).quarterLength = 2 / 5 ∧
    ((Duration.mk (1/2) 0 (some "eighth") []).appendTuplet
      (Tuplet.mk 5 4 (.mk (1/2) 0 (some "eighth") []) (.mk (1/2) 0 (some "eighth") []) false)
      false).tuplets =
      [Tuplet.mk 5 4 (.mk (1/2) 0 (some "eighth") []) (.mk (1/2) 0 (some "eighth") []) true] := by
  have h7 : inArray (some "eighth") ordinalTypeFromNum = 7 := by decide
  have h0 : (Duration.mk (1/2) 0 (some "eighth") []).quarterLength =
      specQuarterLength (inArray (some "eighth") ordinalTypeFromNum) 0 [] := by
    rw [h7]
    norm_num [specQuarterLength, specNominalQuarterLength, specDottedMultiplier]
  have hp := appendTuplet_postcondition (Duration.mk (1/2) 0 (some "eighth") [])
    (Tuplet.mk 5 4 (.mk (1/2) 0 (some "eighth") []) (.mk (1/2) 0 (some "eighth") []) false) h0
  refine ⟨h0, ?_, ?_⟩
  · rw [hp.2.2.2]
    norm_num [Tuplet.tupletMultiplier, Tuplet.totalTupletLength]
  · rw [hp.1]; rfl

/-! ## Frozen tuplets -/

/-- C4 (the code at the failing input): the Tuplet that `appendTuplet` has frozen still
accepts `setRatio(5, 4)` and `setDurationType('half')` when the global object has no property
`frozen`: nothing is thrown, and the counts and both durations are overwritten. -/
theorem frozen_tuplet_is_mutated (rationalize : ℚ → Option Fraction) :
    ∃ t : Tuplet,
      ((Duration.mk (1/2) 0 (some "eighth") []).appendTuplet
        (Tuplet.mk 3 2 (.mk (1/2) 0 (some "eighth") []) (.mk (1/2) 0 (some "eighth") []) false)
        false).tuplets = [t] ∧
      t.frozen = true ∧ t.numberNotesActual = 3 ∧ t.numberNotesNormal = 2 ∧
      (Tuplet.setRatio none t (some 5) (some 4)).thrown = none ∧
      (Tuplet.setRatio none t (some 5) (some 4)).state.numberNotesActual = 5 ∧
      (Tuplet.setRatio none t (some 5) (some 4)).state.numberNotesNormal = 4 ∧
      Tuplet.setDurationType none (Duration.new rationalize 1) t "half" =
        .ok ⟨Tuplet.mk 3 2 (.mk 2 0 (some "half") []) (.mk 2 0 (some "half") []) true, none⟩ := by
  refine ⟨Tuplet.mk 3 2 (.mk (1/2) 0 (some "eighth") []) (.mk (1/2) 0 (some "eighth") []) true,
    ?_, rfl, rfl, rfl, rfl, rfl, rfl, ?_⟩
  · simp [Duration.appendTuplet, Duration.updateQlFromFeatures_eq]
  · have hst : Duration.initial.set_type "half" = ⟨.mk 2 0 (some "half") [], none⟩ := by
      rw [Duration.set_type_of_get? _ 5 "half" (by decide)]
      norm_num [specQuarterLength, specNominalQuarterLength, specDottedMultiplier,
        Duration.initial]
    simp [Tuplet.setDurationType, Duration.new, Duration.construct, hst]

/-! ## The numeric path: candidate type, dots and length -/

theorem log_two_eq (x : ℚ) (k : ℤ) (h0 : (2 : ℚ) ^ k ≤ x) (h1 : x < 2 ^ (k + 1)) :
    Int.log 2 x = k := by
  have hx : 0 < x := lt_of_lt_of_le (by positivity) h0
  apply le_antisymm
  · have := (Int.lt_zpow_iff_log_lt (b := 2) (by norm_num) hx (x := k + 1)).1
      (by exact_mod_cast h1)
    omega
  · exact (Int.zpow_le_iff_le_log (b := 2) (by norm_num) hx).1 (by exact_mod_cast h0)

theorem candidatePower_bounds (ql : ℚ) (h : 0 < ql + logEpsilon) :
    (2 : ℚ) ^ candidatePower ql ≤ ql + logEpsilon ∧
      ql + logEpsilon < 2 ^ (candidatePower ql + 1) := by
  constructor
  · have := Int.zpow_log_le_self (b := 2) (by norm_num) h
    exact_mod_cast this
  · have := Int.lt_zpow_succ_log_self (b := 2) (by norm_num) (ql + logEpsilon)
    exact_mod_cast this

theorem range_five : List.range 5 = [0, 1, 2, 3, 4] := by decide

theorem inArray_arrayGet (i : ℤ) :
    inArray (arrayGet ordinalTypeFromNum i) ordinalTypeFromNum =
      if 0 ≤ i ∧ i ≤ 14 then i else -1 := by
  by_cases h0 : 0 ≤ i
  · by_cases h1 : i ≤ 14
    · rw [if_pos ⟨h0, h1⟩]
      interval_cases i <;> decide
    · have : arrayGet ordinalTypeFromNum i = none := by
        simp only [arrayGet, if_pos h0]
        apply List.get?_eq_none.2
        simp only [ordinalTypeFromNum, List.length_cons, List.length_nil]
        omega
      rw [this, if_neg (by omega)]; rfl
  · have : arrayGet ordinalTypeFromNum i = none := by simp [arrayGet, h0]
    rw [this, if_neg (by omega)]; rfl

theorem Duration._findDots_eq (d : Duration) (ql : ℚ) (h : ql ≠ 0) :
    d._findDots ql =
      match (List.range 5).find? (fun dotsNum =>
        decide (dotsFit (2 ^ (quarterTypeIndex - inArray d.type ordinalTypeFromNum)) ql
          dotsNum)) with
      | some dotsNum => dotsNum
      | none => 0 := by
  unfold Duration._findDots
  rw [if_neg h]
  rfl

theorem Duration._findDots_of_least (d : Duration) (ql : ℚ) (h : ql ≠ 0) (k : ℕ) (hk : k ≤ 4)
    (hit : dotsFit (2 ^ (quarterTypeIndex - inArray d.type ordinalTypeFromNum)) ql k)
    (least : ∀ j, j < k →
      ¬ dotsFit (2 ^ (quarterTypeIndex - inArray d.type ordinalTypeFromNum)) ql j) :
    d._findDots ql = k := by
  rw [Duration._findDots_eq d ql h, range_five]
  interval_cases k
  · simp [List.find?, hit]
  · simp [List.find?, hit, least 0 (by norm_num)]
  · simp [List.find?, hit, least 0 (by norm_num), least 1 (by norm_num)]
  · simp [List.find?, hit, least 0 (by norm_num), least 1 (by norm_num), least 2 (by norm_num)]
  · simp [List.find?, hit, least 0 (by norm_num), least 1 (by norm_num), least 2 (by norm_num),
      least 3 (by norm_num)]

theorem Duration._findDots_spec (d : Duration) (ql : ℚ) :
    d._findDots ql ≤ 4 ∧
    (d._findDots ql = 0 ∨
      dotsFit (2 ^ (quarterTypeIndex - inArray d.type ordinalTypeFromNum)) ql
        (d._findDots ql)) := by
  by_cases h : ql = 0
  · simp [Duration._findDots, h]
  · rw [Duration._findDots_eq d ql h]
    split
    · rename_i k hk
      have hmem := List.mem_of_find?_eq_some hk
      have hp := List.find?_some hk
      simp only [List.mem_range] at hmem
      exact ⟨by omega, Or.inr (by simpa using hp)⟩
    · simp


theorem Duration.updateFeaturesFromQl_eq (r : ℚ → Option Fraction)
    (nd : DurationArg → Except Abort Duration) (d : Duration)
    (hpos : 0 < d.quarterLength + logEpsilon) :
    d.updateFeaturesFromQl r nd =
      if candidateLength d.quarterLength ≠ d.quarterLength ∧ d.quarterLength ≠ 0 then
        match r (d.quarterLength / (candidateLength d.quarterLength * 2)) with
        | none => .ok (.mk d.quarterLength (candidateDots d.quarterLength)
            (arrayGet ordinalTypeFromNum (quarterTypeIndex - candidatePower d.quarterLength - 1))
            d.tuplets)
        | some f =>
          match nd (.number (candidateLength d.quarterLength * 2)) with
          | .ok da => .ok (.mk d.quarterLength (candidateDots d.quarterLength)
              (arrayGet ordinalTypeFromNum
                (quarterTypeIndex - candidatePower d.quarterLength - 1))
              (d.tuplets ++ [Tuplet.mk (orDefault (some f.denominator) 3)
                (orDefault (some f.numerator) 2) da da true]))
          | .error e => .error e
      else
        .ok (.mk d.quarterLength (candidateDots d.quarterLength)
          (arrayGet ordinalTypeFromNum (quarterTypeIndex - candidatePower d.quarterLength))
          d.tuplets) := by
  unfold Duration.updateFeaturesFromQl
  have hd : (Duration.mk d.quarterLength d.dots (arrayGet ordinalTypeFromNum
      (quarterTypeIndex - candidatePower d.quarterLength)) d.tuplets)._findDots
        d.quarterLength = candidateDots d.quarterLength := rfl
  have hp : Int.log 2 (d.quarterLength + logEpsilon) = candidatePower d.quarterLength := rfl
  have hl : (2 : ℚ) ^ candidatePower d.quarterLength *
      (1 + (2 ^ candidateDots d.quarterLength - 1) / 2 ^ candidateDots d.quarterLength) =
      candidateLength d.quarterLength := rfl
  simp only [if_neg (not_le.2 hpos), sub_sub_cancel, hp, Duration.dots_mk,
    Duration.quarterLength_mk, Duration.type_mk, Duration.tuplets_mk, hd]
  rw [hl]
  by_cases hc : candidateLength d.quarterLength ≠ d.quarterLength ∧ d.quarterLength ≠ 0
  · rw [if_pos hc, if_pos hc]
    cases hr : r (d.quarterLength / (candidateLength d.quarterLength * 2)) with
    | none => rfl
    | some f =>
      cases hnd : nd (.number (candidateLength d.quarterLength * 2)) with
      | error e => simp only [hnd]; rfl
      | ok da => simp only [hnd]; rfl
  · rw [if_neg hc, if_neg hc]

/-! ## Dotted powers of two are recognised exactly -/

theorem specDottedMultiplier_eq (d : ℕ) : specDottedMultiplier d = 2 - 1 / 2 ^ d := by
  unfold specDottedMultiplier
  field_simp
  ring

theorem specDottedMultiplier_ge_one (d : ℕ) : 1 ≤ specDottedMultiplier d := by
  rw [specDottedMultiplier_eq]
  have h1 : (1 : ℚ) ≤ 2 ^ d := one_le_pow₀ (by norm_num)
  have h2 : (1 : ℚ) / 2 ^ d ≤ 1 := by
    rw [div_le_one (by positivity)]; exact h1
  linarith

theorem specDottedMultiplier_lt_two (d : ℕ) : specDottedMultiplier d < 2 := by
  rw [specDottedMultiplier_eq]
  have : (0 : ℚ) < 1 / 2 ^ d := by positivity
  linarith

/-- Two different dot counts up to four differ by at least a sixteenth in their multipliers. -/
theorem specDottedMultiplier_gap (j d : ℕ) (hj : j ≤ 4) (hd : d ≤ 4) (hne : j ≠ d) :
    1 / 16 ≤ |specDottedMultiplier j - specDottedMultiplier d| := by
  interval_cases j <;> interval_cases d <;>
    first
    | exact absurd rfl hne
    | (norm_num [specDottedMultiplier, abs_of_neg, abs_of_pos])

theorem two_zpow_ge (k m : ℤ) (h : m ≤ k) : (2 : ℚ) ^ m ≤ 2 ^ k :=
  zpow_le_zpow_right₀ (by norm_num) h

/-- The candidate index `6 - p` read back through the table gives `2^p` in `_findDots`, for
`p` from `-8` to `7`. -/
theorem findDots_power (p : ℤ) (h0 : -8 ≤ p) (h1 : p ≤ 7) :
    (2 : ℚ) ^ (quarterTypeIndex -
      inArray (arrayGet ordinalTypeFromNum (quarterTypeIndex - p)) ordinalTypeFromNum) =
      2 ^ p := by
  rw [inArray_arrayGet]
  unfold quarterTypeIndex
  by_cases h : p ≤ 6
  · rw [if_pos ⟨by omega, by omega⟩, sub_sub_cancel]
  · have hp : p = 7 := by omega
    subst hp
    rw [if_neg (by omega)]
    norm_num

/-- A dotted power of two `2^k * (2 - 2^-d)`, `-8 ≤ k ≤ 7`, `d ≤ 4`, is its own candidate. -/
theorem dotted_candidate (k : ℤ) (d : ℕ) (hk0 : -8 ≤ k) (hk1 : k ≤ 7) (hd : d ≤ 4) :
    candidatePower (2 ^ k * specDottedMultiplier d) = k ∧
    candidateDots (2 ^ k * specDottedMultiplier d) = d ∧
    candidateLength (2 ^ k * specDottedMultiplier d) = 2 ^ k * specDottedMultiplier d := by
  have hk : (1 : ℚ) / 256 ≤ 2 ^ k := by
    have := two_zpow_ge k (-8) hk0
    norm_num at this ⊢
    exact this
  have hkpos : (0 : ℚ) < 2 ^ k := by positivity
  have hdpow : (2 : ℚ) ^ d ≤ 16 := by
    have : (2 : ℚ) ^ d ≤ 2 ^ 4 := pow_le_pow_right₀ (by norm_num) hd
    norm_num at this
    exact this
  have hdpos : (0 : ℚ) < 2 ^ d := by positivity
  have hfrac : (1 : ℚ) / 4096 ≤ 2 ^ k * (1 / 2 ^ d) := by
    have h16 : (1 : ℚ) / 16 ≤ 1 / 2 ^ d := by
      exact one_div_le_one_div_of_le hdpos hdpow
    calc (1 : ℚ) / 4096 = (1 / 256) * (1 / 16) := by norm_num
      _ ≤ 2 ^ k * (1 / 2 ^ d) := mul_le_mul hk h16 (by norm_num) hkpos.le
  have hp : candidatePower (2 ^ k * specDottedMultiplier d) = k := by
    apply log_two_eq
    · have := specDottedMultiplier_ge_one d
      have : (2 : ℚ) ^ k * 1 ≤ 2 ^ k * specDottedMultiplier d :=
        mul_le_mul_of_nonneg_left this hkpos.le
      unfold logEpsilon
      linarith
    · rw [zpow_add_one₀ (by norm_num), specDottedMultiplier_eq]
      unfold logEpsilon
      nlinarith
  have hq0 : (2 : ℚ) ^ k * specDottedMultiplier d ≠ 0 :=
    mul_ne_zero hkpos.ne' (by linarith [specDottedMultiplier_ge_one d])
  have hdots : candidateDots (2 ^ k * specDottedMultiplier d) = d := by
    unfold candidateDots
    rw [hp]
    apply Duration._findDots_of_least _ _ hq0 d hd
    · rw [Duration.type_mk, findDots_power k hk0 hk1]
      simp [dotsFit, dotTolerance]
    · intro j hj
      rw [Duration.type_mk, findDots_power k hk0 hk1]
      unfold dotsFit dotTolerance
      rw [not_lt, ← mul_sub, abs_mul, abs_of_pos hkpos]
      have hgap := specDottedMultiplier_gap j d (by omega) hd (by omega)
      calc (1 : ℚ) / 10000 ≤ (1 / 256) * (1 / 16) := by norm_num
        _ ≤ 2 ^ k * |specDottedMultiplier j - specDottedMultiplier d| :=
            mul_le_mul hk hgap (by norm_num) hkpos.le
  refine ⟨hp, hdots, ?_⟩
  unfold candidateLength
  rw [hp, hdots]

/-! ## Powers of two -/

theorem specDottedMultiplier_le (j : ℕ) (hj : j ≤ 4) : specDottedMultiplier j ≤ 31 / 16 := by
  interval_cases j <;> norm_num [specDottedMultiplier]

theorem specDottedMultiplier_ge_of_pos (j : ℕ) (h1 : 1 ≤ j) (hj : j ≤ 4) :
    3 / 2 ≤ specDottedMultiplier j := by
  interval_cases j <;> norm_num [specDottedMultiplier]

/-- With `128` as its power of two (the type is not a table name), a positive dot count fits
only values between `191` and `249`. -/
theorem dotsFit_128_bounds (ql : ℚ) (j : ℕ) (h1 : 1 ≤ j) (hj : j ≤ 4)
    (h : dotsFit 128 ql j) : 191 < ql ∧ ql < 249 := by
  unfold dotsFit dotTolerance at h
  rw [abs_lt] at h
  have := specDottedMultiplier_ge_of_pos j h1 hj
  have := specDottedMultiplier_le j hj
  constructor <;> linarith [h.1, h.2]

/-- With `128` as its power of two (the type is not a table name), `_findDots` fits no dot count
to a value below `127` or above `249`. -/
theorem not_dotsFit_128 (ql : ℚ) (j : ℕ) (hj : j ≤ 4) (h : ql ≤ 127 ∨ 249 ≤ ql) :
    ¬ dotsFit 128 ql j := by
  unfold dotsFit dotTolerance
  rw [not_lt]
  have h1 := specDottedMultiplier_ge_one j
  have h2 := specDottedMultiplier_le j hj
  rcases h with h | h
  · rw [abs_of_pos (by linarith)]; linarith
  · rw [abs_of_neg (by linarith)]; linarith

/-- A power of two `2^k`, `k ≥ -16`, is its own candidate, with no dots. -/
theorem pow_candidate (k : ℤ) (hk : -16 ≤ k) :
    candidatePower (2 ^ k) = k ∧ candidateDots (2 ^ k) = 0 ∧ candidateLength (2 ^ k) = 2 ^ k := by
  have hkpos : (0 : ℚ) < 2 ^ k := by positivity
  have hk16 : (1 : ℚ) / 65536 ≤ 2 ^ k := by
    have := two_zpow_ge k (-16) hk
    norm_num at this ⊢
    exact this
  have hp : candidatePower (2 ^ k) = k := by
    apply log_two_eq
    · unfold logEpsilon; linarith
    · rw [zpow_add_one₀ (by norm_num)]
      unfold logEpsilon
      linarith
  have hdots : candidateDots (2 ^ k) = 0 := by
    unfold candidateDots
    rw [hp]
    by_cases hin : -8 ≤ k ∧ k ≤ 7
    · apply Duration._findDots_of_least _ _ hkpos.ne' 0 (by norm_num)
      · rw [Duration.type_mk, findDots_power k hin.1 hin.2]
        simp [dotsFit, dotTolerance, specDottedMultiplier]
      · intro j hj; omega
    · have hspec := Duration._findDots_spec
        (Duration.mk (2 ^ k) 0 (arrayGet ordinalTypeFromNum (quarterTypeIndex - k)) []) (2 ^ k)
      rcases hspec with ⟨hle, h0 | hfit⟩
      · exact h0
      · exfalso
        rw [Duration.type_mk, inArray_arrayGet, if_neg (by unfold quarterTypeIndex; omega)] at hfit
        have h128 : (2 : ℚ) ^ (quarterTypeIndex - -1) = 128 := by
          unfold quarterTypeIndex; norm_num
        rw [h128] at hfit
        refine not_dotsFit_128 _ _ hle ?_ hfit
        by_cases hlow : k ≤ 6
        · left
          have := two_zpow_ge 6 k hlow
          norm_num at this
          linarith
        · right
          have := two_zpow_ge k 8 (by omega)
          norm_num at this
          linarith
  refine ⟨hp, hdots, ?_⟩
  unfold candidateLength
  rw [hp, hdots]
  simp [specDottedMultiplier]

/-! ## The constructor on numbers -/

theorem Duration.new_number (r : ℚ → Option Fraction) (n : ℕ) (q : ℚ) :
    Duration.new r (n + 1) (.number q) =
      Duration.updateFeaturesFromQl r (Duration.new r n) (.mk q 0 (some "quarter") []) := rfl

theorem Duration.set_quarterLength_eq (r : ℚ → Option Fraction)
    (nd : DurationArg → Except Abort Duration) (d : Duration) (q : ℚ) :
    Duration.set_quarterLength r nd d (some q) =
      Duration.updateFeaturesFromQl r nd (.mk q d.dots d.type d.tuplets) := rfl

/-- When the candidate length is the value itself, the numeric path stores the candidate type
and dots and leaves the tuplets alone. -/
theorem Duration.updateFeaturesFromQl_exact (r : ℚ → Option Fraction)
    (nd : DurationArg → Except Abort Duration) (d : Duration)
    (hpos : 0 < d.quarterLength + logEpsilon)
    (hex : candidateLength d.quarterLength = d.quarterLength ∨ d.quarterLength = 0) :
    d.updateFeaturesFromQl r nd =
      .ok (.mk d.quarterLength (candidateDots d.quarterLength)
        (arrayGet ordinalTypeFromNum (quarterTypeIndex - candidatePower d.quarterLength))
        d.tuplets) := by
  rw [Duration.updateFeaturesFromQl_eq r nd d hpos, if_neg]
  rcases hex with h | h
  · exact fun hh => hh.1 h
  · exact fun hh => hh.2 h

/-- The numeric path keeps the stored quarter length. -/
theorem Duration.updateFeaturesFromQl_quarterLength (r : ℚ → Option Fraction)
    (nd : DurationArg → Except Abort Duration) (d e : Duration)
    (h : d.updateFeaturesFromQl r nd = .ok e) : e.quarterLength = d.quarterLength := by
  by_cases hpos : d.quarterLength + logEpsilon ≤ 0
  · unfold Duration.updateFeaturesFromQl at h
    simp [hpos] at h
  · rw [Duration.updateFeaturesFromQl_eq r nd d (not_le.1 hpos)] at h
    split at h
    · split at h
      · injection h with h; rw [← h]; rfl
      · split at h
        · injection h with h; rw [← h]; rfl
        · exact Except.noConfusion h
    · injection h with h; rw [← h]; rfl

/-- `new Duration(2^k)`, `k ≥ -16`: no tuplet, no nested construction. -/
theorem Duration.new_pow (r : ℚ → Option Fraction) (n : ℕ) (k : ℤ) (hk : -16 ≤ k) :
    Duration.new r (n + 1) (.number (2 ^ k)) =
      .ok (.mk (2 ^ k) 0 (arrayGet ordinalTypeFromNum (quarterTypeIndex - k)) []) := by
  obtain ⟨hp, hd, hl⟩ := pow_candidate k hk
  rw [Duration.new_number, Duration.updateFeaturesFromQl_exact]
  · simp only [Duration.quarterLength_mk, Duration.tuplets_mk, hp, hd]
  · simp only [Duration.quarterLength_mk]
    have : (0 : ℚ) < 2 ^ k := by positivity
    unfold logEpsilon; linarith
  · left; exact hl

/-- `new Duration(2^k * (2 - 2^-d))`, `-8 ≤ k ≤ 7`, `d ≤ 4`: the dotted note, no tuplet. -/
theorem Duration.new_dotted (r : ℚ → Option Fraction) (n : ℕ) (k : ℤ) (d : ℕ)
    (hk0 : -8 ≤ k) (hk1 : k ≤ 7) (hd : d ≤ 4) :
    Duration.new r (n + 1) (.number (2 ^ k * specDottedMultiplier d)) =
      .ok (.mk (2 ^ k * specDottedMultiplier d) d
        (arrayGet ordinalTypeFromNum (quarterTypeIndex - k)) []) := by
  obtain ⟨hp, hdd, hl⟩ := dotted_candidate k d hk0 hk1 hd
  rw [Duration.new_number, Duration.updateFeaturesFromQl_exact]
  · simp only [Duration.quarterLength_mk, Duration.tuplets_mk, hp, hdd]
  · simp only [Duration.quarterLength_mk]
    have : (0 : ℚ) < 2 ^ k * specDottedMultiplier d :=
      mul_pos (by positivity) (by linarith [specDottedMultiplier_ge_one d])
    unfold logEpsilon; linarith
  · left; exact hl

/-! ## Nested construction ends -/

/-- The candidate power of a non-negative value is at least `-17`. -/
theorem candidatePower_ge (ql : ℚ) (h : 0 ≤ ql) : -17 ≤ candidatePower ql := by
  have hpos : 0 < ql + logEpsilon := by unfold logEpsilon; linarith
  have hlt := (candidatePower_bounds ql hpos).2
  by_contra hc
  have hle : candidatePower ql + 1 ≤ -17 := by omega
  have h17 := two_zpow_ge (-17) (candidatePower ql + 1) hle
  have h17' : (2 : ℚ) ^ (-17 : ℤ) = 1 / 131072 := by norm_num
  rw [h17'] at h17
  unfold logEpsilon at hlt
  linarith

theorem candidateDots_le (ql : ℚ) : candidateDots ql ≤ 4 :=
  (Duration._findDots_spec _ ql).1

/-- Outside the candidate powers `-8 .. 6` the candidate type is `undefined`, `_findDots`
compares with `128`, and no dot is found for a value below `127` or above `249`. -/
theorem candidateDots_eq_zero_of_outside (q : ℚ)
    (hp : ¬ (-8 ≤ candidatePower q ∧ candidatePower q ≤ 6)) (hq : q ≤ 127 ∨ 249 ≤ q) :
    candidateDots q = 0 := by
  have hspec := Duration._findDots_spec
    (Duration.mk q 0 (arrayGet ordinalTypeFromNum (quarterTypeIndex - candidatePower q)) []) q
  generalize hj : (Duration.mk q 0 (arrayGet ordinalTypeFromNum
    (quarterTypeIndex - candidatePower q)) [])._findDots q = j at hspec
  have hc : candidateDots q = j := hj
  rw [hc]
  rcases hspec with ⟨hle, h0 | hfit⟩
  · exact h0
  · exfalso
    rw [Duration.type_mk, inArray_arrayGet, if_neg (by unfold quarterTypeIndex; omega)] at hfit
    have h128 : (2 : ℚ) ^ (quarterTypeIndex - -1) = 128 := by
      unfold quarterTypeIndex; norm_num
    rw [h128] at hfit
    exact not_dotsFit_128 q j hle hq hfit

/-- When a positive number of dots is found, the candidate power lies between `-8` and `7` and
the dotted candidate length is within the tolerance of the value. -/
theorem candidateDots_pos (ql : ℚ) (hql : 0 < ql) (hd : 1 ≤ candidateDots ql) :
    -8 ≤ candidatePower ql ∧ candidatePower ql ≤ 7 ∧
      |candidateLength ql - ql| < dotTolerance := by
  have hpos : 0 < ql + logEpsilon := by unfold logEpsilon; linarith
  obtain ⟨hlo, hhi⟩ := candidatePower_bounds ql hpos
  have hspec := Duration._findDots_spec
    (Duration.mk ql 0 (arrayGet ordinalTypeFromNum (quarterTypeIndex - candidatePower ql)) []) ql
  have hfit : dotsFit (2 ^ (quarterTypeIndex - inArray (arrayGet ordinalTypeFromNum
      (quarterTypeIndex - candidatePower ql)) ordinalTypeFromNum)) ql (candidateDots ql) := by
    rcases hspec.2 with h0 | hfit
    · exfalso
      have : candidateDots ql = 0 := h0
      omega
    · exact hfit
  have hrange : -8 ≤ candidatePower ql ∧ candidatePower ql ≤ 7 := by
    by_cases hin : -8 ≤ candidatePower ql ∧ candidatePower ql ≤ 6
    · exact ⟨hin.1, by omega⟩
    · rw [inArray_arrayGet, if_neg (by unfold quarterTypeIndex; omega)] at hfit
      have h128 : (2 : ℚ) ^ (quarterTypeIndex - -1) = 128 := by
        unfold quarterTypeIndex; norm_num
      rw [h128] at hfit
      have hq := dotsFit_128_bounds ql _ hd (candidateDots_le ql) hfit
      have h7 : candidatePower ql = 7 := by
        apply log_two_eq
        · unfold logEpsilon; norm_num; linarith
        · unfold logEpsilon; norm_num; linarith
      omega
  refine ⟨hrange.1, hrange.2, ?_⟩
  rw [findDots_power _ hrange.1 hrange.2] at hfit
  exact hfit

/-- A value for which no dot is found needs at most one nested construction: its inferred
Tuplet is built on a power of two. -/
theorem Duration.new_of_no_dots (r : ℚ → Option Fraction) (n : ℕ) (q : ℚ) (hq : 0 < q)
    (hd : candidateDots q = 0) :
    ∃ e, Duration.new r (n + 2) (.number q) = .ok e ∧ e.quarterLength = q := by
  have hpos : 0 < q + logEpsilon := by unfold logEpsilon; linarith
  have hl : candidateLength q * 2 = 2 ^ (candidatePower q + 1) := by
    unfold candidateLength
    rw [hd, zpow_add_one₀ (by norm_num)]
    simp [specDottedMultiplier]
  have hnest := Duration.new_pow r n (candidatePower q + 1)
    (by have := candidatePower_ge q hq.le; omega)
  rw [Duration.new_number, Duration.updateFeaturesFromQl_eq r _ _ (by simpa using hpos)]
  simp only [Duration.quarterLength_mk, hl, hnest]
  split
  · split
    · exact ⟨_, rfl, rfl⟩
    · exact ⟨_, rfl, rfl⟩
  · exact ⟨_, rfl, rfl⟩

/-- The Duration that the inference builds for the Tuplet, `new Duration(2u)`, is constructed
within a nesting budget of two. -/
theorem Duration.new_nested (r : ℚ → Option Fraction) (n : ℕ) (ql : ℚ) (hql : 0 < ql) :
    ∃ da, Duration.new r (n + 2) (.number (candidateLength ql * 2)) = .ok da ∧
      da.quarterLength = candidateLength ql * 2 := by
  by_cases hd : candidateDots ql = 0
  · have hl : candidateLength ql * 2 = 2 ^ (candidatePower ql + 1) := by
      unfold candidateLength
      rw [hd, zpow_add_one₀ (by norm_num)]
      simp [specDottedMultiplier]
    rw [hl, Duration.new_pow r (n + 1) _ (by have := candidatePower_ge ql hql.le; omega)]
    exact ⟨_, rfl, rfl⟩
  · obtain ⟨h0, h1, -⟩ := candidateDots_pos ql hql (by omega)
    have hl : candidateLength ql * 2 =
        2 ^ (candidatePower ql + 1) * specDottedMultiplier (candidateDots ql) := by
      unfold candidateLength
      rw [zpow_add_one₀ (by norm_num)]
      ring
    by_cases h6 : candidatePower ql ≤ 6
    · rw [hl, Duration.new_dotted r (n + 1) _ _ (by omega) (by omega) (candidateDots_le ql)]
      exact ⟨_, rfl, rfl⟩
    · have h7 : candidatePower ql = 7 := by omega
      have hval : candidateLength ql * 2 = 256 * specDottedMultiplier (candidateDots ql) := by
        rw [hl, h7]; norm_num
      have hge : (384 : ℚ) ≤ candidateLength ql * 2 := by
        rw [hval]
        have := specDottedMultiplier_ge_of_pos (candidateDots ql) (by omega)
          (candidateDots_le ql)
        linarith
      have hlt : candidateLength ql * 2 < 512 := by
        rw [hval]
        have := specDottedMultiplier_lt_two (candidateDots ql)
        linarith
      apply Duration.new_of_no_dots r n _ (by linarith)
      have hp8 : candidatePower (candidateLength ql * 2) = 8 := by
        apply log_two_eq
        · unfold logEpsilon; norm_num; linarith
        · unfold logEpsilon; norm_num
          rw [hval]
          have hle := specDottedMultiplier_le (candidateDots ql) (candidateDots_le ql)
          linarith
      exact candidateDots_eq_zero_of_outside _ (by rw [hp8]; omega) (Or.inr (by linarith))

/-- Termination of the numeric constructor: for every `ql > 0` a nesting budget of three is
enough, whatever `rationalize` returns, and the result stores `ql`. -/
theorem Duration.new_terminates (r : ℚ → Option Fraction) (n : ℕ) (ql : ℚ) (hql : 0 < ql) :
    ∃ e, Duration.new r (n + 3) (.number ql) = .ok e ∧ e.quarterLength = ql := by
  have hpos : 0 < ql + logEpsilon := by unfold logEpsilon; linarith
  obtain ⟨da, hda, -⟩ := Duration.new_nested r n ql hql
  rw [Duration.new_number, Duration.updateFeaturesFromQl_eq r _ _ (by simpa using hpos)]
  simp only [Duration.quarterLength_mk, hda]
  split
  · split
    · exact ⟨_, rfl, rfl⟩
    · exact ⟨_, rfl, rfl⟩
  · exact ⟨_, rfl, rfl⟩

/-! ## Round trip -/

theorem arrayGet_natCast (i : ℕ) : arrayGet ordinalTypeFromNum (i : ℤ) = ordinalTypeFromNum.get? i := by
  simp [arrayGet]

theorem get?_lt (i : ℕ) (T : String) (h : ordinalTypeFromNum.get? i = some T) : i < 15 := by
  by_contra hc
  have : ordinalTypeFromNum.get? i = none := List.get?_eq_none.2 (by
    simpa [ordinalTypeFromNum] using hc)
  rw [this] at h
  exact Option.noConfusion h

/-- C1: for a table name `T` and `dots ≤ 4`, let `q` be the quarter length that
`updateQlFromFeatures` gives a tuplet-free Duration with type `T` and that many dots; then
`new Duration(q)` has type `T`, the same dots, quarter length `q` and no tuplets. -/
theorem round_trip (rationalize : ℚ → Option Fraction) (fuel i dots : ℕ) (T : String)
    (d : Duration) (hT : ordinalTypeFromNum.get? i = some T) (hdots : dots ≤ 4)
    (htype : d.type = some T) (hd : d.dots = dots) (htup : d.tuplets = []) :
    Duration.new rationalize (fuel + 1) (.number d.updateQlFromFeatures.quarterLength) =
      .ok (.mk d.updateQlFromFeatures.quarterLength dots (some T) []) := by
  have hi := get?_lt i T hT
  have hq : d.updateQlFromFeatures.quarterLength =
      2 ^ (6 - (i : ℤ)) * specDottedMultiplier dots := by
    rw [Duration.updateQlFromFeatures_eq, htype, inArray_of_get? i T hT, hd, htup]
    simp [specQuarterLength, specNominalQuarterLength]
  rw [hq, Duration.new_dotted rationalize fuel (6 - (i : ℤ)) dots (by omega) (by omega) hdots]
  have : quarterTypeIndex - (6 - (i : ℤ)) = (i : ℤ) := by unfold quarterTypeIndex; ring
  rw [this, arrayGet_natCast, hT]

/-- The documented round trips: `6.0` is a whole note with one dot, `7.75` a whole note with
four dots, `1.75` a quarter note with two dots, `1.0` a quarter note. -/
theorem round_trip_witness :
    (ordinalTypeFromNum.get? 4 = some "whole" ∧ 1 ≤ 4 ∧
      Duration.new (fun _ => none) 1 (.number 6) = .ok (.mk 6 1 (some "whole") [])) ∧
    Duration.new (fun _ => none) 1 (.number (31 / 4)) = .ok (.mk (31 / 4) 4 (some "whole") []) ∧
    Duration.new (fun _ => none) 1 (.number (7 / 4)) = .ok (.mk (7 / 4) 2 (some "quarter") []) ∧
    Duration.new (fun _ => none) 1 (.number 1) = .ok (.mk 1 0 (some "quarter") []) := by
  have key : ∀ (i dots : ℕ) (T : String) (q : ℚ), ordinalTypeFromNum.get? i = some T →
      dots ≤ 4 → specQuarterLength i dots [] = q →
      Duration.new (fun _ => none) 1 (.number q) = .ok (.mk q dots (some T) []) := by
    intro i dots T q hT hdots hq
    have h := round_trip (fun _ => none) 0 i dots T (.mk 1 dots (some T) []) hT hdots rfl rfl rfl
    have hval : (Duration.mk 1 dots (some T) []).updateQlFromFeatures.quarterLength = q := by
      rw [Duration.updateQlFromFeatures_eq, Duration.type_mk, inArray_of_get? i T hT]
      exact hq
    rw [hval] at h
    exact h
  refine ⟨⟨by decide, by decide, ?_⟩, ?_, ?_, ?_⟩
  · exact key 4 1 "whole" 6 (by decide) (by decide)
      (by norm_num [specQuarterLength, specNominalQuarterLength, specDottedMultiplier])
  · exact key 4 4 "whole" (31 / 4) (by decide) (by decide)
      (by norm_num [specQuarterLength, specNominalQuarterLength, specDottedMultiplier])
  · exact key 6 2 "quarter" (7 / 4) (by decide) (by decide)
      (by norm_num [specQuarterLength, specNominalQuarterLength, specDottedMultiplier])
  · exact key 6 0 "quarter" 1 (by decide) (by decide)
      (by norm_num [specQuarterLength, specNominalQuarterLength, specDottedMultiplier])

/-! ## Quarter length zero -/

theorem candidate_zero : candidatePower 0 = -17 ∧ candidateDots 0 = 0 := by
  constructor
  · apply log_two_eq <;> norm_num [logEpsilon]
  · simp [candidateDots, Duration._findDots]

/-- The numeric path on quarter length `0`. -/
theorem Duration.updateFeaturesFromQl_zero (r : ℚ → Option Fraction)
    (nd : DurationArg → Except Abort Duration) (n : ℕ) (t : Option String)
    (ts : List Tuplet) :
    (Duration.mk 0 n t ts).updateFeaturesFromQl r nd = .ok (.mk 0 0 none ts) := by
  rw [Duration.updateFeaturesFromQl_exact]
  · simp only [Duration.quarterLength_mk, Duration.tuplets_mk, candidate_zero.1,
      candidate_zero.2]
    rfl
  · norm_num [logEpsilon]
  · right; rfl

/-- C9, as the code has it: assigning quarter length `0` leaves the type `undefined` (the
candidate index `23` is outside the table), sets dots to `0`, appends no tuplet and keeps
quarter length `0`; no nested construction is made. -/
theorem set_quarterLength_zero (rationalize : ℚ → Option Fraction)
    (newDuration : DurationArg → Except Abort Duration) (d : Duration) :
    Duration.set_quarterLength rationalize newDuration d (some 0) =
      .ok (.mk 0 0 none d.tuplets) := by
  rw [Duration.set_quarterLength_eq, Duration.updateFeaturesFromQl_zero]

/-- C9 fails as stated: after `quarterLength = 0` on a fresh Duration the type is `undefined`,
not the name `'zero'` that `typeFromNumDict` has for `0`. -/
theorem zero_quarterLength_type_undefined :
    typeFromNumDict.lookup 0 = some "zero" ∧
    Duration.set_quarterLength (fun _ => none) (fun _ => .error .outOfFuel) Duration.initial
      (some 0) = .ok (.mk 0 0 none []) ∧
    (Duration.mk 0 0 none []).type ≠ some "zero" :=
  ⟨by decide, by
    rw [Duration.set_quarterLength_eq, Duration.updateFeaturesFromQl_zero]; rfl, by simp⟩

/-! ## Tuplet inference -/

theorem orDefault_some_pos (n dflt : ℕ) (h : 1 ≤ n) : orDefault (some n) dflt = n := by
  cases n with
  | zero => omega
  | succ k => rfl

theorem candidateLength_pos (ql : ℚ) : 0 < candidateLength ql :=
  mul_pos (by positivity) (by linarith [specDottedMultiplier_ge_one (candidateDots ql)])

/-- The tuplet branch of the numeric path, when `rationalize` returns a fraction and the nested
constructor returns `da`. -/
theorem Duration.updateFeaturesFromQl_tuplet (r : ℚ → Option Fraction)
    (nd : DurationArg → Except Abort Duration) (d da : Duration) (f : Fraction)
    (hpos : 0 < d.quarterLength + logEpsilon)
    (hne : candidateLength d.quarterLength ≠ d.quarterLength) (h0 : d.quarterLength ≠ 0)
    (hr : r (d.quarterLength / (candidateLength d.quarterLength * 2)) = some f)
    (hnd : nd (.number (candidateLength d.quarterLength * 2)) = .ok da) :
    d.updateFeaturesFromQl r nd =
      .ok (.mk d.quarterLength (candidateDots d.quarterLength)
        (arrayGet ordinalTypeFromNum (quarterTypeIndex - candidatePower d.quarterLength - 1))
        (d.tuplets ++ [Tuplet.mk (orDefault (some f.denominator) 3)
          (orDefault (some f.numerator) 2) da da true])) := by
  rw [Duration.updateFeaturesFromQl_eq r nd d hpos, if_pos ⟨hne, h0⟩]
  simp only [hr, hnd]

/-- The tuplet branch of the numeric path, when `rationalize` returns `undefined`. -/
theorem Duration.updateFeaturesFromQl_unrationalized (r : ℚ → Option Fraction)
    (nd : DurationArg → Except Abort Duration) (d : Duration)
    (hpos : 0 < d.quarterLength + logEpsilon)
    (hne : candidateLength d.quarterLength ≠ d.quarterLength) (h0 : d.quarterLength ≠ 0)
    (hr : r (d.quarterLength / (candidateLength d.quarterLength * 2)) = none) :
    d.updateFeaturesFromQl r nd =
      .ok (.mk d.quarterLength (candidateDots d.quarterLength)
        (arrayGet ordinalTypeFromNum (quarterTypeIndex - candidatePower d.quarterLength - 1))
        d.tuplets) := by
  rw [Duration.updateFeaturesFromQl_eq r nd d hpos, if_pos ⟨hne, h0⟩]
  simp only [hr]

/-- No dot is found when no dot count up to four fits. -/
theorem candidateDots_eq_zero_of_no_fit (q : ℚ)
    (h : ∀ j, j ≤ 4 → ¬ dotsFit (2 ^ (quarterTypeIndex - inArray (arrayGet ordinalTypeFromNum
      (quarterTypeIndex - candidatePower q)) ordinalTypeFromNum)) q j) :
    candidateDots q = 0 := by
  have hspec := Duration._findDots_spec
    (Duration.mk q 0 (arrayGet ordinalTypeFromNum (quarterTypeIndex - candidatePower q)) []) q
  generalize hj : (Duration.mk q 0 (arrayGet ordinalTypeFromNum
    (quarterTypeIndex - candidatePower q)) [])._findDots q = j at hspec
  have hc : candidateDots q = j := hj
  rw [hc]
  rcases hspec with ⟨hle, h0 | hfit⟩
  · exact h0
  · exact absurd hfit (h j hle)

/-- The candidate of `1/3`: power `-2`, no dots, length `1/4`. -/
theorem candidate_one_third :
    candidatePower (1 / 3) = -2 ∧ candidateDots (1 / 3) = 0 ∧ candidateLength (1 / 3) = 1 / 4 := by
  have hp : candidatePower (1 / 3) = -2 := by
    apply log_two_eq <;> norm_num [logEpsilon]
  have hd : candidateDots (1 / 3) = 0 := by
    apply candidateDots_eq_zero_of_no_fit
    intro j hj
    rw [hp, findDots_power (-2) (by norm_num) (by norm_num)]
    unfold dotsFit dotTolerance
    interval_cases j <;> norm_num [specDottedMultiplier, abs_lt]
  refine ⟨hp, hd, ?_⟩
  unfold candidateLength
  rw [hp, hd]
  norm_num [specDottedMultiplier]

/-- C6: for `ql > 0` assigned to a tuplet-free Duration, with `p`, `d`, `u` the candidate power,
dots and length: if `u ≠ ql` and `rationalize(ql / (2u))` has numerator `n ≥ 1` and denominator
`m ≥ 1`, the nested `new Duration(2u)` returns some `da` with quarter length `2u`, and afterwards
the type is `ordinalTypeFromNum[6 - p - 1]`, the dots are `d`, and the one Tuplet is frozen, has
`numberNotesActual = m`, `numberNotesNormal = n` and `da` as both durations. -/
theorem tuplet_inference (rationalize : ℚ → Option Fraction) (d : Duration) (ql : ℚ)
    (n m fuel : ℕ) (hql : 0 < ql) (htup : d.tuplets = [])
    (hne : candidateLength ql ≠ ql)
    (hr : rationalize (ql / (2 * candidateLength ql)) = some ⟨n, m⟩)
    (hn : 1 ≤ n) (hm : 1 ≤ m) :
    ∃ da : Duration,
      Duration.new rationalize (fuel + 2) (.number (2 * candidateLength ql)) = .ok da ∧
      da.quarterLength = 2 * candidateLength ql ∧
      Duration.set_quarterLength rationalize (Duration.new rationalize (fuel + 2)) d (some ql) =
        .ok (.mk ql (candidateDots ql)
          (arrayGet ordinalTypeFromNum (6 - candidatePower ql - 1))
          [Tuplet.mk m n da da true]) := by
  obtain ⟨da, hda, hdaq⟩ := Duration.new_nested rationalize fuel ql hql
  rw [mul_comm] at hr ⊢
  refine ⟨da, hda, hdaq, ?_⟩
  rw [Duration.set_quarterLength_eq,
    Duration.updateFeaturesFromQl_tuplet rationalize _ _ da ⟨n, m⟩
      (by simp only [Duration.quarterLength_mk, logEpsilon]; linarith)
      (by simpa using hne) (by simpa using hql.ne') (by simpa using hr) (by simpa using hda)]
  simp only [Duration.quarterLength_mk, Duration.tuplets_mk, htup, List.nil_append,
    orDefault_some_pos m 3 hm, orDefault_some_pos n 2 hn]
  rfl

/-- Scenario E: quarter length `1/3` with `rationalize(2/3) = 2/3` gives an eighth note, no
dots, and one frozen 3:2 Tuplet over an eighth note (`durationActual.quarterLength = 0.5`) with
multiplier `2/3` and total length `1`. -/
theorem tuplet_inference_witness :
    ((0 : ℚ) < 1 / 3 ∧ Duration.initial.tuplets = [] ∧ candidateLength (1 / 3) ≠ 1 / 3 ∧
      (fun _ : ℚ => some (Fraction.mk 2 3)) ((1 / 3) / (2 * candidateLength (1 / 3))) =
        some ⟨2, 3⟩ ∧ 1 ≤ 2 ∧ 1 ≤ 3) ∧
    Duration.set_quarterLength (fun _ => some ⟨2, 3⟩) (Duration.new (fun _ => some ⟨2, 3⟩) 2)
      Duration.initial (some (1 / 3)) =
      .ok (.mk (1 / 3) 0 (some "eighth")
        [Tuplet.mk 3 2 (.mk (1 / 2) 0 (some "eighth") []) (.mk (1 / 2) 0 (some "eighth") [])
          true]) ∧
    (Tuplet.mk 3 2 (.mk (1 / 2) 0 (some "eighth") []) (.mk (1 / 2) 0 (some "eighth") [])
      true).tupletMultiplier = 2 / 3 ∧
    (Tuplet.mk 3 2 (.mk (1 / 2) 0 (some "eighth") []) (.mk (1 / 2) 0 (some "eighth") [])
      true).totalTupletLength = 1 := by
  obtain ⟨hp, hd, hl⟩ := candidate_one_third
  have hne : candidateLength (1 / 3) ≠ 1 / 3 := by rw [hl]; norm_num
  refine ⟨⟨by norm_num, rfl, hne, rfl, by decide, by decide⟩, ?_,
    by norm_num [Tuplet.tupletMultiplier, Tuplet.totalTupletLength],
    by norm_num [Tuplet.totalTupletLength]⟩
  obtain ⟨da, hda, -, hres⟩ := tuplet_inference (fun _ => some ⟨2, 3⟩) Duration.initial (1 / 3)
    2 3 0 (by norm_num) rfl hne rfl (by decide) (by decide)
  have hhalf : (2 : ℚ) * candidateLength (1 / 3) = 2 ^ (-1 : ℤ) := by rw [hl]; norm_num
  rw [hhalf, Duration.new_pow _ 1 (-1) (by norm_num)] at hda
  have hda' : da = .mk (1 / 2) 0 (some "eighth") [] := by
    injection hda with hda
    rw [← hda]
    norm_num
    decide
  rw [hres, hp, hd, hda']
  rfl

/-! ## The numeric path and the product formula -/

/-- The shifted candidate index `6 - p - 1` read back through the table gives `2^(p+1)`, for `p`
from `-9` to `6`. -/
theorem shifted_power (p : ℤ) (h0 : -9 ≤ p) (h1 : p ≤ 6) :
    specNominalQuarterLength
      (inArray (arrayGet ordinalTypeFromNum (quarterTypeIndex - p - 1)) ordinalTypeFromNum) =
      2 ^ (p + 1) := by
  have h := findDots_power (p + 1) (by omega) (by omega)
  have hidx : quarterTypeIndex - (p + 1) = quarterTypeIndex - p - 1 := by ring
  rw [hidx] at h
  exact h

/-- The product formula of a Duration with the shifted candidate type, the candidate dots and
one Tuplet `m : n` over a Duration of non-zero quarter length. -/
theorem specQuarterLength_inferred (ql : ℚ) (n m : ℕ) (da : Duration) (f : Bool)
    (h0 : -9 ≤ candidatePower ql) (h1 : candidatePower ql ≤ 6) (hm : 1 ≤ m)
    (hda : da.quarterLength ≠ 0) :
    specQuarterLength
      (inArray (arrayGet ordinalTypeFromNum (quarterTypeIndex - candidatePower ql - 1))
        ordinalTypeFromNum) (candidateDots ql) [Tuplet.mk m n da da f] =
      2 * candidateLength ql * ((n : ℚ) / (m : ℚ)) := by
  have hm0 : (m : ℚ) ≠ 0 := by
    have : 0 < m := hm
    exact_mod_cast this.ne'
  unfold specQuarterLength
  rw [shifted_power _ h0 h1, zpow_add_one₀ (by norm_num)]
  simp only [List.map_cons, List.map_nil, List.prod_cons, List.prod_nil, mul_one,
    Tuplet.tupletMultiplier, Tuplet.totalTupletLength, Tuplet.numberNotesNormal_mk,
    Tuplet.numberNotesActual_mk, Tuplet.durationActual_mk, Tuplet.durationNormal_mk,
    candidateLength]
  field_simp
  ring

/-- C10, amended: for `ql > 0` whose candidate index `6 - p` lies in `0 .. 15`, if the
inference appends a Tuplet from a `rationalize` result `n/m` (`n, m ≥ 1`) equal to the tuplet
ratio `ql / (2u)`, then `new Duration(ql)` returns a Duration whose product formula is exactly
`ql`, and `updateQlFromFeatures` leaves it unchanged. -/
theorem numeric_path_converges (rationalize : ℚ → Option Fraction) (ql : ℚ) (n m fuel : ℕ)
    (hql : 0 < ql) (hp0 : -9 ≤ candidatePower ql) (hp1 : candidatePower ql ≤ 6)
    (hne : candidateLength ql ≠ ql)
    (hr : rationalize (ql / (2 * candidateLength ql)) = some ⟨n, m⟩)
    (hn : 1 ≤ n) (hm : 1 ≤ m) (hexact : (n : ℚ) / (m : ℚ) = ql / (2 * candidateLength ql)) :
    ∃ e : Duration, Duration.new rationalize (fuel + 3) (.number ql) = .ok e ∧
      e.tuplets.length = 1 ∧
      specQuarterLength (inArray e.type ordinalTypeFromNum) e.dots e.tuplets = ql ∧
      e.updateQlFromFeatures = e := by
  obtain ⟨da, hda, hdaq⟩ := Duration.new_nested rationalize fuel ql hql
  have hu := candidateLength_pos ql
  rw [mul_comm] at hr
  have hres : Duration.new rationalize (fuel + 3) (.number ql) =
      .ok (.mk ql (candidateDots ql)
        (arrayGet ordinalTypeFromNum (quarterTypeIndex - candidatePower ql - 1))
        [Tuplet.mk m n da da true]) := by
    rw [Duration.new_number,
      Duration.updateFeaturesFromQl_tuplet rationalize _ _ da ⟨n, m⟩
        (by simp only [Duration.quarterLength_mk, logEpsilon]; linarith)
        (by simpa using hne) (by simpa using hql.ne') (by simpa using hr) (by simpa using hda)]
    simp only [Duration.quarterLength_mk, Duration.tuplets_mk, List.nil_append,
      orDefault_some_pos m 3 hm, orDefault_some_pos n 2 hn]
  have hformula : specQuarterLength
      (inArray (arrayGet ordinalTypeFromNum (quarterTypeIndex - candidatePower ql - 1))
        ordinalTypeFromNum) (candidateDots ql) [Tuplet.mk m n da da true] = ql := by
    rw [specQuarterLength_inferred ql n m da true hp0 hp1 hm (by rw [hdaq]; positivity), hexact]
    field_simp
  refine ⟨_, hres, rfl, ?_, ?_⟩
  · simpa using hformula
  · rw [Duration.updateQlFromFeatures_eq]
    simp only [Duration.type_mk, Duration.dots_mk, Duration.tuplets_mk, hformula]

/-- The candidate of `2/5`: power `-2`, no dots, length `1/4`. -/
theorem candidate_two_fifths :
    candidatePower (2 / 5) = -2 ∧ candidateDots (2 / 5) = 0 ∧ candidateLength (2 / 5) = 1 / 4 := by
  have hp : candidatePower (2 / 5) = -2 := by
    apply log_two_eq <;> norm_num [logEpsilon]
  have hd : candidateDots (2 / 5) = 0 := by
    apply candidateDots_eq_zero_of_no_fit
    intro j hj
    rw [hp, findDots_power (-2) (by norm_num) (by norm_num)]
    unfold dotsFit dotTolerance
    interval_cases j <;> norm_num [specDottedMultiplier, abs_lt]
  refine ⟨hp, hd, ?_⟩
  unfold candidateLength
  rw [hp, hd]
  norm_num [specDottedMultiplier]

/-- The quintuplet eighth of the module's tests, `quarterLength = 2/5` with
`rationalize(4/5) = 4/5`: the Duration built satisfies the product formula. -/
theorem numeric_path_converges_witness :
    ((0 : ℚ) < 2 / 5 ∧ -9 ≤ candidatePower (2 / 5) ∧ candidatePower (2 / 5) ≤ 6 ∧
      candidateLength (2 / 5) ≠ 2 / 5 ∧
      (fun _ : ℚ => some (Fraction.mk 4 5)) ((2 / 5) / (2 * candidateLength (2 / 5))) =
        some ⟨4, 5⟩ ∧
      ((4 : ℕ) : ℚ) / ((5 : ℕ) : ℚ) = (2 / 5) / (2 * candidateLength (2 / 5))) ∧
    ∃ e : Duration, Duration.new (fun _ => some ⟨4, 5⟩) 3 (.number (2 / 5)) = .ok e ∧
      e.tuplets.length = 1 ∧
      specQuarterLength (inArray e.type ordinalTypeFromNum) e.dots e.tuplets = 2 / 5 ∧
      e.updateQlFromFeatures = e := by
  obtain ⟨hp, hd, hl⟩ := candidate_two_fifths
  have hne : candidateLength (2 / 5) ≠ 2 / 5 := by rw [hl]; norm_num
  have hex : ((4 : ℕ) : ℚ) / ((5 : ℕ) : ℚ) = (2 / 5) / (2 * candidateLength (2 / 5)) := by
    rw [hl]; norm_num
  exact ⟨⟨by norm_num, by rw [hp]; norm_num, by rw [hp]; norm_num, hne, rfl, hex⟩,
    numeric_path_converges (fun _ => some ⟨4, 5⟩) (2 / 5) 4 5 0 (by norm_num)
      (by rw [hp]; norm_num) (by rw [hp]; norm_num) hne rfl (by decide) (by decide) hex⟩

/-- The candidate of `3072`: power `11`, no dots, length `2048`. -/
theorem candidate_3072 :
    candidatePower 3072 = 11 ∧ candidateDots 3072 = 0 ∧ candidateLength 3072 = 2048 := by
  have hp : candidatePower 3072 = 11 := by
    apply log_two_eq <;> norm_num [logEpsilon]
  have hd : candidateDots 3072 = 0 :=
    candidateDots_eq_zero_of_outside 3072 (by rw [hp]; omega) (Or.inr (by norm_num))
  refine ⟨hp, hd, ?_⟩
  unfold candidateLength
  rw [hp, hd]
  norm_num [specDottedMultiplier]

/-- C10 fails as stated: for `ql = 3072` (candidate index `-5`) the inference appends the
Tuplet `4 : 3` from the exact ratio `3072 / 4096 = 3/4`, yet the type is `undefined` and a
subsequent `updateQlFromFeatures` changes the quarter length from `3072` to `96`. -/
theorem numeric_path_diverges_outside_table :
    rationalizeThreeQuarters (3072 / (2 * candidateLength 3072)) = some ⟨3, 4⟩ ∧
    ((3 : ℕ) : ℚ) / ((4 : ℕ) : ℚ) = 3072 / (2 * candidateLength 3072) ∧
    candidateLength 3072 ≠ 3072 ∧
    Duration.new rationalizeThreeQuarters 2 (.number 3072) =
      .ok (.mk 3072 0 none [Tuplet.mk 4 3 (.mk 4096 0 none []) (.mk 4096 0 none []) true]) ∧
    (Duration.mk 3072 0 none
      [Tuplet.mk 4 3 (.mk 4096 0 none []) (.mk 4096 0 none []) true]).updateQlFromFeatures
      = .mk 96 0 none [Tuplet.mk 4 3 (.mk 4096 0 none []) (.mk 4096 0 none []) true] := by
  obtain ⟨hp, hd, hl⟩ := candidate_3072
  have h4096 : Duration.new rationalizeThreeQuarters 1 (.number (candidateLength 3072 * 2)) =
      .ok (.mk 4096 0 none []) := by
    have : candidateLength 3072 * 2 = 2 ^ (12 : ℤ) := by rw [hl]; norm_num
    rw [this, Duration.new_pow _ 0 12 (by norm_num)]
    norm_num
    decide
  refine ⟨rfl, by rw [hl]; norm_num, by rw [hl]; norm_num, ?_, ?_⟩
  · rw [Duration.new_number,
      Duration.updateFeaturesFromQl_tuplet rationalizeThreeQuarters _ _ (.mk 4096 0 none [])
        ⟨3, 4⟩ (by norm_num [logEpsilon]) (by simp only [Duration.quarterLength_mk, hl]; norm_num)
        (by norm_num) rfl (by simpa using h4096)]
    simp only [Duration.quarterLength_mk, Duration.tuplets_mk, List.nil_append, hp, hd]
    rfl
  · rw [Duration.updateQlFromFeatures_eq]
    have hidx : inArray none ordinalTypeFromNum = -1 := rfl
    simp only [Duration.type_mk, Duration.dots_mk, Duration.tuplets_mk, hidx]
    norm_num [specQuarterLength, specNominalQuarterLength, specDottedMultiplier,
      Tuplet.tupletMultiplier, Tuplet.totalTupletLength]

/-! ## The invariant between the two representations -/

/-- After `updateQlFromFeatures` the stored quarter length is the product formula. -/
theorem invariantHolds_updateQlFromFeatures (d : Duration) :
    invariantHolds d.updateQlFromFeatures := by
  unfold invariantHolds
  rw [Duration.updateQlFromFeatures_eq]
  simp only [Duration.quarterLength_mk, Duration.type_mk, Duration.dots_mk,
    Duration.tuplets_mk, sub_self, abs_zero]
  norm_num

/-- C3, amended: the stored quarter length is within `1e-4` of the product formula (in fact
equal to it) right after `set type` with a table name, `set dots` and `appendTuplet`; and right
after `set quarterLength(ql)`, `ql > 0`, on a Duration without tuplets whose candidate index
is in the table (`0 .. 14`), provided `ql` is exactly a dotted note value or `rationalize`
returns `n/m` (`n, m ≥ 1`) with `|ql - 2u * n/m| < 1e-4`. -/
theorem invariant_after_each_operation (rationalize : ℚ → Option Fraction) (d : Duration) :
    (∀ T : String, T ∈ ordinalTypeFromNum →
      (d.set_type T).thrown = none ∧ invariantHolds (d.set_type T).state) ∧
    (∀ numDots : ℕ, invariantHolds (d.set_dots numDots)) ∧
    (∀ t : Tuplet, invariantHolds (d.appendTuplet t false)) ∧
    (∀ (ql : ℚ) (fuel : ℕ), 0 < ql → d.tuplets = [] →
      -8 ≤ candidatePower ql → candidatePower ql ≤ 6 →
      (candidateLength ql = ql ∨
        ∃ n m : ℕ, 1 ≤ n ∧ 1 ≤ m ∧
          rationalize (ql / (2 * candidateLength ql)) = some ⟨n, m⟩ ∧
          |ql - 2 * candidateLength ql * ((n : ℚ) / (m : ℚ))| < 1 / 10000) →
      ∃ e : Duration,
        Duration.set_quarterLength rationalize (Duration.new rationalize (fuel + 2)) d
          (some ql) = .ok e ∧ invariantHolds e) := by
  refine ⟨?_, ?_, ?_, ?_⟩
  · intro T hT
    have hne : inArray (some T) ordinalTypeFromNum ≠ -1 := fun h =>
      (inArray_eq_neg_one_iff T).1 h hT
    unfold Duration.set_type
    rw [if_neg hne]
    exact ⟨rfl, invariantHolds_updateQlFromFeatures _⟩
  · intro numDots
    exact invariantHolds_updateQlFromFeatures _
  · intro t
    exact invariantHolds_updateQlFromFeatures _
  · intro ql fuel hql htup hp0 hp1 hcase
    have hpos : 0 < (Duration.mk ql d.dots d.type d.tuplets).quarterLength + logEpsilon := by
      simp only [Duration.quarterLength_mk, logEpsilon]; linarith
    by_cases hex : candidateLength ql = ql
    · rw [Duration.set_quarterLength_eq,
        Duration.updateFeaturesFromQl_exact _ _ _ hpos (Or.inl (by simpa using hex))]
      refine ⟨_, rfl, ?_⟩
      · unfold invariantHolds
        simp only [Duration.quarterLength_mk, Duration.type_mk, Duration.dots_mk,
          Duration.tuplets_mk, htup]
        have hform : specQuarterLength
            (inArray (arrayGet ordinalTypeFromNum (quarterTypeIndex - candidatePower ql))
              ordinalTypeFromNum) (candidateDots ql) [] = candidateLength ql := by
          unfold specQuarterLength specNominalQuarterLength
          have := findDots_power (candidatePower ql) hp0 (by omega)
          unfold quarterTypeIndex at this
          unfold quarterTypeIndex
          rw [this]
          simp [candidateLength]
        rw [hform, hex, sub_self, abs_zero]
        norm_num
    · rcases hcase with h | ⟨n, m, hn, hm, hr, hclose⟩
      · exact absurd h hex
      · obtain ⟨da, hda, hdaq⟩ := Duration.new_nested rationalize fuel ql hql
        rw [mul_comm] at hr
        rw [Duration.set_quarterLength_eq,
          Duration.updateFeaturesFromQl_tuplet rationalize _ _ da ⟨n, m⟩ hpos
            (by simpa using hex) (by simpa using hql.ne') (by simpa using hr)
            (by simpa using hda)]
        refine ⟨_, rfl, ?_⟩
        · unfold invariantHolds
          simp only [Duration.quarterLength_mk, Duration.type_mk, Duration.dots_mk,
            Duration.tuplets_mk, htup, List.nil_append, orDefault_some_pos m 3 hm,
            orDefault_some_pos n 2 hn]
          rw [specQuarterLength_inferred ql n m da true (by omega) hp1 hm
            (by rw [hdaq]; exact (mul_pos (candidateLength_pos ql) (by norm_num)).ne')]
          exact hclose

/-- Both cases of the numeric path occur: `1.0` is exactly a quarter note, and `1/3` with
`rationalize(2/3) = 2/3` gets a triplet; the invariant holds after each. -/
theorem invariant_after_each_operation_witness :
    (∃ e : Duration,
      Duration.set_quarterLength (fun _ => some ⟨2, 3⟩) (Duration.new (fun _ => some ⟨2, 3⟩) 2)
        Duration.initial (some 1) = .ok e ∧ invariantHolds e) ∧
    (∃ e : Duration,
      Duration.set_quarterLength (fun _ => some ⟨2, 3⟩) (Duration.new (fun _ => some ⟨2, 3⟩) 2)
        Duration.initial (some (1 / 3)) = .ok e ∧ invariantHolds e) := by
  obtain ⟨hp, hd, hl⟩ := candidate_one_third
  obtain ⟨hp1, hd1, hl1⟩ := pow_candidate 0 (by norm_num)
  rw [zpow_zero] at hp1 hd1 hl1
  have h := (invariant_after_each_operation (fun _ => some ⟨2, 3⟩) Duration.initial).2.2.2
  constructor
  · exact h 1 0 (by norm_num) rfl (by rw [hp1]; norm_num) (by rw [hp1]; norm_num) (Or.inl hl1)
  · refine h (1 / 3) 0 (by norm_num) rfl (by rw [hp]; norm_num) (by rw [hp]; norm_num)
      (Or.inr ⟨2, 3, by decide, by decide, rfl, ?_⟩)
    rw [hl]
    norm_num

/-- C3 fails as stated: `new Duration(1.0)`, then `appendTuplet(new Tuplet(3, 2))`, then
`quarterLength = 1.0`.  The last assignment keeps the triplet, so the stored quarter length
is `1` while the product formula of the state is `2/3`. -/
theorem invariant_broken_by_set_quarterLength :
    Duration.new (fun _ => none) 1 (.number 1) = .ok (.mk 1 0 (some "quarter") []) ∧
    Tuplet.new (Duration.new (fun _ => none) 1) (some 3) (some 2) none none =
      .ok (.mk 3 2 (.mk (1/2) 0 (some "eighth") []) (.mk (1/2) 0 (some "eighth") []) false) ∧
    (Duration.mk 1 0 (some "quarter") []).appendTuplet
      (.mk 3 2 (.mk (1/2) 0 (some "eighth") []) (.mk (1/2) 0 (some "eighth") []) false) false =
      .mk (2/3) 0 (some "quarter")
        [.mk 3 2 (.mk (1/2) 0 (some "eighth") []) (.mk (1/2) 0 (some "eighth") []) true] ∧
    Duration.set_quarterLength (fun _ => none) (Duration.new (fun _ => none) 1)
      (.mk (2/3) 0 (some "quarter")
        [.mk 3 2 (.mk (1/2) 0 (some "eighth") []) (.mk (1/2) 0 (some "eighth") []) true])
      (some 1) =
      .ok (.mk 1 0 (some "quarter")
        [.mk 3 2 (.mk (1/2) 0 (some "eighth") []) (.mk (1/2) 0 (some "eighth") []) true]) ∧
    specQuarterLength (inArray (some "quarter") ordinalTypeFromNum) 0
      [.mk 3 2 (.mk (1/2) 0 (some "eighth") []) (.mk (1/2) 0 (some "eighth") []) true] = 2 / 3 ∧
    ¬ invariantHolds (.mk 1 0 (some "quarter")
        [.mk 3 2 (.mk (1/2) 0 (some "eighth") []) (.mk (1/2) 0 (some "eighth") []) true]) := by
  have h6 : inArray (some "quarter") ordinalTypeFromNum = 6 := by decide
  have hone : Duration.new (fun _ => none) 1 (.number 1) = .ok (.mk 1 0 (some "quarter") []) := by
    have := Duration.new_pow (fun _ => none) 0 0 (by norm_num)
    rw [zpow_zero] at this
    rw [this]
    rfl
  have hhalf : Duration.new (fun _ => none) 1 (.number (1 / 2)) =
      .ok (.mk (1/2) 0 (some "eighth") []) := by
    have := Duration.new_pow (fun _ => none) 0 (-1) (by norm_num)
    have h2 : (2 : ℚ) ^ (-1 : ℤ) = 1 / 2 := by norm_num
    rw [h2] at this
    rw [this]
    rfl
  have hspec : specQuarterLength 6 0
      [.mk 3 2 (.mk (1/2) 0 (some "eighth") []) (.mk (1/2) 0 (some "eighth") []) true] = 2 / 3 := by
    norm_num [specQuarterLength, specNominalQuarterLength, specDottedMultiplier,
      Tuplet.tupletMultiplier, Tuplet.totalTupletLength]
  refine ⟨hone, ?_, ?_, ?_, by rw [h6]; exact hspec, ?_⟩
  · simp only [Tuplet.new, hhalf, orDefault]
    rfl
  · simp only [Duration.appendTuplet, Duration.updateQlFromFeatures_eq, Duration.type_mk,
      Duration.dots_mk, Duration.tuplets_mk, Duration.quarterLength_mk, h6, List.nil_append,
      Tuplet.numberNotesActual_mk, Tuplet.numberNotesNormal_mk, Tuplet.durationActual_mk,
      Tuplet.durationNormal_mk, hspec]
    simp
  · obtain ⟨hp1, hd1, hl1⟩ := pow_candidate 0 (by norm_num)
    rw [zpow_zero] at hp1 hd1 hl1
    rw [Duration.set_quarterLength_eq, Duration.updateFeaturesFromQl_exact _ _ _
      (by norm_num [logEpsilon]) (Or.inl (by simpa using hl1))]
    simp only [Duration.quarterLength_mk, Duration.tuplets_mk, hp1, hd1]
    rfl
  · unfold invariantHolds
    simp only [Duration.quarterLength_mk, Duration.type_mk, Duration.dots_mk,
      Duration.tuplets_mk, h6, hspec]
    norm_num [abs_lt]

/-! ## What the numeric path leaves alone -/

/-- For every `ql > -0.00001` the numeric path returns when the nested constructor has a
nesting budget of three; it keeps the stored quarter length and the tuplets it found, and
appends at most one Tuplet, which is frozen. -/
theorem Duration.updateFeaturesFromQl_frame (r : ℚ → Option Fraction) (n : ℕ) (d : Duration)
    (hpos : 0 < d.quarterLength + logEpsilon) :
    ∃ e : Duration, d.updateFeaturesFromQl r (Duration.new r (n + 3)) = .ok e ∧
      e.quarterLength = d.quarterLength ∧
      (e.tuplets = d.tuplets ∨
        ∃ t : Tuplet, e.tuplets = d.tuplets ++ [t] ∧ t.frozen = true) := by
  obtain ⟨da, hda, -⟩ := Duration.new_terminates r n (candidateLength d.quarterLength * 2)
    (mul_pos (candidateLength_pos _) (by norm_num))
  rw [Duration.updateFeaturesFromQl_eq r _ d hpos]
  simp only [hda]
  split
  · split
    · exact ⟨_, rfl, rfl, Or.inl rfl⟩
    · exact ⟨_, rfl, rfl, Or.inr ⟨_, rfl, rfl⟩⟩
  · exact ⟨_, rfl, rfl, Or.inl rfl⟩

/-- Whenever the numeric path returns, with any nested constructor, the tuplets it found are
still there, followed by at most one new Tuplet, which is frozen. -/
theorem Duration.updateFeaturesFromQl_tuplets (r : ℚ → Option Fraction)
    (nd : DurationArg → Except Abort Duration) (d e : Duration)
    (h : d.updateFeaturesFromQl r nd = .ok e) :
    e.tuplets = d.tuplets ∨ ∃ t : Tuplet, e.tuplets = d.tuplets ++ [t] ∧ t.frozen = true := by
  by_cases hpos : d.quarterLength + logEpsilon ≤ 0
  · unfold Duration.updateFeaturesFromQl at h
    simp [hpos] at h
  · rw [Duration.updateFeaturesFromQl_eq r nd d (not_le.1 hpos)] at h
    split at h
    · split at h
      · injection h with h; rw [← h]; exact Or.inl rfl
      · split at h
        · injection h with h; rw [← h]; exact Or.inr ⟨_, rfl, rfl⟩
        · exact Except.noConfusion h
    · injection h with h; rw [← h]; exact Or.inl rfl

/-- The `quarterLength` setter without an argument on any Duration. -/
theorem Duration.set_quarterLength_undefined (r : ℚ → Option Fraction)
    (nd : DurationArg → Except Abort Duration) (d : Duration) :
    Duration.set_quarterLength r nd d none = .ok (.mk 1 0 (some "quarter") d.tuplets) := by
  obtain ⟨hp, hd, hl⟩ := pow_candidate 0 (by norm_num)
  rw [zpow_zero] at hp hd hl
  show Duration.updateFeaturesFromQl r nd (.mk 1 d.dots d.type d.tuplets) = _
  rw [Duration.updateFeaturesFromQl_exact _ _ _ (by norm_num [logEpsilon])
    (Or.inl (by simpa using hl))]
  simp only [Duration.quarterLength_mk, Duration.tuplets_mk, hp, hd]
  rfl

/-! ## Reading back the quarter length -/

/-- C11: whenever `set quarterLength(ql)` returns, the stored quarter length is `ql`, also when
a Tuplet was inferred; it does return for every `ql > -0.00001` (the values whose logarithm is
a number) once the nested constructor has a nesting budget of three; and without an argument
the Duration ends with quarter length `1`, type `'quarter'` and no dots. -/
theorem set_quarterLength_reads_back (rationalize : ℚ → Option Fraction) (d : Duration) :
    (∀ (newDuration : DurationArg → Except Abort Duration) (ql : ℚ) (e : Duration),
      Duration.set_quarterLength rationalize newDuration d (some ql) = .ok e →
      e.quarterLength = ql) ∧
    (∀ (fuel : ℕ) (ql : ℚ), 0 < ql + logEpsilon →
      ∃ e : Duration,
        Duration.set_quarterLength rationalize (Duration.new rationalize (fuel + 3)) d
          (some ql) = .ok e ∧ e.quarterLength = ql) ∧
    (∀ newDuration : DurationArg → Except Abort Duration,
      ∃ e : Duration, Duration.set_quarterLength rationalize newDuration d none = .ok e ∧
        e.quarterLength = 1 ∧ e.type = some "quarter" ∧ e.dots = 0) := by
  refine ⟨?_, ?_, ?_⟩
  · intro nd ql e h
    rw [Duration.set_quarterLength_eq] at h
    simpa using Duration.updateFeaturesFromQl_quarterLength rationalize nd _ e h
  · intro fuel ql hpos
    obtain ⟨e, he, hq, -⟩ := Duration.updateFeaturesFromQl_frame rationalize fuel
      (.mk ql d.dots d.type d.tuplets) (by simpa using hpos)
    exact ⟨e, by rw [Duration.set_quarterLength_eq]; exact he, by simpa using hq⟩
  · intro nd
    exact ⟨_, Duration.set_quarterLength_undefined rationalize nd d, rfl, rfl, rfl⟩

/-- The test of the module: after `quarterLength = 1/3`, which infers a triplet, the quarter
length read back is `1/3`. -/
theorem set_quarterLength_reads_back_witness :
    (0 : ℚ) < 1 / 3 + logEpsilon ∧
    ∃ e : Duration,
      Duration.set_quarterLength (fun _ => some ⟨2, 3⟩) (Duration.new (fun _ => some ⟨2, 3⟩) 3)
        Duration.initial (some (1 / 3)) = .ok e ∧ e.quarterLength = 1 / 3 :=
  ⟨by norm_num [logEpsilon],
   (set_quarterLength_reads_back (fun _ => some ⟨2, 3⟩) Duration.initial).2.1 0 (1 / 3)
     (by norm_num [logEpsilon])⟩

/-! ## Construction from a name -/

/-- C12: for the table name `T` at index `i`, `new Duration(T)` has type `T`, no dots, no
tuplets and quarter length `2^(6-i)`; for a string that is not in the table the constructor
throws. -/
theorem construct_from_name (rationalize : ℚ → Option Fraction) (fuel : ℕ) :
    (∀ (i : ℕ) (T : String), ordinalTypeFromNum.get? i = some T →
      Duration.new rationalize (fuel + 1) (.name T) =
        .ok (.mk (2 ^ (6 - (i : ℤ))) 0 (some T) [])) ∧
    (∀ s : String, s ∉ ordinalTypeFromNum →
      Duration.new rationalize (fuel + 1) (.name s) = .error (.thrown ("invalid type " ++ s))) := by
  constructor
  · intro i T hT
    show Duration.construct rationalize _ (.name T) = _
    unfold Duration.construct
    simp only [Duration.set_type_of_get? Duration.initial i T hT]
    simp [Duration.initial, specQuarterLength, specNominalQuarterLength, specDottedMultiplier]
  · intro s hs
    have h := (inArray_eq_neg_one_iff s).2 hs
    show Duration.construct rationalize _ (.name s) = _
    unfold Duration.construct Duration.set_type
    simp only [if_pos h]

/-- Examples of C12: `new Duration('half')` is a half note of quarter length 2, and
`new Duration('zero')` throws. -/
theorem named_construction_examples :
    Duration.new (fun _ => none) 1 (.name "half") = .ok (.mk 2 0 (some "half") []) ∧
    Duration.new (fun _ => none) 1 (.name "zero") = .error (.thrown "invalid type zero") := by
  constructor
  · show Duration.construct _ _ (.name "half") = _
    unfold Duration.construct
    simp only [Duration.set_type_of_get? Duration.initial 5 "half" (by decide)]
    norm_num [Duration.initial, specQuarterLength, specNominalQuarterLength,
      specDottedMultiplier]
  · have h : inArray (some "zero") ordinalTypeFromNum = -1 := by decide
    show Duration.construct _ _ (.name "zero") = _
    unfold Duration.construct Duration.set_type
    simp only [if_pos h]
    rfl

/-! ## Frame of the symbolic setters -/

/-- C13: `set type` with a table name changes only the type and the quarter length, `set dots`
only the dots and the quarter length, and `updateQlFromFeatures` only the quarter length. -/
theorem symbolic_setters_frame (d : Duration) :
    (∀ T : String, T ∈ ordinalTypeFromNum →
      (d.set_type T).thrown = none ∧ (d.set_type T).state.type = some T ∧
      (d.set_type T).state.dots = d.dots ∧ (d.set_type T).state.tuplets = d.tuplets) ∧
    (∀ numDots : ℕ, (d.set_dots numDots).dots = numDots ∧ (d.set_dots numDots).type = d.type ∧
      (d.set_dots numDots).tuplets = d.tuplets) ∧
    (d.updateQlFromFeatures.type = d.type ∧ d.updateQlFromFeatures.dots = d.dots ∧
      d.updateQlFromFeatures.tuplets = d.tuplets) := by
  refine ⟨?_, ?_, ?_⟩
  · intro T hT
    have hne : inArray (some T) ordinalTypeFromNum ≠ -1 := fun h =>
      (inArray_eq_neg_one_iff T).1 h hT
    unfold Duration.set_type
    rw [if_neg hne]
    exact ⟨rfl, rfl, rfl, rfl⟩
  · intro numDots
    exact ⟨rfl, rfl, rfl⟩
  · exact ⟨rfl, rfl, rfl⟩

/-- The documented example: on a breve with one dot, `type = 'quarter'` keeps the dot and gives
quarter length `1.5`. -/
theorem dotted_breve_to_quarter_example :
    ((Duration.mk 12 1 (some "breve") []).set_type "quarter").state =
      .mk (3 / 2) 1 (some "quarter") [] := by
  rw [Duration.set_type_of_get? _ 6 "quarter" (by decide)]
  norm_num [specQuarterLength, specNominalQuarterLength, specDottedMultiplier]

/-! ## Dots -/

/-- C14: on a tuplet-free Duration whose type has nominal length `N = 2^(6-i)`, `dots = d`
gives quarter length `N * (1 + (2^d - 1)/2^d) = N * (2 - 2^-d)`, and `dots = d + 1` gives
exactly `N / 2^(d+1)` more. -/
theorem each_dot_adds_half (e : Duration) (i d : ℕ) (T : String)
    (hT : ordinalTypeFromNum.get? i = some T) (htype : e.type = some T)
    (htup : e.tuplets = []) :
    (e.set_dots d).quarterLength = 2 ^ (6 - (i : ℤ)) * (1 + (2 ^ d - 1) / 2 ^ d) ∧
    (e.set_dots d).quarterLength = 2 ^ (6 - (i : ℤ)) * (2 - 1 / 2 ^ d) ∧
    (e.set_dots (d + 1)).quarterLength - (e.set_dots d).quarterLength =
      2 ^ (6 - (i : ℤ)) / 2 ^ (d + 1) := by
  have hi := inArray_of_get? i T hT
  have key : ∀ k : ℕ, (e.set_dots k).quarterLength =
      2 ^ (6 - (i : ℤ)) * (1 + (2 ^ k - 1) / 2 ^ k) := by
    intro k
    rw [Duration.set_dots, Duration.updateQlFromFeatures_eq]
    simp [htype, hi, htup, specQuarterLength, specNominalQuarterLength, specDottedMultiplier]
  have h2 : ∀ k : ℕ, (1 : ℚ) + (2 ^ k - 1) / 2 ^ k = 2 - 1 / 2 ^ k := by
    intro k
    field_simp
    ring
  refine ⟨key d, by rw [key d, h2], ?_⟩
  rw [key, key, h2, h2, pow_succ]
  field_simp
  ring

/-- A quarter note: no dots `1`, one dot `1.5` (a half more), two dots `1.75` (a quarter
more). -/
theorem each_dot_adds_half_witness :
    (ordinalTypeFromNum.get? 6 = some "quarter" ∧ Duration.initial.type = some "quarter" ∧
      Duration.initial.tuplets = []) ∧
    (Duration.initial.set_dots 1).quarterLength = 3 / 2 ∧
    (Duration.initial.set_dots 2).quarterLength - (Duration.initial.set_dots 1).quarterLength =
      1 / 4 := by
  have h1 := each_dot_adds_half Duration.initial 6 1 "quarter" (by decide) rfl rfl
  refine ⟨⟨by decide, rfl, rfl⟩, ?_, ?_⟩
  · rw [h1.1]; norm_num
  · rw [h1.2.2]; norm_num

/-! ## The engraving code -/

/-- Appending `"d"` to a defined value `n` times appends `n` letters `d`. -/
theorem iterate_appendToValue_some (v : String) (n : ℕ) :
    (fun x => appendToValue x "d")^[n] (some v) = some (v ++ String.mk (List.replicate n 'd')) := by
  induction n generalizing v with
  | zero =>
    rw [show String.mk (List.replicate 0 'd') = "" from rfl, String.append_empty]
    rfl
  | succ k ih =>
    rw [Function.iterate_succ_apply]
    show (fun x => appendToValue x "d")^[k] (some (v ++ "d")) = _
    rw [ih]
    congr 1
    apply String.ext
    simp only [String.data_append]
    rw [List.append_assoc]
    congr 1

/-- The getter on a Duration whose type has a code in `vexflowDurationArray`. -/
theorem Duration.vexflowDuration_of_code (d : Duration) (i : ℕ) (T code : String)
    (hT : ordinalTypeFromNum.get? i = some T) (hcode : vexflowDurationArray.get? i = some (some code))
    (htype : d.type = some T) :
    d.vexflowDuration = some (code ++ String.mk (List.replicate d.dots 'd')) := by
  have hidx : (arrayGet vexflowDurationArray (i : ℤ)).join = some code := by
    have : arrayGet vexflowDurationArray (i : ℤ) = some (some code) := by
      simpa [arrayGet] using hcode
    rw [this]; rfl
  unfold Duration.vexflowDuration
  simp only [htype, inArray_of_get? i T hT, hidx]
  by_cases h : d.dots > 0
  · rw [if_pos h, iterate_appendToValue_some]
  · have h0 : d.dots = 0 := by omega
    rw [if_neg h, h0, show String.mk (List.replicate 0 'd') = "" from rfl, String.append_empty]

/-- The getter on a Duration without dots whose type has no code in `vexflowDurationArray`. -/
theorem Duration.vexflowDuration_of_no_code (d : Duration) (i : ℕ) (T : String)
    (hT : ordinalTypeFromNum.get? i = some T) (hcode : vexflowDurationArray.get? i = some none)
    (htype : d.type = some T) (hdots : d.dots = 0) :
    d.vexflowDuration = none := by
  have hidx : (arrayGet vexflowDurationArray (i : ℤ)).join = none := by
    have : arrayGet vexflowDurationArray (i : ℤ) = some none := by
      simpa [arrayGet] using hcode
    rw [this]; rfl
  unfold Duration.vexflowDuration
  simp only [htype, inArray_of_get? i T hT, hidx, hdots]
  rfl

/-- C15: for a Duration whose type is one of `whole`, `half`, `quarter`, `eighth`, `16th`,
`32nd`, `vexflowDuration` is the code `w`, `h`, `q`, `8`, `16`, `32` of that type followed by
as many letters `d` as the Duration has dots; and `vexflowDurationArray` has one entry for each
of the 15 entries of `ordinalTypeFromNum`. -/
theorem vexflowDuration_code_and_dots (d : Duration) (T code : String)
    (hT : (T, code) ∈ [("whole", "w"), ("half", "h"), ("quarter", "q"), ("eighth", "8"),
      ("16th", "16"), ("32nd", "32")])
    (htype : d.type = some T) :
    d.vexflowDuration = some (code ++ String.mk (List.replicate d.dots 'd')) ∧
    vexflowDurationArray.length = ordinalTypeFromNum.length ∧
    ordinalTypeFromNum.length = 15 := by
  refine ⟨?_, rfl, rfl⟩
  simp only [List.mem_cons, Prod.mk.injEq, List.mem_singleton, List.not_mem_nil, or_false] at hT
  rcases hT with ⟨rfl, rfl⟩ | ⟨rfl, rfl⟩ | ⟨rfl, rfl⟩ | ⟨rfl, rfl⟩ | ⟨rfl, rfl⟩ | ⟨rfl, rfl⟩
  · exact Duration.vexflowDuration_of_code d 4 _ _ (by decide) (by decide) htype
  · exact Duration.vexflowDuration_of_code d 5 _ _ (by decide) (by decide) htype
  · exact Duration.vexflowDuration_of_code d 6 _ _ (by decide) (by decide) htype
  · exact Duration.vexflowDuration_of_code d 7 _ _ (by decide) (by decide) htype
  · exact Duration.vexflowDuration_of_code d 8 _ _ (by decide) (by decide) htype
  · exact Duration.vexflowDuration_of_code d 9 _ _ (by decide) (by decide) htype

/-- The documented values: `Duration(2)` with two dots gives `'hdd'`, `Duration(1.0)` gives
`'q'`, `Duration(2)` gives `'h'`, and quarter length `6.0` (a dotted whole note) gives `'wd'`. -/
theorem vexflowDuration_code_and_dots_witness :
    ((("half", "h") : String × String) ∈ [("whole", "w"), ("half", "h"), ("quarter", "q"),
      ("eighth", "8"), ("16th", "16"), ("32nd", "32")] ∧
      (Duration.mk 7 2 (some "half") []).type = some "half") ∧
    (Duration.mk 7 2 (some "half") []).vexflowDuration = some "hdd" ∧
    (Duration.mk 1 0 (some "quarter") []).vexflowDuration = some "q" ∧
    (Duration.mk 2 0 (some "half") []).vexflowDuration = some "h" ∧
    (Duration.mk 6 1 (some "whole") []).vexflowDuration = some "wd" := by
  refine ⟨⟨by decide, rfl⟩, ?_, ?_, ?_, ?_⟩
  · rw [(vexflowDuration_code_and_dots (.mk 7 2 (some "half") []) "half" "h" (by decide) rfl).1]
    decide
  · rw [(vexflowDuration_code_and_dots (.mk 1 0 (some "quarter") []) "quarter" "q" (by decide)
      rfl).1]
    decide
  · rw [(vexflowDuration_code_and_dots (.mk 2 0 (some "half") []) "half" "h" (by decide) rfl).1]
    decide
  · rw [(vexflowDuration_code_and_dots (.mk 6 1 (some "whole") []) "whole" "w" (by decide) rfl).1]
    decide

/-- C16, amended: for a Duration without dots whose type is longer than `whole`
(`duplex-maxima`, `maxima`, `longa`, `breve`) or shorter than `32nd` (`64th` to `1024th`),
`vexflowDuration` is `undefined`. -/
theorem vexflowDuration_undefined (d : Duration) (T : String)
    (hT : T ∈ ["duplex-maxima", "maxima", "longa", "breve", "64th", "128th", "256th", "512th",
      "1024th"])
    (htype : d.type = some T) (hdots : d.dots = 0) :
    d.vexflowDuration = none := by
  simp only [List.mem_cons, List.mem_singleton, List.not_mem_nil, or_false] at hT
  rcases hT with rfl | rfl | rfl | rfl | rfl | rfl | rfl | rfl | rfl
  · exact Duration.vexflowDuration_of_no_code d 0 _ (by decide) (by decide) htype hdots
  · exact Duration.vexflowDuration_of_no_code d 1 _ (by decide) (by decide) htype hdots
  · exact Duration.vexflowDuration_of_no_code d 2 _ (by decide) (by decide) htype hdots
  · exact Duration.vexflowDuration_of_no_code d 3 _ (by decide) (by decide) htype hdots
  · exact Duration.vexflowDuration_of_no_code d 10 _ (by decide) (by decide) htype hdots
  · exact Duration.vexflowDuration_of_no_code d 11 _ (by decide) (by decide) htype hdots
  · exact Duration.vexflowDuration_of_no_code d 12 _ (by decide) (by decide) htype hdots
  · exact Duration.vexflowDuration_of_no_code d 13 _ (by decide) (by decide) htype hdots
  · exact Duration.vexflowDuration_of_no_code d 14 _ (by decide) (by decide) htype hdots

/-- A breve and a 64th note without dots have no engraving code. -/
theorem vexflowDuration_undefined_witness :
    ("breve" ∈ ["duplex-maxima", "maxima", "longa", "breve", "64th", "128th", "256th", "512th",
      "1024th"] ∧ (Duration.mk 8 0 (some "breve") []).type = some "breve" ∧
      (Duration.mk 8 0 (some "breve") []).dots = 0) ∧
    (Duration.mk 8 0 (some "breve") []).vexflowDuration = none ∧
    (Duration.mk (1 / 16) 0 (some "64th") []).vexflowDuration = none :=
  ⟨⟨by decide, rfl, rfl⟩,
   vexflowDuration_undefined _ "breve" (by decide) rfl rfl,
   vexflowDuration_undefined _ "64th" (by decide) rfl rfl⟩

/-- C16 fails as stated: `'32nd'` is shorter than `'16th'`, and a 32nd note has the engraving
code `'32'`, with dots `'32d'`. -/
theorem vexflowDuration_32nd_defined :
    ordinalTypeFromNum.indexOf "16th" < ordinalTypeFromNum.indexOf "32nd" ∧
    (Duration.mk (1 / 8) 0 (some "32nd") []).vexflowDuration = some "32" ∧
    (Duration.mk (3 / 16) 1 (some "32nd") []).vexflowDuration = some "32d" := by
  refine ⟨by decide, ?_, ?_⟩
  · rw [Duration.vexflowDuration_of_code (.mk (1 / 8) 0 (some "32nd") []) 9 "32nd" "32"
      (by decide) (by decide) rfl]
    decide
  · rw [Duration.vexflowDuration_of_code (.mk (3 / 16) 1 (some "32nd") []) 9 "32nd" "32"
      (by decide) (by decide) rfl]
    decide

/-- With dots, a type without a code does not give `undefined` either: the loop appends `"d"`
to `undefined`, which JavaScript prints as `undefined`. -/
theorem vexflowDuration_dotted_without_code :
    (Duration.mk 12 1 (some "breve") []).vexflowDuration = some "undefinedd" := by
  have hidx : inArray (some "breve") ordinalTypeFromNum = 3 := by decide
  have hget : (arrayGet vexflowDurationArray 3).join = none := by decide
  unfold Duration.vexflowDuration
  simp only [Duration.type_mk, Duration.dots_mk, hidx, hget]
  decide

/-! ## Construction of a Tuplet -/

/-- The Duration `new Duration(0.5)`: an eighth note. -/
theorem Duration.new_half (r : ℚ → Option Fraction) (n : ℕ) :
    Duration.new r (n + 1) (.number (1 / 2)) = .ok (.mk (1 / 2) 0 (some "eighth") []) := by
  have h := Duration.new_pow r n (-1) (by norm_num)
  have h2 : (2 : ℚ) ^ (-1 : ℤ) = 1 / 2 := by norm_num
  rw [h2] at h
  rw [h]
  rfl

/-- The numeric constructor returns for every `q > -0.00001` within a nesting budget of four,
and the Duration it returns stores `q`. -/
theorem Duration.new_of_log_defined (r : ℚ → Option Fraction) (n : ℕ) (q : ℚ)
    (hpos : 0 < q + logEpsilon) :
    ∃ e : Duration, Duration.new r (n + 4) (.number q) = .ok e ∧ e.quarterLength = q := by
  obtain ⟨e, he, hq, -⟩ := Duration.updateFeaturesFromQl_frame r n
    (.mk q 0 (some "quarter") []) (by simpa using hpos)
  exact ⟨e, by rw [Duration.new_number]; exact he, by simpa using hq⟩

/-- The constructor of a Tuplet when the constructor of its `durationActual` returns `da`. -/
theorem Tuplet.new_of_number (nd : DurationArg → Except Abort Duration) (a n : Option ℕ)
    (q : ℚ) (da : Duration) (hq : q ≠ 0) (hda : nd (.number q) = .ok da) :
    Tuplet.new nd a n (some (.number q)) none =
      .ok (Tuplet.mk (orDefault a 3) (orDefault n 2) da da false) := by
  unfold Tuplet.new
  simp only [if_neg hq, hda]
  rfl

/-- A Tuplet that the constructor returns is not frozen. -/
theorem Tuplet.new_frozen (nd : DurationArg → Except Abort Duration) (a n : Option ℕ)
    (da : Option TupletDurationArg) (dn : Option Duration) (t : Tuplet)
    (h : Tuplet.new nd a n da dn = .ok t) : t.frozen = false := by
  unfold Tuplet.new at h
  rcases da with _ | (d | q)
  · cases hnd : nd (.number (1 / 2)) with
    | error e => simp only [hnd] at h; exact Except.noConfusion h
    | ok x =>
      simp only [hnd] at h
      injection h with h
      rw [← h]; rfl
  · injection h with h
    rw [← h]; rfl
  · by_cases hq : q = 0
    · cases hnd : nd (.number (1 / 2)) with
      | error e => simp only [if_pos hq, hnd] at h; exact Except.noConfusion h
      | ok x =>
        simp only [if_pos hq, hnd] at h
        injection h with h
        rw [← h]; rfl
    · cases hnd : nd (.number q) with
      | error e => simp only [if_neg hq, hnd] at h; exact Except.noConfusion h
      | ok x =>
        simp only [if_neg hq, hnd] at h
        injection h with h
        rw [← h]; rfl

/-- C17, amended: for every numeric `q` other than `0` (and above `-0.00001`, so that its
logarithm is a number), `new Tuplet(a, n, q)` has as `durationActual` the Duration that
`new Duration(q)` returns, whose quarter length is `q`, the same Duration as `durationNormal`,
and `frozen = false`; with all arguments omitted the Tuplet is `3 : 2` over
`new Duration(0.5)`. -/
theorem tuplet_construction (rationalize : ℚ → Option Fraction) (fuel : ℕ) :
    (∀ (a n : Option ℕ) (q : ℚ), q ≠ 0 → 0 < q + logEpsilon →
      ∃ da : Duration,
        Duration.new rationalize (fuel + 4) (.number q) = .ok da ∧ da.quarterLength = q ∧
        Tuplet.new (Duration.new rationalize (fuel + 4)) a n (some (.number q)) none =
          .ok (Tuplet.mk (orDefault a 3) (orDefault n 2) da da false)) ∧
    Tuplet.new (Duration.new rationalize (fuel + 1)) none none none none =
      .ok (Tuplet.mk 3 2 (.mk (1 / 2) 0 (some "eighth") []) (.mk (1 / 2) 0 (some "eighth") [])
        false) := by
  constructor
  · intro a n q hq hpos
    obtain ⟨da, hda, hdq⟩ := Duration.new_of_log_defined rationalize fuel q hpos
    exact ⟨da, hda, hdq, Tuplet.new_of_number _ a n q da hq hda⟩
  · unfold Tuplet.new
    simp only [Duration.new_half]
    rfl

/-- A Tuplet over a quarter note: `new Tuplet(5, 4, 1.0)`. -/
theorem tuplet_construction_witness :
    ((1 : ℚ) ≠ 0 ∧ (0 : ℚ) < 1 + logEpsilon) ∧
    ∃ da : Duration,
      Duration.new (fun _ => none) 4 (.number 1) = .ok da ∧ da.quarterLength = 1 ∧
      Tuplet.new (Duration.new (fun _ => none) 4) (some 5) (some 4) (some (.number 1)) none =
        .ok (Tuplet.mk (orDefault (some 5) 3) (orDefault (some 4) 2) da da false) :=
  ⟨⟨by norm_num, by norm_num [logEpsilon]⟩,
   (tuplet_construction (fun _ => none) 0).1 (some 5) (some 4) 1 (by norm_num)
     (by norm_num [logEpsilon])⟩

/-- C17 fails as stated: the numeric quarter length `0` passed as `durationActual` is falsy, so
`new Tuplet(3, 2, 0)` gets the default `new Duration(0.5)`, whose quarter length is `0.5`. -/
theorem zero_duration_tuplet_gets_default :
    Tuplet.new (Duration.new (fun _ => none) 1) (some 3) (some 2) (some (.number 0)) none =
      .ok (Tuplet.mk 3 2 (.mk (1 / 2) 0 (some "eighth") []) (.mk (1 / 2) 0 (some "eighth") [])
        false) ∧
    (Tuplet.mk 3 2 (.mk (1 / 2) 0 (some "eighth") []) (.mk (1 / 2) 0 (some "eighth") [])
      false).durationActual.quarterLength = 1 / 2 ∧
    (1 / 2 : ℚ) ≠ 0 := by
  refine ⟨?_, rfl, by norm_num⟩
  unfold Tuplet.new
  simp only [if_pos, Duration.new_half]
  rfl

/-! ## The frozen flag -/

theorem Tuplet.setRatio_frozen (selfFrozen : Option Bool) (t : Tuplet) (actual normal : Option ℕ) :
    (Tuplet.setRatio selfFrozen t actual normal).state.frozen = t.frozen := by
  unfold Tuplet.setRatio
  split <;> rfl

theorem Tuplet.setDurationType_frozen (selfFrozen : Option Bool)
    (nd : DurationArg → Except Abort Duration) (t : Tuplet) (type : String)
    (c : Completion Tuplet) (h : Tuplet.setDurationType selfFrozen nd t type = .ok c) :
    c.state.frozen = t.frozen := by
  unfold Tuplet.setDurationType at h
  split at h
  · injection h with h; rw [← h]
  · split at h
    · injection h with h; rw [← h]
    · exact Except.noConfusion h
    · injection h with h; rw [← h]; rfl

/-- The Tuplet that `appendTuplet` stores is the one it received, frozen. -/
theorem Duration.appendTuplet_tuplets (d : Duration) (t : Tuplet) (skipUpdateQl : Bool) :
    (d.appendTuplet t skipUpdateQl).tuplets =
      d.tuplets ++ [Tuplet.mk t.numberNotesActual t.numberNotesNormal t.durationActual
        t.durationNormal true] := by
  unfold Duration.appendTuplet
  split <;> rfl

theorem Duration.set_type_tuplets (d : Duration) (typeIn : String) :
    (d.set_type typeIn).state.tuplets = d.tuplets := by
  unfold Duration.set_type
  by_cases h : inArray (some typeIn) ordinalTypeFromNum = -1
  · simp only [if_pos h]
  · simp only [if_neg h]
    rfl

/-- One change of a Tuplet object keeps a set frozen flag. -/
theorem Tuplet.Step.frozen_of_frozen (selfFrozen : Option Bool)
    (nd : DurationArg → Except Abort Duration) (t t' : Tuplet)
    (h : Tuplet.Step selfFrozen nd t t') (hf : t.frozen = true) : t'.frozen = true := by
  cases h with
  | setRatio _ actual normal => rw [Tuplet.setRatio_frozen]; exact hf
  | setDurationType _ ty c hc =>
    rw [Tuplet.setDurationType_frozen selfFrozen nd t ty c hc]; exact hf
  | appendTuplet d _ _ skip happ =>
    rw [Duration.appendTuplet_tuplets] at happ
    have := List.append_cancel_left happ
    injection this with h1
    rw [← h1]
    rfl

/-- C18: along every sequence of changes that the module makes to a Tuplet object (`setRatio`,
`setDurationType`, being passed to `appendTuplet`) a frozen flag that is true stays true; the
two mutators keep the flag as it is, `appendTuplet` stores the Tuplet frozen, the constructor
returns it unfrozen, and the Duration setters leave the Tuplets of the Duration as they are,
`set quarterLength` adding at most one, frozen, Tuplet after them. -/
theorem frozen_is_permanent (selfFrozen : Option Bool) (rationalize : ℚ → Option Fraction)
    (newDuration : DurationArg → Except Abort Duration) :
    (∀ t t' : Tuplet, Relation.ReflTransGen (Tuplet.Step selfFrozen newDuration) t t' →
      t.frozen = true → t'.frozen = true) ∧
    (∀ (t : Tuplet) (actual normal : Option ℕ),
      (Tuplet.setRatio selfFrozen t actual normal).state.frozen = t.frozen) ∧
    (∀ (t : Tuplet) (type : String) (c : Completion Tuplet),
      Tuplet.setDurationType selfFrozen newDuration t type = .ok c →
      c.state.frozen = t.frozen) ∧
    (∀ (d : Duration) (t : Tuplet) (skipUpdateQl : Bool),
      ∃ t' : Tuplet, (d.appendTuplet t skipUpdateQl).tuplets = d.tuplets ++ [t'] ∧
        t'.frozen = true) ∧
    (∀ (a n : Option ℕ) (da : Option TupletDurationArg) (dn : Option Duration) (t : Tuplet),
      Tuplet.new newDuration a n da dn = .ok t → t.frozen = false) ∧
    (∀ (d : Duration) (typeIn : String), (d.set_type typeIn).state.tuplets = d.tuplets) ∧
    (∀ (d : Duration) (numDots : ℕ), (d.set_dots numDots).tuplets = d.tuplets) ∧
    (∀ (d e : Duration) (ql : Option ℚ),
      Duration.set_quarterLength rationalize newDuration d ql = .ok e →
      e.tuplets = d.tuplets ∨ ∃ t : Tuplet, e.tuplets = d.tuplets ++ [t] ∧ t.frozen = true) := by
  refine ⟨?_, Tuplet.setRatio_frozen selfFrozen, Tuplet.setDurationType_frozen selfFrozen _,
    ?_, Tuplet.new_frozen _, Duration.set_type_tuplets, fun _ _ => rfl, ?_⟩
  · intro t t' h hf
    induction h with
    | refl => exact hf
    | tail _ hstep ih => exact Tuplet.Step.frozen_of_frozen selfFrozen newDuration _ _ hstep ih
  · intro d t skip
    exact ⟨_, Duration.appendTuplet_tuplets d t skip, rfl⟩
  · intro d e ql h
    have := Duration.updateFeaturesFromQl_tuplets rationalize newDuration _ e h
    simpa using this

/-- The Tuplet of the module's test, after `appendTuplet` and then `setRatio(7, 4)` in an
environment whose global object has no `frozen`: still frozen. -/
theorem appended_tuplet_stays_frozen :
    ∃ t1 t2 : Tuplet,
      ((Duration.mk (1/2) 0 (some "eighth") []).appendTuplet
        (Tuplet.mk 5 4 (.mk (1/2) 0 (some "eighth") []) (.mk (1/2) 0 (some "eighth") []) false)
        false).tuplets = [t1] ∧
      t2 = (Tuplet.setRatio none t1 (some 7) (some 4)).state ∧
      t1.frozen = true ∧ t2.frozen = true :=
  ⟨_, _, Duration.appendTuplet_tuplets _ _ _, rfl, rfl, rfl⟩

/-! ## The tuplets list only grows -/

/-- C19: after each operation the tuplets list is the list before it followed by the appended
Tuplets: none for `set type` and `set dots`, exactly one for `appendTuplet`, and at most one for
`set quarterLength`, whenever it returns; and it returns for every `ql > -0.00001` and for an
omitted argument. -/
theorem tuplets_append_only (rationalize : ℚ → Option Fraction) (d : Duration) (fuel : ℕ) :
    (∀ typeIn : String, (d.set_type typeIn).state.tuplets = d.tuplets) ∧
    (∀ numDots : ℕ, (d.set_dots numDots).tuplets = d.tuplets) ∧
    (∀ (t : Tuplet) (skipUpdateQl : Bool),
      ∃ t' : Tuplet, (d.appendTuplet t skipUpdateQl).tuplets = d.tuplets ++ [t'] ∧
        (d.appendTuplet t skipUpdateQl).tuplets.length = d.tuplets.length + 1) ∧
    (∀ ql : ℚ, 0 < ql + logEpsilon →
      ∃ (e : Duration) (appended : List Tuplet),
        Duration.set_quarterLength rationalize (Duration.new rationalize (fuel + 3)) d
          (some ql) = .ok e ∧
        e.tuplets = d.tuplets ++ appended ∧ appended.length ≤ 1 ∧
        e.tuplets.length ≤ d.tuplets.length + 1) ∧
    (∃ e : Duration,
      Duration.set_quarterLength rationalize (Duration.new rationalize (fuel + 3)) d none =
        .ok e ∧ e.tuplets = d.tuplets) ∧
    (∀ (newDuration : DurationArg → Except Abort Duration) (ql : Option ℚ) (e : Duration),
      Duration.set_quarterLength rationalize newDuration d ql = .ok e →
      ∃ appended : List Tuplet, e.tuplets = d.tuplets ++ appended ∧ appended.length ≤ 1) := by
  refine ⟨Duration.set_type_tuplets d, fun _ => rfl, ?_, ?_, ?_, ?_⟩
  · intro t skip
    refine ⟨_, Duration.appendTuplet_tuplets d t skip, ?_⟩
    rw [Duration.appendTuplet_tuplets]
    simp
  · intro ql hpos
    obtain ⟨e, he, -, htup⟩ := Duration.updateFeaturesFromQl_frame rationalize fuel
      (.mk ql d.dots d.type d.tuplets) (by simpa using hpos)
    rcases htup with h | ⟨t, h, -⟩
    · exact ⟨e, [], he, by simpa using h, by simp, by simp [h]⟩
    · exact ⟨e, [t], he, by simpa using h, by simp, by simp [h]⟩
  · exact ⟨_, Duration.set_quarterLength_undefined _ _ d, rfl⟩
  · intro nd ql e h
    have := Duration.updateFeaturesFromQl_tuplets rationalize nd _ e h
    rcases this with h | ⟨t, h, -⟩
    · exact ⟨[], by simpa using h, by simp⟩
    · exact ⟨[t], by simpa using h, by simp⟩

/-- A quarter note with one triplet: `quarterLength = 1/3` with `rationalize(2/3) = 2/3` keeps
the triplet and appends one more Tuplet. -/
theorem second_triplet_is_appended :
    ∃ e : Duration,
      Duration.set_quarterLength (fun _ => some ⟨2, 3⟩) (Duration.new (fun _ => some ⟨2, 3⟩) 3)
        (.mk (2 / 3) 0 (some "quarter")
          [Tuplet.mk 3 2 (.mk (1/2) 0 (some "eighth") []) (.mk (1/2) 0 (some "eighth") []) true])
        (some (1 / 3)) = .ok e ∧
      e.tuplets =
        [Tuplet.mk 3 2 (.mk (1/2) 0 (some "eighth") []) (.mk (1/2) 0 (some "eighth") []) true,
         Tuplet.mk 3 2 (.mk (1/2) 0 (some "eighth") []) (.mk (1/2) 0 (some "eighth") []) true] := by
  obtain ⟨hp, hd, hl⟩ := candidate_one_third
  have hhalf : Duration.new (fun _ => some (Fraction.mk 2 3)) 3
      (.number (candidateLength (1 / 3) * 2)) = .ok (.mk (1 / 2) 0 (some "eighth") []) := by
    rw [hl]
    norm_num
    exact Duration.new_half _ 2
  rw [Duration.set_quarterLength_eq,
    Duration.updateFeaturesFromQl_tuplet _ _ _ (.mk (1 / 2) 0 (some "eighth") []) ⟨2, 3⟩
      (by norm_num [logEpsilon]) (by simp only [Duration.quarterLength_mk, hl]; norm_num)
      (by norm_num) rfl (by simpa using hhalf)]
  exact ⟨_, rfl, rfl⟩

/-! ## Cloning -/

/-- The loop of the callback, from any state of the allocation counter and of `newTuplets`. -/
theorem cloneCallbacks_foldl (l : List TupletObject) (n : ℕ) (acc : List TupletObject) :
    (l.foldl
      (fun (acc : ℕ × List TupletObject) (tuplet : TupletObject) =>
        let newTuplet := TupletObject.clone acc.1 tuplet
        (newTuplet.1, acc.2 ++ [newTuplet.2]))
      (n, acc)).2.map TupletObject.fields = acc.map TupletObject.fields ++ l.map TupletObject.fields ∧
    ∀ x ∈ (l.foldl
      (fun (acc : ℕ × List TupletObject) (tuplet : TupletObject) =>
        let newTuplet := TupletObject.clone acc.1 tuplet
        (newTuplet.1, acc.2 ++ [newTuplet.2]))
      (n, acc)).2, x ∈ acc ∨ n ≤ x.identity := by
  induction l generalizing n acc with
  | nil => exact ⟨by simp, fun x hx => Or.inl hx⟩
  | cons t l ih =>
    simp only [List.foldl_cons]
    obtain ⟨h1, h2⟩ := ih (TupletObject.clone n t).1 (acc ++ [(TupletObject.clone n t).2])
    refine ⟨?_, ?_⟩
    · rw [h1]
      simp [TupletObject.clone]
    · intro x hx
      rcases h2 x hx with h | h
      · rcases List.mem_append.1 h with h | h
        · exact Or.inl h
        · right
          simp only [List.mem_singleton] at h
          rw [h]
          exact le_refl n
      · right
        have : n ≤ (TupletObject.clone n t).1 := Nat.le_succ n
        omega

/-- C20: cloning a Duration, all of whose Tuplets are frozen and were allocated before the
clone, gives a Duration with the same type, dots and quarter length and a tuplets list of the
same length whose `i`-th Tuplet has the field values of the original's `i`-th Tuplet (so the
same note counts and durations, and frozen), and none of whose Tuplets is one of the
original's Tuplet objects. -/
theorem clone_is_deep (d : DurationObject) (nextIdentity : ℕ)
    (halloc : ∀ t ∈ d.tuplets, t.identity < nextIdentity)
    (hfrozen : ∀ t ∈ d.tuplets, t.fields.frozen = true) :
    (d.clone nextIdentity).2.type = d.type ∧
    (d.clone nextIdentity).2.dots = d.dots ∧
    (d.clone nextIdentity).2.quarterLength = d.quarterLength ∧
    (d.clone nextIdentity).2.tuplets.length = d.tuplets.length ∧
    (∀ i : ℕ, ((d.clone nextIdentity).2.tuplets.get? i).map TupletObject.fields =
      (d.tuplets.get? i).map TupletObject.fields) ∧
    (∀ c ∈ (d.clone nextIdentity).2.tuplets, c.fields.frozen = true) ∧
    (∀ c ∈ (d.clone nextIdentity).2.tuplets, ∀ t ∈ d.tuplets, c.identity ≠ t.identity) := by
  obtain ⟨hmap, hid⟩ := cloneCallbacks_foldl d.tuplets nextIdentity []
  have hmap' : (d.clone nextIdentity).2.tuplets.map TupletObject.fields =
      d.tuplets.map TupletObject.fields := by simpa using hmap
  refine ⟨rfl, rfl, rfl, ?_, ?_, ?_, ?_⟩
  · have := congrArg List.length hmap'
    simpa using this
  · intro i
    have := congrArg (fun l => l.get? i) hmap'
    simpa using this
  · intro c hc
    have hmem : c.fields ∈ d.tuplets.map TupletObject.fields := by
      rw [← hmap']; exact List.mem_map_of_mem _ hc
    obtain ⟨t, ht, hft⟩ := List.mem_map.1 hmem
    rw [← hft]
    exact hfrozen t ht
  · intro c hc t ht
    rcases hid c hc with h | h
    · exact absurd h (List.not_mem_nil c)
    · have := halloc t ht
      omega

/-- A Duration with two frozen Tuplet objects `0` and `1`, cloned when the allocation counter
is `2`: the clone's Tuplets are the objects `2` and `3`. -/
theorem clone_is_deep_witness :
    ((∀ t ∈ ([⟨0, .mk 3 2 (.mk (1/2) 0 (some "eighth") []) (.mk (1/2) 0 (some "eighth") []) true⟩,
        ⟨1, .mk 5 4 (.mk (1/2) 0 (some "eighth") []) (.mk (1/2) 0 (some "eighth") []) true⟩] :
        List TupletObject), t.identity < 2) ∧
      (∀ t ∈ ([⟨0, .mk 3 2 (.mk (1/2) 0 (some "eighth") []) (.mk (1/2) 0 (some "eighth") []) true⟩,
        ⟨1, .mk 5 4 (.mk (1/2) 0 (some "eighth") []) (.mk (1/2) 0 (some "eighth") []) true⟩] :
        List TupletObject), t.fields.frozen = true)) ∧
    ((DurationObject.mk (4 / 15) 0 (some "eighth")
      [⟨0, .mk 3 2 (.mk (1/2) 0 (some "eighth") []) (.mk (1/2) 0 (some "eighth") []) true⟩,
       ⟨1, .mk 5 4 (.mk (1/2) 0 (some "eighth") []) (.mk (1/2) 0 (some "eighth") []) true⟩]).clone
      2).2.tuplets.map TupletObject.identity = [2, 3] ∧
    (∀ c ∈ ((DurationObject.mk (4 / 15) 0 (some "eighth")
      [⟨0, .mk 3 2 (.mk (1/2) 0 (some "eighth") []) (.mk (1/2) 0 (some "eighth") []) true⟩,
       ⟨1, .mk 5 4 (.mk (1/2) 0 (some "eighth") []) (.mk (1/2) 0 (some "eighth") []) true⟩]).clone
      2).2.tuplets, c.fields.frozen = true) := by
  have h1 : ∀ t ∈ ([⟨0, .mk 3 2 (.mk (1/2) 0 (some "eighth") []) (.mk (1/2) 0 (some "eighth") []) true⟩,
      ⟨1, .mk 5 4 (.mk (1/2) 0 (some "eighth") []) (.mk (1/2) 0 (some "eighth") []) true⟩] :
      List TupletObject), t.identity < 2 := by
    intro t ht
    simp only [List.mem_cons, List.mem_singleton, List.not_mem_nil, or_false] at ht
    rcases ht with rfl | rfl <;> decide
  have h2 : ∀ t ∈ ([⟨0, .mk 3 2 (.mk (1/2) 0 (some "eighth") []) (.mk (1/2) 0 (some "eighth") []) true⟩,
      ⟨1, .mk 5 4 (.mk (1/2) 0 (some "eighth") []) (.mk (1/2) 0 (some "eighth") []) true⟩] :
      List TupletObject), t.fields.frozen = true := by
    intro t ht
    simp only [List.mem_cons, List.mem_singleton, List.not_mem_nil, or_false] at ht
    rcases ht with rfl | rfl <;> rfl
  exact ⟨⟨h1, h2⟩, rfl,
    (clone_is_deep (DurationObject.mk (4 / 15) 0 (some "eighth") _) 2 h1 h2).2.2.2.2.2.1⟩

/-! ## The name of a Tuplet -/

/-- C21: `fullName` is `'Triplet'` for 3:2, `'Quintuplet'` for 5:4 and 5:2, `'Sextuplet'` for
6:4, and for every other ratio `a:n` the string `'Tuplet of ' + a + '/' + n` followed by the
plural ordinal abbreviation of `n`. -/
theorem fullName_cases (ordinalAbbreviation : ℕ → Bool → String) (t : Tuplet) :
    (t.numberNotesActual = 3 ∧ t.numberNotesNormal = 2 →
      t.fullName ordinalAbbreviation = "Triplet") ∧
    (t.numberNotesActual = 5 ∧ (t.numberNotesNormal = 4 ∨ t.numberNotesNormal = 2) →
      t.fullName ordinalAbbreviation = "Quintuplet") ∧
    (t.numberNotesActual = 6 ∧ t.numberNotesNormal = 4 →
      t.fullName ordinalAbbreviation = "Sextuplet") ∧
    (¬ (t.numberNotesActual = 3 ∧ t.numberNotesNormal = 2) →
      ¬ (t.numberNotesActual = 5 ∧ (t.numberNotesNormal = 4 ∨ t.numberNotesNormal = 2)) →
      ¬ (t.numberNotesActual = 6 ∧ t.numberNotesNormal = 4) →
      t.fullName ordinalAbbreviation =
        "Tuplet of " ++ toString t.numberNotesActual ++ "/" ++ toString t.numberNotesNormal ++
          ordinalAbbreviation t.numberNotesNormal true) := by
  refine ⟨?_, ?_, ?_, ?_⟩
  · intro h
    unfold Tuplet.fullName
    simp only [if_pos h]
  · intro h
    have h3 : ¬ (t.numberNotesActual = 3 ∧ t.numberNotesNormal = 2) := by omega
    unfold Tuplet.fullName
    simp only [if_neg h3, if_pos h]
  · intro h
    have h3 : ¬ (t.numberNotesActual = 3 ∧ t.numberNotesNormal = 2) := by omega
    have h5 : ¬ (t.numberNotesActual = 5 ∧ (t.numberNotesNormal = 4 ∨ t.numberNotesNormal = 2)) := by
      omega
    unfold Tuplet.fullName
    simp only [if_neg h3, if_neg h5, if_pos h]
  · intro h3 h5 h6
    unfold Tuplet.fullName
    simp only [if_neg h3, if_neg h5, if_neg h6]

/-- Names of a triplet, of both quintuplets, of a sextuplet and of a 7:4 tuplet, with `'ths'`
as the plural ordinal abbreviation of 4. -/
theorem fullName_examples :
    (Tuplet.mk 3 2 (.mk (1/2) 0 (some "eighth") []) (.mk (1/2) 0 (some "eighth") [])
      false).fullName (fun _ _ => "ths") = "Triplet" ∧
    (Tuplet.mk 5 4 (.mk (1/2) 0 (some "eighth") []) (.mk (1/2) 0 (some "eighth") [])
      false).fullName (fun _ _ => "ths") = "Quintuplet" ∧
    (Tuplet.mk 5 2 (.mk (1/2) 0 (some "eighth") []) (.mk (1/2) 0 (some "eighth") [])
      false).fullName (fun _ _ => "ths") = "Quintuplet" ∧
    (Tuplet.mk 6 4 (.mk (1/2) 0 (some "eighth") []) (.mk (1/2) 0 (some "eighth") [])
      false).fullName (fun _ _ => "ths") = "Sextuplet" ∧
    (Tuplet.mk 7 4 (.mk (1/2) 0 (some "eighth") []) (.mk (1/2) 0 (some "eighth") [])
      false).fullName (fun _ _ => "ths") = "Tuplet of 7/4ths" := by
  refine ⟨?_, ?_, ?_, ?_, ?_⟩ <;> decide

/-! ## Dot finding -/

/-- C22: for a Duration whose type is the table name at index `i` (nominal length
`N = 2^(6-i)`) and `ql ≠ 0`, `_findDots(ql)` is the least `k` in `0 .. 4` with
`|N * (1 + (2^k - 1)/2^k) - ql| < 0.0001` when there is one and `0` when there is none;
`_findDots(0) = 0`; and the result is never above `4`. -/
theorem findDots_least (d : Duration) (i : ℕ) (T : String) (ql : ℚ)
    (hT : ordinalTypeFromNum.get? i = some T) (htype : d.type = some T) :
    (ql ≠ 0 → ∀ k : ℕ, k ≤ 4 →
      |2 ^ (6 - (i : ℤ)) * (1 + (2 ^ k - 1) / 2 ^ k) - ql| < 1 / 10000 →
      (∀ j : ℕ, j < k → ¬ |2 ^ (6 - (i : ℤ)) * (1 + (2 ^ j - 1) / 2 ^ j) - ql| < 1 / 10000) →
      d._findDots ql = k) ∧
    (ql ≠ 0 →
      (∀ k : ℕ, k ≤ 4 → ¬ |2 ^ (6 - (i : ℤ)) * (1 + (2 ^ k - 1) / 2 ^ k) - ql| < 1 / 10000) →
      d._findDots ql = 0) ∧
    d._findDots 0 = 0 ∧
    d._findDots ql ≤ 4 := by
  have hpow : (2 : ℚ) ^ (quarterTypeIndex - inArray d.type ordinalTypeFromNum) =
      2 ^ (6 - (i : ℤ)) := by
    rw [htype, inArray_of_get? i T hT]; rfl
  refine ⟨?_, ?_, ?_, (Duration._findDots_spec d ql).1⟩
  · intro hql k hk hfit hleast
    apply Duration._findDots_of_least d ql hql k hk
    · rw [hpow]; exact hfit
    · intro j hj
      rw [hpow]; exact hleast j hj
  · intro hql hnone
    rcases (Duration._findDots_spec d ql) with ⟨hle, h0 | hfit⟩
    · exact h0
    · rw [hpow] at hfit
      exact absurd hfit (hnone _ hle)
  · simp [Duration._findDots]

/-- On a whole note: `6.0` has one dot, `7.75` four, `5.0` none, `0` none. -/
theorem findDots_least_witness :
    (ordinalTypeFromNum.get? 4 = some "whole" ∧
      (Duration.mk 4 0 (some "whole") []).type = some "whole") ∧
    (Duration.mk 4 0 (some "whole") [])._findDots 6 = 1 ∧
    (Duration.mk 4 0 (some "whole") [])._findDots (31 / 4) = 4 ∧
    (Duration.mk 4 0 (some "whole") [])._findDots 5 = 0 ∧
    (Duration.mk 4 0 (some "whole") [])._findDots 0 = 0 := by
  have h6 := findDots_least (.mk 4 0 (some "whole") []) 4 "whole" 6 (by decide) rfl
  have h7 := findDots_least (.mk 4 0 (some "whole") []) 4 "whole" (31 / 4) (by decide) rfl
  have h5 := findDots_least (.mk 4 0 (some "whole") []) 4 "whole" 5 (by decide) rfl
  refine ⟨⟨by decide, rfl⟩, ?_, ?_, ?_, h6.2.2.1⟩
  · apply h6.1 (by norm_num) 1 (by norm_num)
    · norm_num [abs_lt]
    · intro j hj
      interval_cases j
      norm_num [abs_lt]
  · apply h7.1 (by norm_num) 4 (by norm_num)
    · norm_num [abs_lt]
    · intro j hj
      interval_cases j <;> norm_num [abs_lt]
  · apply h5.2.1 (by norm_num)
    intro k hk
    interval_cases k <;> norm_num [abs_lt]

/-! ## A ratio that cannot be rationalized -/

/-- C23: when `rationalize` returns `undefined` for the tuplet ratio `ql / (2u)` (so `ql ≠ 0`
and `u ≠ ql`), `set quarterLength(ql)` returns without throwing, for any nested constructor,
the tuplets list is what it was, and the stored quarter length is `ql`. -/
theorem unrationalized_is_soft (rationalize : ℚ → Option Fraction)
    (newDuration : DurationArg → Except Abort Duration) (d : Duration) (ql : ℚ)
    (hpos : 0 < ql + logEpsilon) (h0 : ql ≠ 0) (hne : candidateLength ql ≠ ql)
    (hr : rationalize (ql / (candidateLength ql * 2)) = none) :
    ∃ e : Duration,
      Duration.set_quarterLength rationalize newDuration d (some ql) = .ok e ∧
      e.tuplets = d.tuplets ∧ e.quarterLength = ql := by
  rw [Duration.set_quarterLength_eq,
    Duration.updateFeaturesFromQl_unrationalized rationalize newDuration _
      (by simpa using hpos) (by simpa using hne) (by simpa using h0) (by simpa using hr)]
  exact ⟨_, rfl, rfl, rfl⟩

/-- Quarter length `1/3` with a `rationalize` that gives up: no Tuplet, quarter length `1/3`. -/
theorem unrationalized_is_soft_witness :
    ((0 : ℚ) < 1 / 3 + logEpsilon ∧ (1 / 3 : ℚ) ≠ 0 ∧ candidateLength (1 / 3) ≠ 1 / 3 ∧
      (fun _ : ℚ => (none : Option Fraction)) ((1 / 3) / (candidateLength (1 / 3) * 2)) = none) ∧
    ∃ e : Duration,
      Duration.set_quarterLength (fun _ => none) (fun _ => .error .outOfFuel) Duration.initial
        (some (1 / 3)) = .ok e ∧
      e.tuplets = Duration.initial.tuplets ∧ e.quarterLength = 1 / 3 := by
  have hne : candidateLength (1 / 3) ≠ 1 / 3 := by rw [candidate_one_third.2.2]; norm_num
  exact ⟨⟨by norm_num [logEpsilon], by norm_num, hne, rfl⟩,
    unrationalized_is_soft (fun _ => none) (fun _ => .error .outOfFuel) Duration.initial (1 / 3)
      (by norm_num [logEpsilon]) (by norm_num) hne rfl⟩

/-! ## The shape of what the numeric path returns -/

/-- For `ql > 0` and a nested constructor with a nesting budget of two, the numeric path
returns one of three results: the candidate type when the candidate length is `ql`; otherwise
the next-longer type, with the tuplets it found when `rationalize` gives nothing, and with one
more Tuplet built on `new Duration(2u)` when `rationalize` gives a fraction. -/
theorem Duration.updateFeaturesFromQl_shape (r : ℚ → Option Fraction) (n : ℕ) (d : Duration)
    (hql : 0 < d.quarterLength) :
    ∃ e : Duration, d.updateFeaturesFromQl r (Duration.new r (n + 2)) = .ok e ∧
      e.quarterLength = d.quarterLength ∧ e.dots = candidateDots d.quarterLength ∧
      ((candidateLength d.quarterLength = d.quarterLength ∧
          e.type = arrayGet ordinalTypeFromNum
            (quarterTypeIndex - candidatePower d.quarterLength) ∧
          e.tuplets = d.tuplets) ∨
        (candidateLength d.quarterLength ≠ d.quarterLength ∧
          e.type = arrayGet ordinalTypeFromNum
            (quarterTypeIndex - candidatePower d.quarterLength - 1) ∧
          ((r (d.quarterLength / (candidateLength d.quarterLength * 2)) = none ∧
              e.tuplets = d.tuplets) ∨
            ∃ (f : Fraction) (da : Duration),
              r (d.quarterLength / (candidateLength d.quarterLength * 2)) = some f ∧
              Duration.new r (n + 2) (.number (candidateLength d.quarterLength * 2)) = .ok da ∧
              da.quarterLength = candidateLength d.quarterLength * 2 ∧
              e.tuplets = d.tuplets ++ [Tuplet.mk (orDefault (some f.denominator) 3)
                (orDefault (some f.numerator) 2) da da true]))) := by
  have hpos : 0 < d.quarterLength + logEpsilon := by unfold logEpsilon; linarith
  obtain ⟨da, hda, hdaq⟩ := Duration.new_nested r n d.quarterLength hql
  by_cases hex : candidateLength d.quarterLength = d.quarterLength
  · rw [Duration.updateFeaturesFromQl_exact r _ d hpos (Or.inl hex)]
    exact ⟨_, rfl, rfl, rfl, Or.inl ⟨hex, rfl, rfl⟩⟩
  · cases hr : r (d.quarterLength / (candidateLength d.quarterLength * 2)) with
    | none =>
      rw [Duration.updateFeaturesFromQl_unrationalized r _ d hpos hex hql.ne' hr]
      exact ⟨_, rfl, rfl, rfl, Or.inr ⟨hex, rfl, Or.inl ⟨rfl, rfl⟩⟩⟩
    | some f =>
      rw [Duration.updateFeaturesFromQl_tuplet r _ d da f hpos hex hql.ne' hr hda]
      exact ⟨_, rfl, rfl, rfl, Or.inr ⟨hex, rfl, Or.inr ⟨f, da, rfl, hda, hdaq, rfl⟩⟩⟩

/-- Every index from `0` to `14` holds a name of the table. -/
theorem arrayGet_table (j : ℤ) (h0 : 0 ≤ j) (h1 : j ≤ 14) :
    ∃ T : String, arrayGet ordinalTypeFromNum j = some T ∧ T ∈ ordinalTypeFromNum := by
  interval_cases j <;> exact ⟨_, rfl, by decide⟩

/-! ## The type after the shift -/

/-- C25, amended: for `ql > 0` whose candidate index `6 - p` lies in `1 .. 14`, and for
candidate index `0` when the candidate length is `ql` itself (no tuplet is inferred), the type
left by `set quarterLength(ql)` is one of the 15 table names. -/
theorem type_in_table_after_shift (rationalize : ℚ → Option Fraction) (d : Duration) (ql : ℚ)
    (fuel : ℕ) (hql : 0 < ql) (hp0 : -8 ≤ candidatePower ql) (hp1 : candidatePower ql ≤ 6)
    (hedge : candidatePower ql ≤ 5 ∨ candidateLength ql = ql) :
    ∃ (e : Duration) (T : String),
      Duration.set_quarterLength rationalize (Duration.new rationalize (fuel + 2)) d (some ql) =
        .ok e ∧ e.type = some T ∧ T ∈ ordinalTypeFromNum := by
  obtain ⟨e, he, -, -, hshape⟩ := Duration.updateFeaturesFromQl_shape rationalize fuel
    (.mk ql d.dots d.type d.tuplets) (by simpa using hql)
  simp only [Duration.quarterLength_mk] at hshape
  rcases hshape with ⟨-, hty, -⟩ | ⟨hne, hty, -⟩
  · obtain ⟨T, hT, hmem⟩ := arrayGet_table (quarterTypeIndex - candidatePower ql)
      (by unfold quarterTypeIndex; omega) (by unfold quarterTypeIndex; omega)
    exact ⟨e, T, he, by rw [hty, hT], hmem⟩
  · have h5 : candidatePower ql ≤ 5 := by
      rcases hedge with h | h
      · exact h
      · exact absurd h hne
    obtain ⟨T, hT, hmem⟩ := arrayGet_table (quarterTypeIndex - candidatePower ql - 1)
      (by unfold quarterTypeIndex; omega) (by unfold quarterTypeIndex; omega)
    exact ⟨e, T, he, by rw [hty, hT], hmem⟩

/-- Quarter length `1/3` (candidate index 8, `'16th'`) ends as an `'eighth'`. -/
theorem type_in_table_after_shift_witness :
    ((0 : ℚ) < 1 / 3 ∧ -8 ≤ candidatePower (1 / 3) ∧ candidatePower (1 / 3) ≤ 6 ∧
      (candidatePower (1 / 3) ≤ 5 ∨ candidateLength (1 / 3) = 1 / 3)) ∧
    ∃ (e : Duration) (T : String),
      Duration.set_quarterLength (fun _ => some ⟨2, 3⟩) (Duration.new (fun _ => some ⟨2, 3⟩) 2)
        Duration.initial (some (1 / 3)) = .ok e ∧ e.type = some T ∧ T ∈ ordinalTypeFromNum := by
  have hp := candidate_one_third.1
  exact ⟨⟨by norm_num, by rw [hp]; norm_num, by rw [hp]; norm_num, Or.inl (by rw [hp]; norm_num)⟩,
    type_in_table_after_shift (fun _ => some ⟨2, 3⟩) Duration.initial (1 / 3) 0 (by norm_num)
      (by rw [hp]; norm_num) (by rw [hp]; norm_num) (Or.inl (by rw [hp]; norm_num))⟩

/-- The candidate of `100`: power `6` (index `0`, `'duplex-maxima'`), no dots, length `64`. -/
theorem candidate_100 :
    candidatePower 100 = 6 ∧ candidateDots 100 = 0 ∧ candidateLength 100 = 64 := by
  have hp : candidatePower 100 = 6 := by
    apply log_two_eq <;> norm_num [logEpsilon]
  have hd : candidateDots 100 = 0 := by
    apply candidateDots_eq_zero_of_no_fit
    intro j hj
    rw [hp, findDots_power 6 (by norm_num) (by norm_num)]
    unfold dotsFit dotTolerance
    interval_cases j <;> norm_num [specDottedMultiplier, abs_lt]
  refine ⟨hp, hd, ?_⟩
  unfold candidateLength
  rw [hp, hd]
  norm_num [specDottedMultiplier]

/-- C25 fails as stated: `ql = 100` has candidate index `0`, inside the table, and is no dotted
duplex-maxima; the shift reads `ordinalTypeFromNum[-1]`, and the type is left `undefined`. -/
theorem type_undefined_after_shift_at_index_zero :
    quarterTypeIndex - candidatePower 100 = 0 ∧
    arrayGet ordinalTypeFromNum (quarterTypeIndex - candidatePower 100) = some "duplex-maxima" ∧
    Duration.set_quarterLength (fun _ => none) (fun _ => .error .outOfFuel) Duration.initial
      (some 100) = .ok (.mk 100 0 none []) ∧
    (Duration.mk 100 0 none []).type = none := by
  obtain ⟨hp, hd, hl⟩ := candidate_100
  refine ⟨by rw [hp]; rfl, by rw [hp]; rfl, ?_, rfl⟩
  rw [Duration.set_quarterLength_eq,
    Duration.updateFeaturesFromQl_unrationalized _ _ _ (by norm_num [logEpsilon])
      (by simp only [Duration.quarterLength_mk, hl]; norm_num) (by norm_num) rfl]
  simp only [Duration.quarterLength_mk, Duration.tuplets_mk, hp, hd]
  rfl

/-! ## The tolerance of `_findDots` and the exact comparison -/

/-- C26, amended: for `ql > 0`, when the dotted length of the candidate type with the dots that
`_findDots` finds is exactly `ql`, the numeric path keeps the candidate type, stores those dots
and appends no Tuplet; when it is not exactly `ql`, also if it is within the tolerance, the
type becomes the next-longer one. -/
theorem dotted_only_when_exact (rationalize : ℚ → Option Fraction) (d : Duration) (ql : ℚ)
    (fuel : ℕ) (hql : 0 < ql) :
    (candidateLength ql = ql →
      ∀ newDuration : DurationArg → Except Abort Duration,
        Duration.set_quarterLength rationalize newDuration d (some ql) =
          .ok (.mk ql (candidateDots ql)
            (arrayGet ordinalTypeFromNum (6 - candidatePower ql)) d.tuplets)) ∧
    (candidateLength ql ≠ ql →
      ∃ e : Duration,
        Duration.set_quarterLength rationalize (Duration.new rationalize (fuel + 2)) d
          (some ql) = .ok e ∧
        e.type = arrayGet ordinalTypeFromNum (6 - candidatePower ql - 1) ∧
        e.dots = candidateDots ql) := by
  constructor
  · intro hex nd
    rw [Duration.set_quarterLength_eq, Duration.updateFeaturesFromQl_exact _ _ _
      (by simp only [Duration.quarterLength_mk, logEpsilon]; linarith)
      (Or.inl (by simpa using hex))]
    rfl
  · intro hne
    obtain ⟨e, he, -, hdots, hshape⟩ := Duration.updateFeaturesFromQl_shape rationalize fuel
      (.mk ql d.dots d.type d.tuplets) (by simpa using hql)
    simp only [Duration.quarterLength_mk] at hshape hdots
    rcases hshape with ⟨hex, -, -⟩ | ⟨-, hty, -⟩
    · exact absurd hex hne
    · exact ⟨e, he, hty, hdots⟩

/-- The candidate of `6.0` is itself: a whole note with one dot. -/
theorem dotted_only_when_exact_witness :
    (0 : ℚ) < 6 ∧ candidateLength 6 = 6 ∧
    Duration.set_quarterLength (fun _ => none) (fun _ => .error .outOfFuel) Duration.initial
      (some 6) = .ok (.mk 6 1 (some "whole") []) := by
  have h := dotted_candidate 2 1 (by norm_num) (by norm_num) (by norm_num)
  have h6 : (2 : ℚ) ^ (2 : ℤ) * specDottedMultiplier 1 = 6 := by
    norm_num [specDottedMultiplier]
  rw [h6] at h
  obtain ⟨hp, hd, hl⟩ := h
  refine ⟨by norm_num, hl, ?_⟩
  rw [(dotted_only_when_exact (fun _ => none) Duration.initial 6 0 (by norm_num)).1 hl, hp, hd]
  rfl

/-- The candidate of `3.00005`: power `1` (a half note), one dot found within the tolerance,
length `3`. -/
theorem candidate_near_three :
    candidatePower (60001 / 20000) = 1 ∧ candidateDots (60001 / 20000) = 1 ∧
      candidateLength (60001 / 20000) = 3 := by
  have hp : candidatePower (60001 / 20000) = 1 := by
    apply log_two_eq <;> norm_num [logEpsilon]
  have hd : candidateDots (60001 / 20000) = 1 := by
    unfold candidateDots
    rw [hp]
    apply Duration._findDots_of_least _ _ (by norm_num) 1 (by norm_num)
    · rw [Duration.type_mk, findDots_power 1 (by norm_num) (by norm_num)]
      unfold dotsFit dotTolerance
      norm_num [specDottedMultiplier, abs_lt]
    · intro j hj
      rw [Duration.type_mk, findDots_power 1 (by norm_num) (by norm_num)]
      unfold dotsFit dotTolerance
      interval_cases j
      norm_num [specDottedMultiplier, abs_lt]
  refine ⟨hp, hd, ?_⟩
  unfold candidateLength
  rw [hp, hd]
  norm_num [specDottedMultiplier]

/-- C26 fails as stated: for `ql = 3.00005` `_findDots` finds one dot on the candidate type
`'half'` (the dotted length `3` is within `0.0001` of `ql`), but `3 != ql`, so the type becomes
`'whole'` and, with `rationalize(0.500008…) = 1/2`, a Tuplet `2 : 1` over a dotted whole note is
appended. -/
theorem near_dotted_value_gets_tuplet :
    arrayGet ordinalTypeFromNum (6 - candidatePower (60001 / 20000)) = some "half" ∧
    candidateDots (60001 / 20000) = 1 ∧
    |candidateLength (60001 / 20000) - 60001 / 20000| < dotTolerance ∧
    Duration.set_quarterLength (fun _ => some ⟨1, 2⟩) (Duration.new (fun _ => some ⟨1, 2⟩) 1)
      Duration.initial (some (60001 / 20000)) =
      .ok (.mk (60001 / 20000) 1 (some "whole")
        [Tuplet.mk 2 1 (.mk 6 1 (some "whole") []) (.mk 6 1 (some "whole") []) true]) := by
  obtain ⟨hp, hd, hl⟩ := candidate_near_three
  have h6 : Duration.new (fun _ => some (Fraction.mk 1 2)) 1
      (.number (candidateLength (60001 / 20000) * 2)) = .ok (.mk 6 1 (some "whole") []) := by
    have h := Duration.new_dotted (fun _ => some (Fraction.mk 1 2)) 0 2 1 (by norm_num)
      (by norm_num) (by norm_num)
    have hv : (2 : ℚ) ^ (2 : ℤ) * specDottedMultiplier 1 = 6 := by
      norm_num [specDottedMultiplier]
    rw [hv] at h
    rw [hl]
    norm_num
    rw [h]
    rfl
  refine ⟨by rw [hp]; rfl, hd, by rw [hl]; norm_num [dotTolerance, abs_lt], ?_⟩
  rw [Duration.set_quarterLength_eq,
    Duration.updateFeaturesFromQl_tuplet _ _ _ (.mk 6 1 (some "whole") []) ⟨1, 2⟩
      (by norm_num [logEpsilon]) (by simp only [Duration.quarterLength_mk, hl]; norm_num)
      (by norm_num) rfl (by simpa using h6)]
  simp only [Duration.quarterLength_mk, Duration.tuplets_mk, hp, hd]
  rfl

/-! ## Assigning the same quarter length twice -/

/-- What the numeric path stores depends on the Duration only through its quarter length and
its tuplets: type, dots and the appended Tuplets are the same for every Duration with that
quarter length. -/
theorem Duration.updateFeaturesFromQl_uniform (r : ℚ → Option Fraction) (n : ℕ) (ql : ℚ)
    (hpos : 0 < ql + logEpsilon) :
    ∃ (dots : ℕ) (type : Option String) (appended : List Tuplet), appended.length ≤ 1 ∧
      ∀ d : Duration, d.quarterLength = ql →
        d.updateFeaturesFromQl r (Duration.new r (n + 3)) =
          .ok (.mk ql dots type (d.tuplets ++ appended)) := by
  obtain ⟨da, hda, -⟩ := Duration.new_terminates r n (candidateLength ql * 2)
    (mul_pos (candidateLength_pos _) (by norm_num))
  by_cases hc : candidateLength ql ≠ ql ∧ ql ≠ 0
  · cases hr : r (ql / (candidateLength ql * 2)) with
    | none =>
      refine ⟨candidateDots ql,
        arrayGet ordinalTypeFromNum (quarterTypeIndex - candidatePower ql - 1), [], by simp, ?_⟩
      intro d hd
      subst hd
      rw [Duration.updateFeaturesFromQl_unrationalized r _ d hpos hc.1 hc.2 hr,
        List.append_nil]
    | some f =>
      refine ⟨candidateDots ql,
        arrayGet ordinalTypeFromNum (quarterTypeIndex - candidatePower ql - 1),
        [Tuplet.mk (orDefault (some f.denominator) 3) (orDefault (some f.numerator) 2) da da
          true], by simp, ?_⟩
      intro d hd
      subst hd
      rw [Duration.updateFeaturesFromQl_tuplet r _ d da f hpos hc.1 hc.2 hr hda]
  · refine ⟨candidateDots ql,
      arrayGet ordinalTypeFromNum (quarterTypeIndex - candidatePower ql), [], by simp, ?_⟩
    intro d hd
    subst hd
    rw [Duration.updateFeaturesFromQl_exact r _ d hpos (by
      by_cases h : candidateLength d.quarterLength = d.quarterLength
      · exact Or.inl h
      · exact Or.inr (by_contra fun h0 => hc ⟨h, h0⟩)), List.append_nil]

/-- C27, amended: for `ql > -0.00001`, assigning `ql` twice leaves the same type, dots and
quarter length as assigning it once; the tuplets after the second assignment are the tuplets
after the first followed once more by what the first appended, so they are the same exactly
when the assignment infers no Tuplet. -/
theorem set_quarterLength_twice (rationalize : ℚ → Option Fraction) (d : Duration) (ql : ℚ)
    (fuel : ℕ) (hpos : 0 < ql + logEpsilon) :
    ∃ (e1 e2 : Duration) (appended : List Tuplet),
      Duration.set_quarterLength rationalize (Duration.new rationalize (fuel + 3)) d
        (some ql) = .ok e1 ∧
      Duration.set_quarterLength rationalize (Duration.new rationalize (fuel + 3)) e1
        (some ql) = .ok e2 ∧
      e2.type = e1.type ∧ e2.dots = e1.dots ∧ e2.quarterLength = e1.quarterLength ∧
      appended.length ≤ 1 ∧
      e1.tuplets = d.tuplets ++ appended ∧ e2.tuplets = e1.tuplets ++ appended ∧
      (e2 = e1 ↔ appended = []) := by
  obtain ⟨dots, type, appended, hlen, huni⟩ :=
    Duration.updateFeaturesFromQl_uniform rationalize fuel ql hpos
  refine ⟨.mk ql dots type (d.tuplets ++ appended),
    .mk ql dots type ((d.tuplets ++ appended) ++ appended), appended, ?_, ?_, rfl, rfl, rfl,
    hlen, rfl, rfl, ?_⟩
  · rw [Duration.set_quarterLength_eq]
    exact huni _ rfl
  · rw [Duration.set_quarterLength_eq]
    exact huni _ rfl
  · constructor
    · intro h
      injection h with _ _ _ h4
      have := congrArg List.length h4
      simp only [List.length_append] at this
      exact List.eq_nil_of_length_eq_zero (by omega)
    · intro h
      rw [h, List.append_nil]

/-- Assigning `6.0` twice to a fresh Duration gives a dotted whole note both times. -/
theorem set_quarterLength_twice_witness :
    (0 : ℚ) < 6 + logEpsilon ∧
    ∃ (e1 e2 : Duration) (appended : List Tuplet),
      Duration.set_quarterLength (fun _ => none) (Duration.new (fun _ => none) 3)
        Duration.initial (some 6) = .ok e1 ∧
      Duration.set_quarterLength (fun _ => none) (Duration.new (fun _ => none) 3) e1
        (some 6) = .ok e2 ∧
      e2.type = e1.type ∧ e2.dots = e1.dots ∧ e2.quarterLength = e1.quarterLength ∧
      appended.length ≤ 1 ∧
      e1.tuplets = Duration.initial.tuplets ++ appended ∧
      e2.tuplets = e1.tuplets ++ appended ∧
      (e2 = e1 ↔ appended = []) :=
  ⟨by norm_num [logEpsilon],
   set_quarterLength_twice (fun _ => none) Duration.initial 6 0 (by norm_num [logEpsilon])⟩

/-- C27 fails as stated: with `rationalize(2/3) = 2/3`, as the module's test has it,
`quarterLength = 1/3` on a fresh Duration leaves one triplet, and the same assignment again
leaves two. -/
theorem second_assignment_adds_tuplet :
    Duration.set_quarterLength (fun _ => some ⟨2, 3⟩) (Duration.new (fun _ => some ⟨2, 3⟩) 1)
      Duration.initial (some (1 / 3)) =
      .ok (.mk (1 / 3) 0 (some "eighth")
        [Tuplet.mk 3 2 (.mk (1/2) 0 (some "eighth") []) (.mk (1/2) 0 (some "eighth") []) true]) ∧
    Duration.set_quarterLength (fun _ => some ⟨2, 3⟩) (Duration.new (fun _ => some ⟨2, 3⟩) 1)
      (.mk (1 / 3) 0 (some "eighth")
        [Tuplet.mk 3 2 (.mk (1/2) 0 (some "eighth") []) (.mk (1/2) 0 (some "eighth") []) true])
      (some (1 / 3)) =
      .ok (.mk (1 / 3) 0 (some "eighth")
        [Tuplet.mk 3 2 (.mk (1/2) 0 (some "eighth") []) (.mk (1/2) 0 (some "eighth") []) true,
         Tuplet.mk 3 2 (.mk (1/2) 0 (some "eighth") []) (.mk (1/2) 0 (some "eighth") []) true]) ∧
    ([Tuplet.mk 3 2 (.mk (1/2) 0 (some "eighth") []) (.mk (1/2) 0 (some "eighth") []) true,
      Tuplet.mk 3 2 (.mk (1/2) 0 (some "eighth") []) (.mk (1/2) 0 (some "eighth") [])
        true] : List Tuplet).length = 2 := by
  obtain ⟨hp, hd, hl⟩ := candidate_one_third
  have hhalf : Duration.new (fun _ => some (Fraction.mk 2 3)) 1
      (.number (candidateLength (1 / 3) * 2)) = .ok (.mk (1 / 2) 0 (some "eighth") []) := by
    rw [hl]
    norm_num
    exact Duration.new_half _ 0
  have key : ∀ ts : List Tuplet,
      Duration.updateFeaturesFromQl (fun _ => some ⟨2, 3⟩)
        (Duration.new (fun _ => some ⟨2, 3⟩) 1) (.mk (1 / 3) 0 (some "eighth") ts) =
      .ok (.mk (1 / 3) 0 (some "eighth") (ts ++
        [Tuplet.mk 3 2 (.mk (1/2) 0 (some "eighth") []) (.mk (1/2) 0 (some "eighth") [])
          true])) := by
    intro ts
    rw [Duration.updateFeaturesFromQl_tuplet _ _ _ (.mk (1 / 2) 0 (some "eighth") []) ⟨2, 3⟩
      (by norm_num [logEpsilon]) (by simp only [Duration.quarterLength_mk, hl]; norm_num)
      (by norm_num) rfl (by simpa using hhalf)]
    simp only [Duration.quarterLength_mk, Duration.tuplets_mk, hp, hd]
    rfl
  refine ⟨?_, ?_, rfl⟩
  · rw [Duration.set_quarterLength_eq]
    rw [Duration.updateFeaturesFromQl_tuplet _ _ _ (.mk (1 / 2) 0 (some "eighth") []) ⟨2, 3⟩
      (by norm_num [logEpsilon]) (by simp only [Duration.quarterLength_mk, hl]; norm_num)
      (by norm_num) rfl (by simpa using hhalf)]
    simp only [Duration.quarterLength_mk, Duration.tuplets_mk, hp, hd]
    rfl
  · rw [Duration.set_quarterLength_eq]
    exact key _

/-! ## Nesting depth -/

/-- C28: for `ql > 0` whose candidate index `6 - p` lies in `1 .. 14`, the nested
`new Duration(2u)` needs no nested construction and returns the dotted note of the next-longer
type, `ordinalTypeFromNum[6 - p - 1]`, with the same dots, quarter length `2u` and no tuplets,
whatever `rationalize` returns; so `new Duration(ql)` returns within a nesting budget of two. -/
theorem nesting_depth_one (rationalize : ℚ → Option Fraction) (fuel : ℕ) (ql : ℚ)
    (hql : 0 < ql) (hp0 : -8 ≤ candidatePower ql) (hp1 : candidatePower ql ≤ 5) :
    (∃ T : String, arrayGet ordinalTypeFromNum (6 - candidatePower ql - 1) = some T ∧
      T ∈ ordinalTypeFromNum ∧
      Duration.new rationalize (fuel + 1) (.number (candidateLength ql * 2)) =
        .ok (.mk (candidateLength ql * 2) (candidateDots ql) (some T) [])) ∧
    ∃ e : Duration, Duration.new rationalize (fuel + 2) (.number ql) = .ok e ∧
      e.quarterLength = ql := by
  have hl : candidateLength ql * 2 =
      2 ^ (candidatePower ql + 1) * specDottedMultiplier (candidateDots ql) := by
    unfold candidateLength
    rw [zpow_add_one₀ (by norm_num)]
    ring
  have hnest := Duration.new_dotted rationalize fuel (candidatePower ql + 1) (candidateDots ql)
    (by omega) (by omega) (candidateDots_le ql)
  rw [← hl] at hnest
  obtain ⟨T, hT, hmem⟩ := arrayGet_table (6 - candidatePower ql - 1) (by omega) (by omega)
  have hidx : quarterTypeIndex - (candidatePower ql + 1) = 6 - candidatePower ql - 1 := by
    unfold quarterTypeIndex; ring
  rw [hidx, hT] at hnest
  refine ⟨⟨T, hT, hmem, hnest⟩, ?_⟩
  have hpos : 0 < (Duration.mk ql 0 (some "quarter") []).quarterLength + logEpsilon := by
    simp only [Duration.quarterLength_mk, logEpsilon]; linarith
  rw [Duration.new_number, Duration.updateFeaturesFromQl_eq rationalize _ _ hpos]
  simp only [Duration.quarterLength_mk, hnest]
  split
  · split
    · exact ⟨_, rfl, rfl⟩
    · exact ⟨_, rfl, rfl⟩
  · exact ⟨_, rfl, rfl⟩

/-- For `ql = 1/3` the nested Duration is `new Duration(0.5)`, an eighth note. -/
theorem nesting_depth_one_witness :
    ((0 : ℚ) < 1 / 3 ∧ -8 ≤ candidatePower (1 / 3) ∧ candidatePower (1 / 3) ≤ 5) ∧
    (∃ T : String, arrayGet ordinalTypeFromNum (6 - candidatePower (1 / 3) - 1) = some T ∧
      T ∈ ordinalTypeFromNum ∧
      Duration.new (fun _ => some ⟨2, 3⟩) 1 (.number (candidateLength (1 / 3) * 2)) =
        .ok (.mk (candidateLength (1 / 3) * 2) (candidateDots (1 / 3)) (some T) [])) ∧
    ∃ e : Duration, Duration.new (fun _ => some ⟨2, 3⟩) 2 (.number (1 / 3)) = .ok e ∧
      e.quarterLength = 1 / 3 := by
  have hp := candidate_one_third.1
  exact ⟨⟨by norm_num, by rw [hp]; norm_num, by rw [hp]; norm_num⟩,
    nesting_depth_one (fun _ => some ⟨2, 3⟩) 0 (1 / 3) (by norm_num) (by rw [hp]; norm_num)
      (by rw [hp]; norm_num)⟩

/-! ## The inferred Tuplet is well formed -/

theorem orDefault_pos (n : Option ℕ) (dflt : ℕ) (h : 1 ≤ dflt) : 1 ≤ orDefault n dflt := by
  unfold orDefault
  split
  · omega
  · exact h

theorem orDefault_some_zero (dflt : ℕ) : orDefault (some 0) dflt = dflt := rfl

/-- C29: for `ql > 0`, `set quarterLength(ql)` returns, and a Tuplet it appends has
`numberNotesActual ≥ 1`, `numberNotesNormal ≥ 1` (they are the denominator and numerator that
`rationalize` returned, a `0` replaced by `3` and by `2`), the same positive quarter length in
`durationActual` and `durationNormal`, a non-zero divisor in `tupletMultiplier()`, and a
positive multiplier. -/
theorem inferred_tuplet_well_formed (rationalize : ℚ → Option Fraction) (d : Duration)
    (ql : ℚ) (fuel : ℕ) (hql : 0 < ql) :
    ∃ e : Duration,
      Duration.set_quarterLength rationalize (Duration.new rationalize (fuel + 2)) d
        (some ql) = .ok e ∧
      (e.tuplets = d.tuplets ∨
        ∃ (t : Tuplet) (f : Fraction), e.tuplets = d.tuplets ++ [t] ∧
          rationalize (ql / (candidateLength ql * 2)) = some f ∧
          t.numberNotesActual = (if f.denominator = 0 then 3 else f.denominator) ∧
          t.numberNotesNormal = (if f.numerator = 0 then 2 else f.numerator) ∧
          1 ≤ t.numberNotesActual ∧ 1 ≤ t.numberNotesNormal ∧
          t.durationActual.quarterLength = t.durationNormal.quarterLength ∧
          0 < t.durationActual.quarterLength ∧
          (t.numberNotesActual : ℚ) * t.durationActual.quarterLength ≠ 0 ∧
          0 < t.tupletMultiplier) := by
  obtain ⟨e, he, -, -, hshape⟩ := Duration.updateFeaturesFromQl_shape rationalize fuel
    (.mk ql d.dots d.type d.tuplets) (by simpa using hql)
  simp only [Duration.quarterLength_mk, Duration.tuplets_mk] at hshape
  refine ⟨e, he, ?_⟩
  rcases hshape with ⟨-, -, htup⟩ | ⟨-, -, ⟨-, htup⟩ | ⟨f, da, hr, -, hdaq, htup⟩⟩
  · exact Or.inl htup
  · exact Or.inl htup
  · right
    have hda : 0 < da.quarterLength := by
      rw [hdaq]; exact mul_pos (candidateLength_pos ql) (by norm_num)
    have ha : 1 ≤ orDefault (some f.denominator) 3 := orDefault_pos _ 3 (by norm_num)
    have hn : 1 ≤ orDefault (some f.numerator) 2 := orDefault_pos _ 2 (by norm_num)
    have ha' : (0 : ℚ) < (orDefault (some f.denominator) 3 : ℕ) := by exact_mod_cast ha
    have hn' : (0 : ℚ) < (orDefault (some f.numerator) 2 : ℕ) := by exact_mod_cast hn
    have hdef : ∀ k dflt : ℕ, orDefault (some k) dflt = if k = 0 then dflt else k := by
      intro k dflt
      cases k with
      | zero => rfl
      | succ m => simp [orDefault]
    refine ⟨_, f, htup, hr, hdef _ 3, hdef _ 2, ha, hn, rfl, hda, ?_, ?_⟩
    · exact (mul_pos ha' hda).ne'
    · simp only [Tuplet.tupletMultiplier, Tuplet.totalTupletLength, Tuplet.numberNotesNormal_mk,
        Tuplet.numberNotesActual_mk, Tuplet.durationActual_mk, Tuplet.durationNormal_mk]
      exact div_pos (mul_pos hn' hda) (mul_pos ha' hda)

/-- With a `rationalize` that answers `0/0`, quarter length `1/3` gets the default Tuplet
`3 : 2` over an eighth note, with multiplier `2/3`. -/
theorem inferred_tuplet_well_formed_witness :
    (0 : ℚ) < 1 / 3 ∧
    ∃ e : Duration,
      Duration.set_quarterLength (fun _ => some ⟨0, 0⟩) (Duration.new (fun _ => some ⟨0, 0⟩) 2)
        Duration.initial (some (1 / 3)) = .ok e ∧
      (e.tuplets = Duration.initial.tuplets ∨
        ∃ (t : Tuplet) (f : Fraction), e.tuplets = Duration.initial.tuplets ++ [t] ∧
          (fun _ : ℚ => some (Fraction.mk 0 0)) ((1 / 3) / (candidateLength (1 / 3) * 2)) =
            some f ∧
          t.numberNotesActual = (if f.denominator = 0 then 3 else f.denominator) ∧
          t.numberNotesNormal = (if f.numerator = 0 then 2 else f.numerator) ∧
          1 ≤ t.numberNotesActual ∧ 1 ≤ t.numberNotesNormal ∧
          t.durationActual.quarterLength = t.durationNormal.quarterLength ∧
          0 < t.durationActual.quarterLength ∧
          (t.numberNotesActual : ℚ) * t.durationActual.quarterLength ≠ 0 ∧
          0 < t.tupletMultiplier) :=
  ⟨by norm_num,
   inferred_tuplet_well_formed (fun _ => some ⟨0, 0⟩) Duration.initial (1 / 3) 0 (by norm_num)⟩

/-! ## The symbolic conversion is injective -/

theorem specDottedMultiplier_lt (a b : ℕ) (h : a < b) :
    specDottedMultiplier a < specDottedMultiplier b := by
  rw [specDottedMultiplier_eq, specDottedMultiplier_eq]
  have hpow : (2 : ℚ) ^ a < 2 ^ b := pow_lt_pow_right₀ (by norm_num) h
  have : (1 : ℚ) / 2 ^ b < 1 / 2 ^ a := one_div_lt_one_div_of_lt (by positivity) hpow
  linarith

theorem specDottedMultiplier_injective (a b : ℕ)
    (h : specDottedMultiplier a = specDottedMultiplier b) : a = b := by
  rcases lt_trichotomy a b with hlt | heq | hgt
  · exact absurd h (specDottedMultiplier_lt a b hlt).ne
  · exact heq
  · exact absurd h (specDottedMultiplier_lt b a hgt).ne'

/-- The quarter length that `updateQlFromFeatures` stores in a tuplet-free Duration of the
table type at index `i`. -/
theorem Duration.updateQlFromFeatures_tuplet_free (e : Duration) (i : ℕ) (T : String)
    (hT : ordinalTypeFromNum.get? i = some T) (htype : e.type = some T)
    (htup : e.tuplets = []) :
    e.updateQlFromFeatures.quarterLength = 2 ^ (6 - (i : ℤ)) * specDottedMultiplier e.dots := by
  rw [Duration.updateQlFromFeatures_eq, htype, inArray_of_get? i T hT, htup]
  simp [specQuarterLength, specNominalQuarterLength]

/-- C30: on tuplet-free Durations of table types the quarter length `q` that
`updateQlFromFeatures` computes lies in `[N, 2N)` for the nominal length `N = 2^(6-i)`, grows
strictly with the dots, and determines the type and the dots. -/
theorem symbolic_conversion_injective (e1 e2 : Duration) (i j : ℕ) (T1 T2 : String)
    (hT1 : ordinalTypeFromNum.get? i = some T1) (hT2 : ordinalTypeFromNum.get? j = some T2)
    (htype1 : e1.type = some T1) (htype2 : e2.type = some T2)
    (htup1 : e1.tuplets = []) (htup2 : e2.tuplets = []) :
    (2 ^ (6 - (i : ℤ)) ≤ e1.updateQlFromFeatures.quarterLength ∧
      e1.updateQlFromFeatures.quarterLength < 2 * 2 ^ (6 - (i : ℤ))) ∧
    (∀ a b : ℕ, a < b → (e1.set_dots a).quarterLength < (e1.set_dots b).quarterLength) ∧
    (e1.updateQlFromFeatures.quarterLength = e2.updateQlFromFeatures.quarterLength →
      T1 = T2 ∧ e1.dots = e2.dots) := by
  have hq1 := Duration.updateQlFromFeatures_tuplet_free e1 i T1 hT1 htype1 htup1
  have hq2 := Duration.updateQlFromFeatures_tuplet_free e2 j T2 hT2 htype2 htup2
  have hpos : ∀ k : ℤ, (0 : ℚ) < 2 ^ k := fun k => by positivity
  have hbound : ∀ (k : ℤ) (n : ℕ), (2 : ℚ) ^ k ≤ 2 ^ k * specDottedMultiplier n ∧
      2 ^ k * specDottedMultiplier n < 2 * 2 ^ k := by
    intro k n
    have h1 := specDottedMultiplier_ge_one n
    have h2 := specDottedMultiplier_lt_two n
    constructor
    · nlinarith [hpos k]
    · nlinarith [hpos k]
  refine ⟨by rw [hq1]; exact hbound _ _, ?_, ?_⟩
  · intro a b hab
    have ha := Duration.updateQlFromFeatures_tuplet_free
      (.mk e1.quarterLength a e1.type e1.tuplets) i T1 hT1 htype1 htup1
    have hb := Duration.updateQlFromFeatures_tuplet_free
      (.mk e1.quarterLength b e1.type e1.tuplets) i T1 hT1 htype1 htup1
    unfold Duration.set_dots
    rw [ha, hb]
    exact mul_lt_mul_of_pos_left (specDottedMultiplier_lt a b hab) (hpos _)
  · intro heq
    rw [hq1, hq2] at heq
    have hij : i = j := by
      rcases lt_trichotomy i j with hlt | h | hgt
      · exfalso
        have hle : (2 : ℚ) * 2 ^ (6 - (j : ℤ)) ≤ 2 ^ (6 - (i : ℤ)) := by
          have := two_zpow_ge (6 - (i : ℤ)) (6 - (j : ℤ) + 1) (by omega)
          rw [zpow_add_one₀ (by norm_num)] at this
          linarith
        have h1 := (hbound (6 - (i : ℤ)) e1.dots).1
        have h2 := (hbound (6 - (j : ℤ)) e2.dots).2
        linarith
      · exact h
      · exfalso
        have hle : (2 : ℚ) * 2 ^ (6 - (i : ℤ)) ≤ 2 ^ (6 - (j : ℤ)) := by
          have := two_zpow_ge (6 - (j : ℤ)) (6 - (i : ℤ) + 1) (by omega)
          rw [zpow_add_one₀ (by norm_num)] at this
          linarith
        have h1 := (hbound (6 - (j : ℤ)) e2.dots).1
        have h2 := (hbound (6 - (i : ℤ)) e1.dots).2
        linarith
    subst hij
    have hTT : T1 = T2 := by
      rw [hT1] at hT2
      exact Option.some.inj hT2
    refine ⟨hTT, ?_⟩
    have := mul_left_cancel₀ (hpos (6 - (i : ℤ))).ne' heq
    exact specDottedMultiplier_injective _ _ this

/-- A dotted quarter (`1.5`) lies between `1` and `2`, and a half note with no dots and a
quarter note with one dot are told apart by their quarter lengths. -/
theorem symbolic_conversion_injective_witness :
    (ordinalTypeFromNum.get? 6 = some "quarter" ∧ ordinalTypeFromNum.get? 5 = some "half" ∧
      (Duration.mk 1 1 (some "quarter") []).type = some "quarter" ∧
      (Duration.mk 1 0 (some "half") []).type = some "half" ∧
      (Duration.mk 1 1 (some "quarter") []).tuplets = [] ∧
      (Duration.mk 1 0 (some "half") []).tuplets = []) ∧
    (2 ^ (6 - ((6 : ℕ) : ℤ)) ≤ (Duration.mk 1 1 (some "quarter") []).updateQlFromFeatures.quarterLength ∧
      (Duration.mk 1 1 (some "quarter") []).updateQlFromFeatures.quarterLength <
        2 * 2 ^ (6 - ((6 : ℕ) : ℤ))) :=
  ⟨⟨by decide, by decide, rfl, rfl, rfl, rfl⟩,
   (symbolic_conversion_injective (.mk 1 1 (some "quarter") []) (.mk 1 0 (some "half") []) 6 5
     "quarter" "half" (by decide) (by decide) rfl rfl rfl rfl).1⟩

end duration

/-! ## MIDI input -/

namespace webmidi

/-- C24 (the code at every input): the shim stores the timing value under the key
`timestamp`, and `midiInArrived` reads the key `timeStamp`; so `callBacks.raw` is called once,
with `undefined` as its first argument and the three data bytes after it. -/
theorem jazzMidiInArrived_loses_timing {ε ρ : Type} (callBacks : CallBacks ε ρ) (t a b c : ℤ) :
    (jazzMidiInArrived callBacks t a b c).rawCalls =
      [⟨none, some (.number a), some (.number b), some (.number c)⟩] ∧
    (jazzMidiInArrived callBacks t a b c).thrown = none := by
  unfold jazzMidiInArrived midiInArrived
  have ht : getProperty [("timestamp", Value.number t), ("data", Value.array [a, b, c])]
      "timeStamp" = none := by
    simp [getProperty, List.lookup]
  have hd : getProperty [("timestamp", Value.number t), ("data", Value.array [a, b, c])]
      "data" = some (.array [a, b, c]) := by
    simp [getProperty, List.lookup]
  simp only [ht, hd]
  cases callBacks.general <;> exact ⟨rfl, rfl⟩

/-- An event with the key `timeStamp`, as the WebMIDI API delivers it, passes its timing value
to `callBacks.raw`. -/
theorem midiInArrived_passes_timeStamp {ε ρ : Type} (callBacks : CallBacks ε ρ) (t a b c : ℤ) :
    (midiInArrived callBacks [("timeStamp", .number t), ("data", .array [a, b, c])]).rawCalls =
      [⟨some (.number t), some (.number a), some (.number b), some (.number c)⟩] := by
  unfold midiInArrived
  have ht : getProperty [("timeStamp", Value.number t), ("data", Value.array [a, b, c])]
      "timeStamp" = some (.number t) := by
    simp [getProperty, List.lookup]
  have hd : getProperty [("timeStamp", Value.number t), ("data", Value.array [a, b, c])]
      "data" = some (.array [a, b, c]) := by
    simp [getProperty, List.lookup]
  simp only [ht, hd]
  cases callBacks.general <;> rfl

end webmidi
